import Mathlib

/-!
Verification of the VectorDB core against its specification.

Shallow embedding conventions:
* Python floats are modelled as rationals (`ℚ`).  The only genuinely
  irrational operation, `math.sqrt`, is modelled by `ratSqrt`, which is exact
  on perfect-square rationals — in particular on the norms `0` and `1` that
  every theorem below exercises — and is an unspecified stand-in elsewhere.
* Python dicts are modelled as insertion-ordered association lists with
  overwrite-on-assignment semantics (`dictGet`/`dictSet`/`dictDel`).
* Python exceptions are modelled by `Except Err`; stateful methods return
  the (possibly partially mutated) state alongside the result, so that
  "no partial effect" claims are meaningful.
* `list.sort` is modelled by `List.insertionSort`, which produces a sorted
  permutation exactly like Python's sort; the two can differ only in the
  relative order of equal keys, which the specification leaves unspecified
  ("tie-breaking is permitted but unspecified").
* Python `str` is modelled by `String` where only equality is used (ids,
  tags, authors) and by `List Char` where the code lower-cases, strips or
  searches substrings (chunk text).
-/

namespace VDB

/-- Error kinds of the repository (`app/core/errors.py` and the built-in
Python exceptions the index classes raise): `ValueError("Duplicate id ...")`
is `Err.Duplicate`, `KeyError` and `NotFoundError` are `Err.NotFound`,
`ValidationError` is `Err.Validation`, `ConflictError` is `Err.Conflict`. -/
inductive Err where
  | Duplicate
  | NotFound
  | Validation
  | Conflict
  deriving DecidableEq, Repr

/-- Whether a call completed without raising. -/
def exceptOk {α : Type} : Except Err α → Bool
  | .ok _ => true
  | .error _ => false

/-! ### Python dict as an insertion-ordered association list -/

/-- Lookup in a Python dict (`m.get(k)` / `k in m`). -/
def dictGet {κ α : Type} [DecidableEq κ] (m : List (κ × α)) (k : κ) : Option α :=
  (m.find? (fun p => p.1 = k)).map (fun p => p.2)

/-- Assignment `m[k] = v`: overwrite in place if the key exists, else append. -/
def dictSet {κ α : Type} [DecidableEq κ] (m : List (κ × α)) (k : κ) (v : α) : List (κ × α) :=
  if (m.find? (fun p => p.1 = k)).isSome then
    m.map (fun p => if p.1 = k then (k, v) else p)
  else
    m ++ [(k, v)]

/-- Deletion `del m[k]`. -/
def dictDel {κ α : Type} [DecidableEq κ] (m : List (κ × α)) (k : κ) : List (κ × α) :=
  m.filter (fun p => ¬ p.1 = k)

/-- Iteration order of `m.keys()`. -/
def dictKeys {κ α : Type} (m : List (κ × α)) : List κ :=
  m.map (fun p => p.1)

/-- Iteration order of `m.values()`. -/
def dictValues {κ α : Type} (m : List (κ × α)) : List α :=
  m.map (fun p => p.2)

/-! ### `app/domain/indexes/base.py` -/

/-- `dot(a, b) = sum(x * y for x, y in zip(a, b))`. -/
def dot : List ℚ → List ℚ → ℚ
  | x :: a, y :: b => x * y + dot a b
  | _, _ => 0

/-- Sum of squares `sum(x * x for x in a)`, the radicand of `l2_norm`. -/
def normSq : List ℚ → ℚ
  | [] => 0
  | x :: a => x * x + normSq a

/-- Rational stand-in for `math.sqrt`, exact on perfect squares (for a
rational in lowest terms, numerator and denominator square roots are taken
with `Nat.sqrt`).  All claims below evaluate it only at `0` and `1`. -/
def ratSqrt (q : ℚ) : ℚ :=
  (Nat.sqrt q.num.toNat : ℚ) / (Nat.sqrt q.den : ℚ)

/-- `l2_norm(a) = math.sqrt(sum(x * x for x in a))`. -/
def l2_norm (a : List ℚ) : ℚ :=
  ratSqrt (normSq a)

/-- `normalize(a)`: zero-norm vectors map to all-zeros, otherwise divide by
the norm. -/
def normalize (a : List ℚ) : List ℚ :=
  if l2_norm a = 0 then a.map (fun _ => 0)
  else a.map (fun x => x / l2_norm a)

/-- `cosine_similarity(a, b)`: `0` when either norm is zero, else
`dot(a, b) / (na * nb)`. -/
def cosine_similarity (a b : List ℚ) : ℚ :=
  let na := l2_norm a
  let nb := l2_norm b
  if na = 0 ∨ nb = 0 then 0 else dot a b / (na * nb)

/-! ### `app/domain/indexes/brute_force.py` -/

/-- State of `BruteForceIndex`: flat arrays `_vectors`, `_ids` and the
`_pos : id → position` dict. -/
structure BruteForceIndex where
  vectors : List (List ℚ)
  ids : List String
  pos : List (String × ℕ)
  pre_normalize : Bool
  deriving Repr

/-- `BruteForceIndex(pre_normalize=True)`. -/
def BruteForceIndex.empty (pre_normalize : Bool := true) : BruteForceIndex :=
  { vectors := [], ids := [], pos := [], pre_normalize := pre_normalize }

/-- The dict comprehension `{id: i for i, id in enumerate(ids)}` (later
duplicates overwrite earlier ones). -/
def posOfIds (ids : List String) : List (String × ℕ) :=
  (ids.enum).foldl (fun m p => dictSet m p.2 p.1) []

/-- `build(vectors, ids)`: replace the contents wholesale. -/
def BruteForceIndex.build (s : BruteForceIndex) (vectors : List (List ℚ))
    (ids : List String) : BruteForceIndex :=
  let vs := if s.pre_normalize then vectors.map normalize else vectors
  { s with vectors := vs, ids := ids, pos := posOfIds ids }

/-- `add(vector, id)`: raises `Duplicate` when the id is present, else
appends. -/
def BruteForceIndex.add (s : BruteForceIndex) (vector : List ℚ) (id : String) :
    Except Err BruteForceIndex :=
  if (dictGet s.pos id).isSome then .error .Duplicate
  else
    let v := if s.pre_normalize then normalize vector else vector
    .ok { s with pos := dictSet s.pos id s.ids.length,
                 ids := s.ids ++ [id],
                 vectors := s.vectors ++ [v] }

/-- `remove(id)`: swap-with-last then pop; raises `NotFound` (`KeyError`)
when absent. -/
def BruteForceIndex.remove (s : BruteForceIndex) (id : String) :
    Except Err BruteForceIndex :=
  match dictGet s.pos id with
  | none => .error .NotFound
  | some idx =>
    let last_idx := s.ids.length - 1
    let s1 :=
      if idx ≠ last_idx then
        let ids' := (s.ids.set idx (s.ids.getD last_idx "")).set last_idx (s.ids.getD idx "")
        let vectors' := (s.vectors.set idx (s.vectors.getD last_idx [])).set last_idx (s.vectors.getD idx [])
        { s with ids := ids', vectors := vectors',
                 pos := dictSet s.pos (ids'.getD idx "") idx }
      else s
    .ok { s1 with ids := s1.ids.dropLast, vectors := s1.vectors.dropLast,
                  pos := dictDel s1.pos id }

/-- `update(id, new_vector)`: replace the stored vector in place; raises
`NotFound` (`KeyError`) when absent. -/
def BruteForceIndex.update (s : BruteForceIndex) (id : String) (new_vector : List ℚ) :
    Except Err BruteForceIndex :=
  match dictGet s.pos id with
  | none => .error .NotFound
  | some idx =>
    let v := if s.pre_normalize then normalize new_vector else new_vector
    .ok { s with vectors := s.vectors.set idx v }

/-- Descending stable sort by score, `pairs.sort(key=lambda x: x[1], reverse=True)`. -/
def sortByScoreDesc (l : List (String × ℚ)) : List (String × ℚ) :=
  List.insertionSort (fun a b => b.2 ≤ a.2) l

/-- `search(query, k)`: score every stored vector, sort descending, return
the first `max(0, k)`. -/
def BruteForceIndex.search (s : BruteForceIndex) (query : List ℚ) (k : ℤ) :
    List (String × ℚ) :=
  let q := if s.pre_normalize then normalize query else query
  let pairs := (List.zip s.ids s.vectors).map (fun p => (p.1, cosine_similarity q p.2))
  (sortByScoreDesc pairs).take (max 0 k).toNat

/-- `size()`. -/
def BruteForceIndex.size (s : BruteForceIndex) : ℕ :=
  s.ids.length

/-- Consistency of the brute-force internal state, as claimed: arrays of
equal length, the position dict is exactly the inverse of the ids array,
and `size()` counts the stored ids. -/
def BruteForceIndex.Consistent (s : BruteForceIndex) : Prop :=
  s.ids.length = s.vectors.length ∧
  s.ids.Nodup ∧
  (∀ id i, dictGet s.pos id = some i ↔ i < s.ids.length ∧ s.ids.getD i "" = id) ∧
  s.size = s.ids.length

/-- The association `id ↦ stored vector` realised by the arrays and the
position dict (`self._vectors[self._pos[id]]`). -/
def BruteForceIndex.vecOf (s : BruteForceIndex) (id : String) : Option (List ℚ) :=
  (dictGet s.pos id).map (fun i => s.vectors.getD i [])

/-! ### `app/domain/indexes/kd_tree.py` -/

/-- `_distance_sq(a, b) = sum((x - y)**2 for x, y in zip(a, b))`. -/
def distance_sq : List ℚ → List ℚ → ℚ
  | x :: a, y :: b => (x - y) * (x - y) + distance_sq a b
  | _, _ => 0

/-- The `Optional[_Node]` tree of `kd_tree.py`: `nil` is Python's `None`. -/
inductive KDNode where
  | nil
  | node (point : List ℚ) (id : String) (axis : ℕ) (left right : KDNode)
  deriving DecidableEq, Repr

/-- Number of nodes, used as the termination measure of the traversal. -/
def KDNode.count : KDNode → ℕ
  | .nil => 0
  | .node _ _ _ l r => l.count + r.count + 1

/-- in-order list of `(point, id)` pairs stored in a subtree. -/
def KDNode.entries : KDNode → List (List ℚ × String)
  | .nil => []
  | .node p id _ l r => l.entries ++ (p, id) :: r.entries

/-- `items.sort(key=lambda x: x[0][axis])`; out-of-range axes read as `0`
(Python would raise there; every use below is guarded by well-formed
dimensions). -/
def kdSortByAxis (axis : ℕ) (items : List (List ℚ × String)) : List (List ℚ × String) :=
  List.insertionSort (fun a b => a.1.getD axis 0 ≤ b.1.getD axis 0) items

/-- `_build_recursive(items, depth)`: sort by the axis `depth % dim`, take
the median as the node, recurse on the two halves. -/
def buildRec : List (List ℚ × String) → ℕ → KDNode
  | [], _ => .nil
  | it0 :: rest, depth =>
    let axis := depth % it0.1.length
    let sorted := kdSortByAxis axis (it0 :: rest)
    let mid := sorted.length / 2
    let pp := sorted.getD mid ([], "")
    .node pp.1 pp.2 axis (buildRec (sorted.take mid) (depth + 1))
      (buildRec (sorted.drop (mid + 1)) (depth + 1))
termination_by items _ => items.length
decreasing_by
  · have hlen : (kdSortByAxis (depth % it0.1.length) (it0 :: rest)).length
        = (it0 :: rest).length := (List.perm_insertionSort _ _).length_eq
    simp only [List.length_take, hlen, List.length_cons]
    omega
  · have hlen : (kdSortByAxis (depth % it0.1.length) (it0 :: rest)).length
        = (it0 :: rest).length := (List.perm_insertionSort _ _).length_eq
    simp only [List.length_drop, hlen, List.length_cons]
    omega

/-- `best.sort(key=lambda x: x[0])`: sort candidates ascending by distance². -/
def kdSortBest (l : List (ℚ × String)) : List (ℚ × String) :=
  List.insertionSort (fun a b => a.1 ≤ b.1) l

/-- `_search_node(node, q, k, best)`: record the node's distance, trim the
candidate list to `k`, descend the near side, and visit the far side iff
fewer than `k` candidates are held or `delta² <` the worst held distance. -/
def searchNode : KDNode → List ℚ → ℤ → List (ℚ × String) → List (ℚ × String)
  | .nil, _, _, best => best
  | .node point id axis l r, q, k, best =>
    let dist_sq := distance_sq q point
    let best1 := kdSortBest (best ++ [(dist_sq, id)])
    let best2 := if (best1.length : ℤ) > k then best1.dropLast else best1
    let delta := q.getD axis 0 - point.getD axis 0
    let best3 := searchNode (if delta < 0 then l else r) q k best2
    if (best3.length : ℤ) < k ∨ delta * delta < (best3.getLastD (0, "")).1 then
      searchNode (if delta < 0 then r else l) q k best3
    else best3
termination_by t _ _ _ => t.count
decreasing_by
  · split <;> simp [KDNode.count] <;> omega
  · split <;> simp [KDNode.count] <;> omega

/-- State of `KDTreeIndex`. -/
structure KDTreeIndex where
  root : KDNode
  size : ℕ
  dim : ℕ
  id_to_point : List (String × List ℚ)
  deriving Repr

/-- `KDTreeIndex()`. -/
def KDTreeIndex.empty : KDTreeIndex :=
  { root := .nil, size := 0, dim := 0, id_to_point := [] }

/-- `build(vectors, ids)`: normalize, zip with ids, build the tree and the
`id → point` dict (`{i: p for p, i in items}`, duplicate ids overwrite). -/
def KDTreeIndex.build (_s : KDTreeIndex) (vectors : List (List ℚ))
    (ids : List String) : KDTreeIndex :=
  if vectors = [] then { root := .nil, size := 0, dim := 0, id_to_point := [] }
  else
    let points := vectors.map normalize
    let dim := (points.headD []).length
    let items := List.zip points ids
    { root := buildRec items 0, size := items.length, dim := dim,
      id_to_point := items.foldl (fun m p => dictSet m p.2 p.1) [] }

/-- `add(vector, id)`: full rebuild with the element appended.  The source
performs no duplicate check here (unlike the other two variants). -/
def KDTreeIndex.add (s : KDTreeIndex) (vector : List ℚ) (id : String) :
    Except Err KDTreeIndex :=
  .ok (s.build (dictValues s.id_to_point ++ [normalize vector])
        (dictKeys s.id_to_point ++ [id]))

/-- `remove(id)`: raises `NotFound` (`KeyError`) when absent, else full
rebuild without the element. -/
def KDTreeIndex.remove (s : KDTreeIndex) (id : String) : Except Err KDTreeIndex :=
  if (dictGet s.id_to_point id).isSome then
    let all_ids := (dictKeys s.id_to_point).filter (fun i => ¬ i = id)
    let all_points := all_ids.map (fun i => (dictGet s.id_to_point i).getD [])
    .ok (s.build all_points all_ids)
  else .error .NotFound

/-- `update(id, new_vector)`: raises `NotFound` when absent, else overwrite
the point and rebuild. -/
def KDTreeIndex.update (s : KDTreeIndex) (id : String) (new_vector : List ℚ) :
    Except Err KDTreeIndex :=
  if (dictGet s.id_to_point id).isSome then
    let m := dictSet s.id_to_point id (normalize new_vector)
    .ok ({ s with id_to_point := m }.build
          ((dictKeys m).map (fun i => (dictGet m i).getD [])) (dictKeys m))
  else .error .NotFound

/-- `search(query, k)`: empty on an empty tree or `k ≤ 0`; otherwise run the
pruned traversal, sort ascending by distance², take `k` and convert each
distance to a cosine score via `1 - d²/2`. -/
def KDTreeIndex.search (s : KDTreeIndex) (query : List ℚ) (k : ℤ) :
    List (String × ℚ) :=
  if s.root = KDNode.nil ∨ k ≤ 0 then []
  else
    let q := normalize query
    let best := searchNode s.root q k []
    let best := kdSortBest best
    (best.take k.toNat).map (fun p => (p.2, 1 - p.1 / 2))

/-- Well-formedness of a KD subtree for dimension `dim`: each node's point
has length `dim`, its axis is in range, and the left (right) subtree's
points lie on the small (large) side of the node's splitting plane. -/
def KDNode.WF (dim : ℕ) : KDNode → Prop
  | .nil => True
  | .node p _ ax l r => p.length = dim ∧ ax < dim ∧
      (∀ e ∈ l.entries, e.1.getD ax 0 ≤ p.getD ax 0) ∧
      (∀ e ∈ r.entries, p.getD ax 0 ≤ e.1.getD ax 0) ∧
      l.WF dim ∧ r.WF dim

/-! ### `app/domain/indexes/lsh.py`

The Gaussian draws `random.Random(seed).gauss(0.0, 1.0)` of `_init_planes`
are modelled by an arbitrary sampler `gauss : seed → plane → coordinate → ℚ`
passed to every operation that may (re)draw planes; all theorems hold for
every sampler. -/

/-- `_init_planes(dim)`: `num_planes` normalized Gaussian directions. -/
def init_planes (gauss : ℕ → ℕ → ℕ → ℚ) (seed num_planes dim : ℕ) :
    List (List ℚ) :=
  (List.range num_planes).map
    (fun i => normalize ((List.range dim).map (fun j => gauss seed i j)))

/-- `_hash(v)`: the sign-bit pattern, `'1'` iff `dot(v, plane) >= 0`. -/
def lshHash (planes : List (List ℚ)) (v : List ℚ) : List Bool :=
  planes.map (fun p => decide (0 ≤ dot v p))

/-- `self._buckets.setdefault(key, []).append(id)`. -/
def bucketAppend (bs : List (List Bool × List String)) (key : List Bool)
    (id : String) : List (List Bool × List String) :=
  match dictGet bs key with
  | some l => dictSet bs key (l ++ [id])
  | none => bs ++ [(key, [id])]

/-- State of `RandomHyperplaneLSHIndex`. -/
structure LSHIndex where
  num_planes : ℕ
  seed : ℕ
  planes : List (List ℚ)
  buckets : List (List Bool × List String)
  id_to_vec : List (String × List ℚ)
  deriving Repr

/-- `RandomHyperplaneLSHIndex(num_planes=24, seed=42)`. -/
def LSHIndex.empty (num_planes : ℕ := 24) (seed : ℕ := 42) : LSHIndex :=
  { num_planes := num_planes, seed := seed, planes := [], buckets := [],
    id_to_vec := [] }

/-- `build(vectors, ids)`: clear both maps; on non-empty input re-draw the
planes for the first vector's dimension and insert every pair. -/
def LSHIndex.build (gauss : ℕ → ℕ → ℕ → ℚ) (s : LSHIndex)
    (vectors : List (List ℚ)) (ids : List String) : LSHIndex :=
  if vectors = [] then { s with buckets := [], id_to_vec := [], planes := [] }
  else
    let dim := (vectors.headD []).length
    let planes := init_planes gauss s.seed s.num_planes dim
    let base := { s with buckets := [], id_to_vec := [], planes := planes }
    (List.zip vectors ids).foldl
      (fun st p =>
        let vn := normalize p.1
        { st with id_to_vec := dictSet st.id_to_vec p.2 vn,
                  buckets := bucketAppend st.buckets (lshHash st.planes vn) p.2 })
      base

/-- `add(vector, id)`: raises `Duplicate` when the id is present; draws the
planes lazily when none exist yet. -/
def LSHIndex.add (gauss : ℕ → ℕ → ℕ → ℚ) (s : LSHIndex) (vector : List ℚ)
    (id : String) : Except Err LSHIndex :=
  if (dictGet s.id_to_vec id).isSome then .error .Duplicate
  else
    let vn := normalize vector
    let s1 := { s with id_to_vec := dictSet s.id_to_vec id vn }
    let s2 :=
      if s1.planes = [] then
        { s1 with planes := init_planes gauss s.seed s.num_planes vn.length }
      else s1
    .ok { s2 with buckets := bucketAppend s2.buckets (lshHash s2.planes vn) id }

/-- `remove(id)`: `pop` the vector (raising `NotFound` when absent), then
remove the id from its bucket, dropping the bucket when it empties. -/
def LSHIndex.remove (s : LSHIndex) (id : String) : Except Err LSHIndex :=
  match dictGet s.id_to_vec id with
  | none => .error .NotFound
  | some vn =>
    let s1 := { s with id_to_vec := dictDel s.id_to_vec id }
    let key := lshHash s1.planes vn
    let bucket := (dictGet s1.buckets key).getD []
    if id ∈ bucket then
      let b := bucket.erase id
      if b = [] then .ok { s1 with buckets := dictDel s1.buckets key }
      else .ok { s1 with buckets := dictSet s1.buckets key b }
    else .ok s1

/-- `update(id, new_vector)`: remove then add. -/
def LSHIndex.update (gauss : ℕ → ℕ → ℕ → ℚ) (s : LSHIndex) (id : String)
    (new_vector : List ℚ) : Except Err LSHIndex :=
  match s.remove id with
  | .error e => .error e
  | .ok s1 => LSHIndex.add gauss s1 new_vector id

/-- `search(query, k)`: candidates from the query's bucket, falling back to
all ids when the bucket is empty; rank by cosine similarity, take `k`. -/
def LSHIndex.search (s : LSHIndex) (query : List ℚ) (k : ℤ) :
    List (String × ℚ) :=
  if k ≤ 0 then []
  else if s.id_to_vec = [] then []
  else
    let q := normalize query
    let candidates :=
      if ¬ s.planes = [] then (dictGet s.buckets (lshHash s.planes q)).getD []
      else []
    let candidates := if candidates = [] then dictKeys s.id_to_vec else candidates
    let pairs := candidates.map
      (fun cid => (cid, cosine_similarity q ((dictGet s.id_to_vec cid).getD [])))
    (sortByScoreDesc pairs).take k.toNat

/-- `size()`. -/
def LSHIndex.size (s : LSHIndex) : ℕ :=
  s.id_to_vec.length

/-! ### `app/domain/concurrency/rwlock.py`

The lock's mutable fields (`_readers`, `_writers_waiting`, `_writer_active`)
are modelled as a labelled transition system.  `acquire_write` is two
transitions (registering as waiting, then being granted) because other
threads interleave between them while the acquirer sleeps on the condition
variable.  `writersHolding` is an auxiliary counter of threads currently
inside a write section — the source tracks this only implicitly (a thread
calls `release_write` exactly when it holds the lock), and without it
writer/writer exclusion is not expressible; the guards `0 < readers` /
`0 < writersHolding` on the release transitions encode that only a holder
releases. -/

/-- Lock state: the three counters of `RWLock.__init__` plus the holder
count. -/
structure RWState where
  readers : ℕ
  writers_waiting : ℕ
  writer_active : Bool
  writersHolding : ℕ
  deriving DecidableEq, Repr

/-- Transition labels of the lock protocol. -/
inductive RWLabel where
  | acquire_read
  | release_read
  | begin_acquire_write
  | complete_acquire_write
  | release_write
  deriving DecidableEq, Repr

/-- One step of the lock protocol.  `acquire_read` is enabled only when no
writer is active and none is waiting (the `while` guard of
`RWLock.acquire_read`); `complete_acquire_write` is enabled only when no
writer is active and no reader holds the lock (the `while` guard of
`RWLock.acquire_write`). -/
inductive RWStep : RWState → RWLabel → RWState → Prop where
  | acquire_read {s : RWState} :
      s.writer_active = false → s.writers_waiting = 0 →
      RWStep s .acquire_read { s with readers := s.readers + 1 }
  | release_read {s : RWState} :
      0 < s.readers →
      RWStep s .release_read { s with readers := s.readers - 1 }
  | begin_acquire_write {s : RWState} :
      RWStep s .begin_acquire_write
        { s with writers_waiting := s.writers_waiting + 1 }
  | complete_acquire_write {s : RWState} :
      0 < s.writers_waiting → s.writer_active = false → s.readers = 0 →
      RWStep s .complete_acquire_write
        { s with writers_waiting := s.writers_waiting - 1,
                 writer_active := true,
                 writersHolding := s.writersHolding + 1 }
  | release_write {s : RWState} :
      0 < s.writersHolding →
      RWStep s .release_write
        { s with writer_active := false,
                 writersHolding := s.writersHolding - 1 }

/-- States reachable from the freshly constructed lock
(`readers = 0`, `writers_waiting = 0`, `writer_active = False`). -/
inductive RWReachable : RWState → Prop where
  | init : RWReachable ⟨0, 0, false, 0⟩
  | step {s l s'} : RWReachable s → RWStep s l s' → RWReachable s'

/-! ### `app/domain/models` and `app/core/settings.IndexType` -/

/-- `IndexType` enumeration. -/
inductive IndexType where
  | brute_force
  | kd_tree
  | lsh
  deriving DecidableEq, Repr

/-- `Library` (the fields the core reads; validation-only attributes such as
`description` bounds and timestamps are elided). -/
structure Library where
  id : String
  name : List Char
  embedding_dimension : ℕ
  default_index_type : IndexType
  deriving DecidableEq, Repr

/-- `Document` (fields the core reads). -/
structure Document where
  id : String
  library_id : String
  title : List Char
  deriving DecidableEq, Repr

/-- `ChunkMetadata` (`MetadataBase`). -/
structure ChunkMetadata where
  source : Option String := none
  tags : List String := []
  author : Option String := none
  created_by : Option String := none
  deriving DecidableEq, Repr

/-- `Chunk`; `created_at` models the `datetime` as an integer instant,
`updated_at` is elided (no claim reads it). -/
structure Chunk where
  id : String
  library_id : String
  document_id : String
  text : List Char
  embedding : List ℚ
  metadata : ChunkMetadata
  created_at : ℤ
  deriving DecidableEq, Repr

/-- Python `str.strip()`. -/
def pyStrip (s : List Char) : List Char :=
  ((s.dropWhile Char.isWhitespace).reverse.dropWhile Char.isWhitespace).reverse

/-- Python `str.lower()` (ASCII case folding suffices for the claims). -/
def pyLower (s : List Char) : List Char :=
  s.map Char.toLower

/-- Python `needle in hay` for strings: substring containment. -/
def pyIn (needle : List Char) : List Char → Bool
  | [] => needle.isEmpty
  | c :: t => needle.isPrefixOf (c :: t) || pyIn needle t

/-- Construction `Chunk(library_id=.., document_id=.., text=.., embedding=..)`
with the pydantic validators of `chunk.py`: the text is stripped and must be
non-empty, the embedding must be non-empty; a validator failure is a
`Validation` error.  Id and creation time come from the model defaults and
are passed explicitly here. -/
def Chunk.make (id library_id document_id : String) (text : List Char)
    (embedding : List ℚ) (created_at : ℤ) : Except Err Chunk :=
  let t := pyStrip text
  if t = [] then .error .Validation
  else if embedding = [] then .error .Validation
  else .ok { id := id, library_id := library_id, document_id := document_id,
             text := t, embedding := embedding, metadata := {},
             created_at := created_at }

/-! ### `app/domain/repositories` -/

/-- Python `set.add` on a duplicate-free list. -/
def setAdd (l : List String) (x : String) : List String :=
  if x ∈ l then l else l ++ [x]

/-- Python `set.discard`. -/
def setDiscard (l : List String) (x : String) : List String :=
  l.filter (fun y => ¬ y = x)

/-- `LibraryRepository`: the `_items` dict. -/
structure LibraryRepository where
  items : List (String × Library)
  deriving Repr

/-- `create`: `Conflict` on a duplicate id. -/
def LibraryRepository.create (r : LibraryRepository) (lib : Library) :
    Except Err LibraryRepository :=
  if (dictGet r.items lib.id).isSome then .error .Conflict
  else .ok { items := dictSet r.items lib.id lib }

/-- `get`: `NotFound` when absent. -/
def LibraryRepository.get (r : LibraryRepository) (library_id : String) :
    Except Err Library :=
  match dictGet r.items library_id with
  | none => .error .NotFound
  | some lib => .ok lib

/-- `delete`: `NotFound` when absent. -/
def LibraryRepository.delete (r : LibraryRepository) (library_id : String) :
    Except Err LibraryRepository :=
  if (dictGet r.items library_id).isSome then
    .ok { items := dictDel r.items library_id }
  else .error .NotFound

/-- `DocumentRepository`: `_items` plus the `_by_library` secondary index
(`defaultdict(set)`, sets modelled as duplicate-free lists). -/
structure DocumentRepository where
  items : List (String × Document)
  by_library : List (String × List String)
  deriving Repr

/-- `create`: `Conflict` on a duplicate id; maintains `_by_library`. -/
def DocumentRepository.create (r : DocumentRepository) (d : Document) :
    Except Err DocumentRepository :=
  if (dictGet r.items d.id).isSome then .error .Conflict
  else .ok { items := dictSet r.items d.id d,
             by_library := dictSet r.by_library d.library_id
               (setAdd ((dictGet r.by_library d.library_id).getD []) d.id) }

/-- `get`: `NotFound` when absent. -/
def DocumentRepository.get (r : DocumentRepository) (document_id : String) :
    Except Err Document :=
  match dictGet r.items document_id with
  | none => .error .NotFound
  | some d => .ok d

/-- `list_by_library`: hydrate the id set against `_items` (Python indexes
`self._items[doc_id]`, which cannot fail while the secondary index is
consistent; the inconsistent case, where Python would raise `KeyError`, is
modelled by skipping the id). -/
def DocumentRepository.list_by_library (r : DocumentRepository)
    (library_id : String) : List Document :=
  ((dictGet r.by_library library_id).getD []).filterMap
    (fun i => dictGet r.items i)

/-- `delete`: `NotFound` when absent; discards from `_by_library`. -/
def DocumentRepository.delete (r : DocumentRepository) (document_id : String) :
    Except Err DocumentRepository :=
  match dictGet r.items document_id with
  | none => .error .NotFound
  | some d =>
    .ok { items := dictDel r.items document_id,
          by_library := dictSet r.by_library d.library_id
            (setDiscard ((dictGet r.by_library d.library_id).getD []) document_id) }

/-- `ChunkRepository`: `_items` plus both secondary indexes. -/
structure ChunkRepository where
  items : List (String × Chunk)
  by_library : List (String × List String)
  by_document : List (String × List String)
  deriving Repr

/-- `create`: `Conflict` on a duplicate id; maintains both secondary
indexes. -/
def ChunkRepository.create (r : ChunkRepository) (c : Chunk) :
    Except Err ChunkRepository :=
  if (dictGet r.items c.id).isSome then .error .Conflict
  else .ok { items := dictSet r.items c.id c,
             by_library := dictSet r.by_library c.library_id
               (setAdd ((dictGet r.by_library c.library_id).getD []) c.id),
             by_document := dictSet r.by_document c.document_id
               (setAdd ((dictGet r.by_document c.document_id).getD []) c.id) }

/-- `get`: `NotFound` when absent. -/
def ChunkRepository.get (r : ChunkRepository) (chunk_id : String) :
    Except Err Chunk :=
  match dictGet r.items chunk_id with
  | none => .error .NotFound
  | some c => .ok c

/-- `list_by_library` (see `DocumentRepository.list_by_library` for the
hydration convention). -/
def ChunkRepository.list_by_library (r : ChunkRepository) (library_id : String) :
    List Chunk :=
  ((dictGet r.by_library library_id).getD []).filterMap
    (fun i => dictGet r.items i)

/-- `list_by_document`. -/
def ChunkRepository.list_by_document (r : ChunkRepository) (document_id : String) :
    List Chunk :=
  ((dictGet r.by_document document_id).getD []).filterMap
    (fun i => dictGet r.items i)

/-- `update(chunk_id, **fields)`: apply the non-null fields in place
(`updated_at` touch elided). -/
def ChunkRepository.update (r : ChunkRepository) (chunk_id : String)
    (text : Option (List Char)) (embedding : Option (List ℚ)) :
    Except Err (Chunk × ChunkRepository) :=
  match dictGet r.items chunk_id with
  | none => .error .NotFound
  | some c =>
    let c := match text with | some t => { c with text := t } | none => c
    let c := match embedding with | some e => { c with embedding := e } | none => c
    .ok (c, { r with items := dictSet r.items chunk_id c })

/-- `delete`: `NotFound` when absent; discards from both secondary
indexes. -/
def ChunkRepository.delete (r : ChunkRepository) (chunk_id : String) :
    Except Err ChunkRepository :=
  match dictGet r.items chunk_id with
  | none => .error .NotFound
  | some c =>
    .ok { items := dictDel r.items chunk_id,
          by_library := dictSet r.by_library c.library_id
            (setDiscard ((dictGet r.by_library c.library_id).getD []) chunk_id),
          by_document := dictSet r.by_document c.document_id
            (setDiscard ((dictGet r.by_document c.document_id).getD []) chunk_id) }

/-! ### `app/domain/concurrency/versioning.py` -/

/-- `VersionInfo` dataclass. -/
structure VersionInfo where
  data_version : ℤ := 0
  index_version : ℤ := -1
  deriving DecidableEq, Repr

/-- The `VersionManager._versions` dict. -/
def VersionMap : Type := List (String × VersionInfo)

/-- `get`: `setdefault(library_id, VersionInfo())`. -/
def VersionManager.get (m : VersionMap) (library_id : String) :
    VersionInfo × VersionMap :=
  match dictGet m library_id with
  | some vi => (vi, m)
  | none => ({}, dictSet m library_id {})

/-- `bump_data`: increment `data_version`, returning the new info. -/
def VersionManager.bump_data (m : VersionMap) (library_id : String) :
    VersionInfo × VersionMap :=
  let p := VersionManager.get m library_id
  let vi := { p.1 with data_version := p.1.data_version + 1 }
  (vi, dictSet p.2 library_id vi)

/-- `set_index_version`. -/
def VersionManager.set_index_version (m : VersionMap) (library_id : String)
    (version : ℤ) : VersionInfo × VersionMap :=
  let p := VersionManager.get m library_id
  let vi := { p.1 with index_version := version }
  (vi, dictSet p.2 library_id vi)

/-- `is_index_stale`: `index_version != data_version`. -/
def VersionManager.is_index_stale (m : VersionMap) (library_id : String) :
    Bool × VersionMap :=
  let p := VersionManager.get m library_id
  (decide (¬ p.1.index_version = p.1.data_version), p.2)

/-- Pure read of a library's versions (the map untouched); agrees with
`VersionManager.get` on the returned info. -/
def viewVersion (m : VersionMap) (library_id : String) : VersionInfo :=
  (dictGet m library_id).getD {}

/-! ### `app/domain/services`

The services are modelled over one combined state.  Each operation returns
its result together with the (possibly partially mutated) state, mirroring
Python exception semantics: mutations performed before a raise persist.
Background threads spawned by `build_index_async` are not executed inside
the spawning step; the synchronous part (the building-flag check-and-set)
is `build_index_async_flag`, and the worker body is `build_index_with`. -/

/-- Dynamic dispatch over the three `VectorIndex` variants. -/
inductive Idx where
  | bf (s : BruteForceIndex)
  | kd (s : KDTreeIndex)
  | lshIdx (s : LSHIndex)
  deriving Repr

/-- `index.add(vector, id)` on whichever variant is live. -/
def Idx.add (gauss : ℕ → ℕ → ℕ → ℚ) : Idx → List ℚ → String → Except Err Idx
  | .bf s, v, id => (s.add v id).map .bf
  | .kd s, v, id => (s.add v id).map .kd
  | .lshIdx s, v, id => (LSHIndex.add gauss s v id).map .lshIdx

/-- `index.remove(id)`. -/
def Idx.remove : Idx → String → Except Err Idx
  | .bf s, id => (s.remove id).map .bf
  | .kd s, id => (s.remove id).map .kd
  | .lshIdx s, id => (s.remove id).map .lshIdx

/-- `index.update(id, vector)`. -/
def Idx.update (gauss : ℕ → ℕ → ℕ → ℚ) : Idx → String → List ℚ → Except Err Idx
  | .bf s, id, v => (s.update id v).map .bf
  | .kd s, id, v => (s.update id v).map .kd
  | .lshIdx s, id, v => (LSHIndex.update gauss s id v).map .lshIdx

/-- `index.search(query, k)`. -/
def Idx.search : Idx → List ℚ → ℤ → List (String × ℚ)
  | .bf s, q, k => s.search q k
  | .kd s, q, k => s.search q k
  | .lshIdx s, q, k => s.search q k

/-- Combined mutable state of the per-process singletons the services
share: the three repositories, the version manager's map, and the
`IndexService` maps (`_indexes`, `_index_types`, `_building`). -/
structure AppState where
  libs : LibraryRepository
  docs : DocumentRepository
  chunks : ChunkRepository
  versions : VersionMap
  indexes : List (String × Idx)
  index_types : List (String × IndexType)
  building : List (String × Bool)

/-- `IndexService.add_chunk`: when an index is live, apply the point insert
and sync `index_version := data_version`; errors from the index propagate
after the insert attempt. -/
def IndexService.add_chunk (gauss : ℕ → ℕ → ℕ → ℚ) (s : AppState)
    (library_id : String) (c : Chunk) : Except Err Unit × AppState :=
  match dictGet s.indexes library_id with
  | none => (.ok (), s)
  | some idx =>
    match Idx.add gauss idx c.embedding c.id with
    | .error e => (.error e, s)
    | .ok idx' =>
      let s1 := { s with indexes := dictSet s.indexes library_id idx' }
      let p := VersionManager.get s1.versions library_id
      let vm := (VersionManager.set_index_version p.2 library_id p.1.data_version).2
      (.ok (), { s1 with versions := vm })

/-- `IndexService.remove_chunk`. -/
def IndexService.remove_chunk (s : AppState) (library_id : String)
    (chunk_id : String) : Except Err Unit × AppState :=
  match dictGet s.indexes library_id with
  | none => (.ok (), s)
  | some idx =>
    match Idx.remove idx chunk_id with
    | .error e => (.error e, s)
    | .ok idx' =>
      let s1 := { s with indexes := dictSet s.indexes library_id idx' }
      let p := VersionManager.get s1.versions library_id
      let vm := (VersionManager.set_index_version p.2 library_id p.1.data_version).2
      (.ok (), { s1 with versions := vm })

/-- `IndexService.update_chunk`. -/
def IndexService.update_chunk (gauss : ℕ → ℕ → ℕ → ℚ) (s : AppState)
    (library_id : String) (c : Chunk) : Except Err Unit × AppState :=
  match dictGet s.indexes library_id with
  | none => (.ok (), s)
  | some idx =>
    match Idx.update gauss idx c.id c.embedding with
    | .error e => (.error e, s)
    | .ok idx' =>
      let s1 := { s with indexes := dictSet s.indexes library_id idx' }
      let p := VersionManager.get s1.versions library_id
      let vm := (VersionManager.set_index_version p.2 library_id p.1.data_version).2
      (.ok (), { s1 with versions := vm })

/-- `IndexService.search`: `[]` when no index is live. -/
def IndexService.search (s : AppState) (library_id : String)
    (query : List ℚ) (k : ℤ) : List (String × ℚ) :=
  match dictGet s.indexes library_id with
  | none => []
  | some idx => idx.search query k

/-- `IndexService.build_index`, with the off-lock construction
(`_create_index` + `index.build(vectors, ids)`) abstracted as its outcome
`buildRes`: in Python the construction can raise (e.g. the KD build crashes
on ragged or empty embeddings).  On success the new index is swapped in,
the type recorded, `index_version := data_version`, and the building flag
cleared — all under the write lock.  On a raise none of that block runs, so
the state is returned unchanged (in particular the building flag keeps its
prior value: the source has no `try/finally`). -/
def IndexService.build_index_with (s : AppState) (library_id : String)
    (index_type : IndexType) (buildRes : Except Err Idx) :
    Except Err Unit × AppState :=
  match buildRes with
  | .error e => (.error e, s)
  | .ok index =>
    let s1 := { s with indexes := dictSet s.indexes library_id index,
                       index_types := dictSet s.index_types library_id index_type }
    let p := VersionManager.get s1.versions library_id
    let vm := (VersionManager.set_index_version p.2 library_id p.1.data_version).2
    (.ok (), { s1 with versions := vm,
                       building := dictSet s1.building library_id false })

/-- The synchronous part of `IndexService.build_index_async`: no-op when the
building flag is set, else set it (and spawn the worker, which is modelled
separately by `build_index_with`).  Returns whether a build was scheduled. -/
def IndexService.build_index_async_flag (s : AppState) (library_id : String) :
    Bool × AppState :=
  if (dictGet s.building library_id).getD false then (false, s)
  else (true, { s with building := dictSet s.building library_id true })

/-- `ChunkService.create`: validate the library and document exist, validate
the embedding length against the library dimension, construct the chunk,
insert it, bump `data_version`, and incrementally patch the index.  The
generated id and creation instant are passed explicitly. -/
def ChunkService.create (gauss : ℕ → ℕ → ℕ → ℚ) (s : AppState)
    (library_id document_id : String) (text : List Char) (embedding : List ℚ)
    (chunk_id : String) (created_at : ℤ) : Except Err Chunk × AppState :=
  match LibraryRepository.get s.libs library_id with
  | .error e => (.error e, s)
  | .ok lib =>
    match DocumentRepository.get s.docs document_id with
    | .error e => (.error e, s)
    | .ok _ =>
      if ¬ embedding.length = lib.embedding_dimension then (.error .Validation, s)
      else
        match Chunk.make chunk_id library_id document_id text embedding created_at with
        | .error e => (.error e, s)
        | .ok chunk =>
          match ChunkRepository.create s.chunks chunk with
          | .error e => (.error e, s)
          | .ok chunks' =>
            let s1 := { s with chunks := chunks' }
            let s2 := { s1 with versions := (VersionManager.bump_data s1.versions library_id).2 }
            let r := IndexService.add_chunk gauss s2 library_id chunk
            (r.1.map (fun _ => chunk), r.2)

/-- `ChunkService.update`: load the chunk, re-validate the dimension when
the embedding changes, update the repository, bump `data_version`, and patch
the index only when the embedding changed. -/
def ChunkService.update (gauss : ℕ → ℕ → ℕ → ℚ) (s : AppState)
    (chunk_id : String) (text : Option (List Char))
    (embedding : Option (List ℚ)) : Except Err Chunk × AppState :=
  match ChunkRepository.get s.chunks chunk_id with
  | .error e => (.error e, s)
  | .ok ch =>
    let dimCheck : Except Err Unit :=
      match embedding with
      | none => .ok ()
      | some e =>
        match LibraryRepository.get s.libs ch.library_id with
        | .error err => .error err
        | .ok lib =>
          if ¬ e.length = lib.embedding_dimension then .error .Validation
          else .ok ()
    match dimCheck with
    | .error e => (.error e, s)
    | .ok _ =>
      match ChunkRepository.update s.chunks chunk_id text embedding with
      | .error e => (.error e, s)
      | .ok rc =>
        let s1 := { s with chunks := rc.2 }
        let s2 := { s1 with versions := (VersionManager.bump_data s1.versions ch.library_id).2 }
        match embedding with
        | none => (.ok rc.1, s2)
        | some _ =>
          let r := IndexService.update_chunk gauss s2 ch.library_id rc.1
          (r.1.map (fun _ => rc.1), r.2)

/-- `ChunkService.delete`: load the chunk, delete it, bump `data_version`,
and patch the index. -/
def ChunkService.delete (s : AppState) (chunk_id : String) :
    Except Err Unit × AppState :=
  match ChunkRepository.get s.chunks chunk_id with
  | .error e => (.error e, s)
  | .ok ch =>
    match ChunkRepository.delete s.chunks chunk_id with
    | .error e => (.error e, s)
    | .ok chunks' =>
      let s1 := { s with chunks := chunks' }
      let s2 := { s1 with versions := (VersionManager.bump_data s1.versions ch.library_id).2 }
      IndexService.remove_chunk s2 ch.library_id chunk_id

/-- The inner loop of the cascade: delete each listed chunk id in turn; an
error aborts the loop, keeping the deletions already performed. -/
def deleteChunkIds (r : ChunkRepository) : List String → Except Err Unit × ChunkRepository
  | [] => (.ok (), r)
  | id :: rest =>
    match ChunkRepository.delete r id with
    | .error e => (.error e, r)
    | .ok r' => deleteChunkIds r' rest

/-- The outer loop of the cascade: for each document, delete its chunks and
then the document. -/
def deleteDocsCascade (s : AppState) : List Document → Except Err Unit × AppState
  | [] => (.ok (), s)
  | d :: rest =>
    match deleteChunkIds s.chunks ((ChunkRepository.list_by_document s.chunks d.id).map (fun c => c.id)) with
    | (.error e, chunks') => (.error e, { s with chunks := chunks' })
    | (.ok _, chunks') =>
      let s := { s with chunks := chunks' }
      match DocumentRepository.delete s.docs d.id with
      | .error e => (.error e, s)
      | .ok docs' => deleteDocsCascade { s with docs := docs' } rest

/-- `LibraryService.delete(library_id, cascade)`: ensure the library exists;
with cascade, delete every chunk of every document of the library and each
document, then the library itself. -/
def LibraryService.delete (s : AppState) (library_id : String)
    (cascade : Bool := true) : Except Err Unit × AppState :=
  match LibraryRepository.get s.libs library_id with
  | .error e => (.error e, s)
  | .ok _ =>
    let step1 : Except Err Unit × AppState :=
      if cascade then
        deleteDocsCascade s (DocumentRepository.list_by_library s.docs library_id)
      else (.ok (), s)
    match step1 with
    | (.error e, s') => (.error e, s')
    | (.ok _, s') =>
      match LibraryRepository.delete s'.libs library_id with
      | .error e => (.error e, s')
      | .ok libs' => (.ok (), { s' with libs := libs' })

/-! ### `app/domain/services/query_service.py` -/

/-- The bound strings `created_at_from` / `created_at_to` as seen by
`datetime.fromisoformat`: either they parse to an instant or the parse
raises (malformed), which `_matches_filter` swallows.  A Python-falsy bound
(empty string) behaves exactly like a malformed one (both leave the bound
unapplied), so it needs no separate constructor. -/
inductive TSBound where
  | malformed
  | valid (t : ℤ)
  deriving DecidableEq, Repr

/-- The `filter_dto` dict (`ChunkFilter.model_dump()`: all six keys present,
unset fields `None`). -/
structure ChunkFilterDict where
  text_contains : Option (List Char) := none
  created_at_from : Option TSBound := none
  created_at_to : Option TSBound := none
  tags_any : Option (List String) := none
  tags_all : Option (List String) := none
  author_in : Option (List String) := none
  deriving DecidableEq, Repr

/-- `QueryService._matches_filter(c, f)`, clause by clause. -/
def matches_filter (c : Chunk) (f : ChunkFilterDict) : Bool :=
  let tc := pyLower (pyStrip ((f.text_contains).getD []))
  if ¬ tc = [] ∧ pyIn tc (pyLower c.text) = false then false
  else if (match f.created_at_from with
           | some (.valid t) => decide (c.created_at < t)
           | _ => false) then false
  else if (match f.created_at_to with
           | some (.valid t) => decide (t < c.created_at)
           | _ => false) then false
  else
    let tags_any := (f.tags_any).getD []
    let tags_all := (f.tags_all).getD []
    let author_in := (f.author_in).getD []
    if ¬ tags_any = [] ∧ ¬ tags_any.any (fun t => t ∈ c.metadata.tags) then false
    else if ¬ tags_all = [] ∧ ¬ tags_all.all (fun t => t ∈ c.metadata.tags) then false
    else if ¬ author_in = [] ∧
            ¬ ((match c.metadata.author with
                | some a => decide (a ∈ author_in)
                | none => false) = true) then false
    else true

/-- `QueryService.knn(library_id, query_embedding, k, filter_dto)` under the
read lock.  A provided filter dict (the `model_dump` of a `ChunkFilter`) is
never empty, so Python's truthiness test on it coincides with presence.
`allow_stale_index` is the configuration flag; the background rebuild
scheduled on staleness is modelled by its synchronous flag phase. -/
def QueryService.knn (allow_stale_index : Bool) (s : AppState)
    (library_id : String) (query_embedding : List ℚ) (k : ℤ)
    (filter_dto : Option ChunkFilterDict) : List (String × ℚ) × AppState :=
  match filter_dto with
  | some f =>
    let chunks := ChunkRepository.list_by_library s.chunks library_id
    let filtered := chunks.filter (fun c => matches_filter c f)
    let bf := (BruteForceIndex.empty true).build
      (filtered.map (fun c => c.embedding)) (filtered.map (fun c => c.id))
    (bf.search query_embedding k, s)
  | none =>
    let p := VersionManager.is_index_stale s.versions library_id
    let s := { s with versions := p.2 }
    if p.1 then
      let s := (IndexService.build_index_async_flag s library_id).2
      if ¬ allow_stale_index then
        let cs := ChunkRepository.list_by_library s.chunks library_id
        let bf := (BruteForceIndex.empty true).build
          (cs.map (fun c => c.embedding)) (cs.map (fun c => c.id))
        (bf.search query_embedding k, s)
      else (IndexService.search s library_id query_embedding k, s)
    else (IndexService.search s library_id query_embedding k, s)

/-! ### Predicates and step relations used by the claims -/

/-- Brute-force states reachable by sequences of the index operations,
every `build` being called with as many ids as vectors and with pairwise
distinct ids (as the Index Service always does — it feeds chunk snapshots,
whose ids are repository keys). -/
inductive BFReach : BruteForceIndex → Prop where
  | empty : BFReach (BruteForceIndex.empty true)
  | buildStep {s : BruteForceIndex} {vectors ids} : BFReach s → ids.Nodup →
      ids.length = vectors.length → BFReach (s.build vectors ids)
  | addStep {s v id s'} : BFReach s → s.add v id = .ok s' → BFReach s'
  | removeStep {s id s'} : BFReach s → s.remove id = .ok s' → BFReach s'
  | updateStep {s id v s'} : BFReach s → s.update id v = .ok s' → BFReach s'

/-- A chunk mutation request, as issued by the routers to `ChunkService`
(generated ids and timestamps made explicit). -/
inductive ChunkOp where
  | createOp (library_id document_id : String) (text : List Char)
      (embedding : List ℚ) (chunk_id : String) (created_at : ℤ)
  | updateOp (chunk_id : String) (text : Option (List Char))
      (embedding : Option (List ℚ))
  | deleteOp (chunk_id : String)

/-- Dispatch one `ChunkOp` to the corresponding `ChunkService` method. -/
def applyChunkOp (gauss : ℕ → ℕ → ℕ → ℚ) (s : AppState) :
    ChunkOp → Except Err Unit × AppState
  | .createOp lid did text emb cid at_ =>
    let r := ChunkService.create gauss s lid did text emb cid at_
    (r.1.map (fun _ => ()), r.2)
  | .updateOp cid text emb =>
    let r := ChunkService.update gauss s cid text emb
    (r.1.map (fun _ => ()), r.2)
  | .deleteOp cid => ChunkService.delete s cid

/-- Run a sequence of chunk operations, each raise being reported to the
caller and the sequence continuing on the post-raise state. -/
def applyChunkOps (gauss : ℕ → ℕ → ℕ → ℚ) (s : AppState) :
    List ChunkOp → AppState
  | [] => s
  | op :: rest => applyChunkOps gauss (applyChunkOp gauss s op).2 rest

/-- The library a `ChunkOp` targets, resolved the way the service resolves
it (create: the request's library; update/delete: the chunk's library). -/
def ChunkOp.library (s : AppState) : ChunkOp → Option String
  | .createOp lid _ _ _ _ _ => some lid
  | .updateOp cid _ _ =>
    (dictGet s.chunks.items cid).map (fun c => c.library_id)
  | .deleteOp cid =>
    (dictGet s.chunks.items cid).map (fun c => c.library_id)

/-- Whether a `ChunkOp` reaches the incremental index maintenance call
(`index_service.add_chunk` / `update_chunk` / `remove_chunk` with a live
index): create and delete always call it; update only when the request
carries an embedding. -/
def ChunkOp.maintains (s : AppState) (op : ChunkOp) (L : String) : Prop :=
  op.library s = some L ∧ (dictGet s.indexes L).isSome = true ∧
  (match op with
   | .updateOp _ _ emb => emb.isSome = true
   | _ => True)

/-- Internal consistency of `DocumentRepository`: keys match document ids,
and `_by_library` is a duplicate-free, sound and complete secondary index
of `_items`. -/
def DocumentRepository.WF (r : DocumentRepository) : Prop :=
  (∀ did d, dictGet r.items did = some d → d.id = did) ∧
  (∀ lid ids, dictGet r.by_library lid = some ids →
    ids.Nodup ∧ ∀ did ∈ ids, ∃ d, dictGet r.items did = some d ∧ d.library_id = lid) ∧
  (∀ did d, dictGet r.items did = some d →
    did ∈ (dictGet r.by_library d.library_id).getD [])

/-- Internal consistency of `ChunkRepository`: keys match chunk ids, and
both secondary indexes are duplicate-free, sound and complete. -/
def ChunkRepository.WF (r : ChunkRepository) : Prop :=
  (∀ cid c, dictGet r.items cid = some c → c.id = cid) ∧
  (∀ lid ids, dictGet r.by_library lid = some ids →
    ids.Nodup ∧ ∀ cid ∈ ids, ∃ c, dictGet r.items cid = some c ∧ c.library_id = lid) ∧
  (∀ did ids, dictGet r.by_document did = some ids →
    ids.Nodup ∧ ∀ cid ∈ ids, ∃ c, dictGet r.items cid = some c ∧ c.document_id = did) ∧
  (∀ cid c, dictGet r.items cid = some c →
    cid ∈ (dictGet r.by_library c.library_id).getD [] ∧
    cid ∈ (dictGet r.by_document c.document_id).getD [])

/-- Referential integrity of a library's chunks: each resolves to a
document of the same library (spec invariant 1, assumed at the observation
point before the cascade). -/
def ChunksResolve (s : AppState) (L : String) : Prop :=
  ∀ cid c, dictGet s.chunks.items cid = some c → c.library_id = L →
    ∃ d, dictGet s.docs.items c.document_id = some d ∧ d.library_id = L

/-- Claim-side filter predicate for C6, modelled from the claim's words
verbatim: every present field must hold — `text_contains` a
case-insensitive substring of the text, `created_at` within the inclusive
range with malformed bounds absent, at least one tag of `tags_any`, all
tags of `tags_all`, the author among `author_in`. -/
def matchesLiteral (c : Chunk) (f : ChunkFilterDict) : Prop :=
  (match f.text_contains with
   | some tc => ∃ l1 l2, pyLower c.text = l1 ++ pyLower tc ++ l2
   | none => True) ∧
  (match f.created_at_from with
   | some (.valid t) => t ≤ c.created_at
   | _ => True) ∧
  (match f.created_at_to with
   | some (.valid t) => c.created_at ≤ t
   | _ => True) ∧
  (match f.tags_any with
   | some l => ∃ t ∈ l, t ∈ c.metadata.tags
   | none => True) ∧
  (match f.tags_all with
   | some l => ∀ t ∈ l, t ∈ c.metadata.tags
   | none => True) ∧
  (match f.author_in with
   | some l => ∃ a, c.metadata.author = some a ∧ a ∈ l
   | none => True)

/-- The filter predicate the code implements, written declaratively: as the
claim's predicate but with Python's truthiness conventions — the
`text_contains` pattern is stripped of surrounding whitespace and an empty
(or whitespace-only) pattern is ignored, and empty `tags_any` / `author_in`
lists are ignored. -/
def matchesSpec (c : Chunk) (f : ChunkFilterDict) : Prop :=
  (match f.text_contains with
   | some tc => pyStrip tc = [] ∨
       ∃ l1 l2, pyLower c.text = l1 ++ pyLower (pyStrip tc) ++ l2
   | none => True) ∧
  (match f.created_at_from with
   | some (.valid t) => t ≤ c.created_at
   | _ => True) ∧
  (match f.created_at_to with
   | some (.valid t) => c.created_at ≤ t
   | _ => True) ∧
  (match f.tags_any with
   | some l => l = [] ∨ ∃ t ∈ l, t ∈ c.metadata.tags
   | none => True) ∧
  (match f.tags_all with
   | some l => ∀ t ∈ l, t ∈ c.metadata.tags
   | none => True) ∧
  (match f.author_in with
   | some l => l = [] ∨ ∃ a, c.metadata.author = some a ∧ a ∈ l
   | none => True)

/-- Whether any field of the filter is set (the claim's side condition). -/
def ChunkFilterDict.anyFieldSet (f : ChunkFilterDict) : Prop :=
  f.text_contains.isSome = true ∨ f.created_at_from.isSome = true ∨
  f.created_at_to.isSome = true ∨ f.tags_any.isSome = true ∨
  f.tags_all.isSome = true ∨ f.author_in.isSome = true

/-! ## Helper lemmas -/

theorem dictGet_nil {κ α : Type} [DecidableEq κ] (k : κ) :
    dictGet ([] : List (κ × α)) k = none := rfl

theorem find?_map_overwrite {κ α : Type} [DecidableEq κ]
    (t : List (κ × α)) (k k' : κ) (v : α) :
    (t.map (fun p => if p.1 = k then (k, v) else p)).find? (fun p => p.1 = k')
    = if k' = k then (t.find? (fun p => p.1 = k)).map (fun _ => (k, v))
      else t.find? (fun p => p.1 = k') := by
  induction t with
  | nil => by_cases hk' : k' = k <;> simp [hk']
  | cons a t ih =>
    by_cases hak : a.1 = k
    · by_cases hk' : k' = k
      · simp [List.find?, hak, hk', ih]
      · have hkk : ¬ k = k' := fun hc => hk' hc.symm
        simp [List.find?, hak, hk', hkk, ih]
    · by_cases hk' : k' = k
      · subst hk'
        simp [List.find?, hak, ih]
      · by_cases ha' : a.1 = k' <;> simp [List.find?, hak, hk', ha', ih]

theorem dictGet_dictSet_self {κ α : Type} [DecidableEq κ]
    (m : List (κ × α)) (k : κ) (v : α) :
    dictGet (dictSet m k v) k = some v := by
  unfold dictGet dictSet
  split
  · next hfound =>
    rw [find?_map_overwrite, if_pos rfl]
    rw [Option.isSome_iff_exists] at hfound
    obtain ⟨x, hx⟩ := hfound
    simp [hx]
  · next hfound =>
    have hnone : m.find? (fun p => (p.1 = k : Bool)) = none := by
      cases h : m.find? (fun p => (p.1 = k : Bool)) with
      | none => rfl
      | some x => rw [h] at hfound; simp at hfound
    simp [List.find?_append, hnone, List.find?]

theorem dictGet_dictSet_ne {κ α : Type} [DecidableEq κ]
    (m : List (κ × α)) (k k' : κ) (v : α) (h : ¬ k' = k) :
    dictGet (dictSet m k v) k' = dictGet m k' := by
  unfold dictGet dictSet
  split
  · rw [find?_map_overwrite, if_neg h]
  · next hfound =>
    have hnone : m.find? (fun p => (p.1 = k : Bool)) = none := by
      cases hh : m.find? (fun p => (p.1 = k : Bool)) with
      | none => rfl
      | some x => rw [hh] at hfound; simp at hfound
    rw [List.find?_append]
    have hkk : ¬ k = k' := fun hc => h hc.symm
    cases hm : m.find? (fun p => (p.1 = k' : Bool)) with
    | none => simp [List.find?, hkk]
    | some x => simp

theorem find?_filter_del {κ α : Type} [DecidableEq κ]
    (m : List (κ × α)) (k k' : κ) :
    (m.filter (fun p => ¬ p.1 = k)).find? (fun p => p.1 = k')
    = if k' = k then none else m.find? (fun p => p.1 = k') := by
  induction m with
  | nil => by_cases hk' : k' = k <;> simp [hk']
  | cons a t ih =>
    have ih' := ih
    simp only [decide_not] at ih'
    by_cases hak : a.1 = k
    · by_cases hk' : k' = k
      · simp [List.filter, List.find?, hak, hk', ih', -List.find?_filter]
      · have hkk : ¬ k = k' := fun hc => hk' hc.symm
        simp [List.filter, List.find?, hak, hk', hkk, ih', -List.find?_filter]
    · by_cases ha' : a.1 = k'
      · by_cases hk' : k' = k
        · exact absurd (ha'.trans hk') hak
        · simp [List.filter, List.find?, hak, ha', hk', -List.find?_filter]
      · by_cases hk' : k' = k <;>
          simp [List.filter, List.find?, hak, ha', hk', ih', -List.find?_filter]

theorem dictGet_dictDel_self {κ α : Type} [DecidableEq κ]
    (m : List (κ × α)) (k : κ) :
    dictGet (dictDel m k) k = none := by
  unfold dictGet dictDel
  rw [find?_filter_del, if_pos rfl]
  rfl

theorem dictGet_dictDel_ne {κ α : Type} [DecidableEq κ]
    (m : List (κ × α)) (k k' : κ) (h : ¬ k' = k) :
    dictGet (dictDel m k) k' = dictGet m k' := by
  unfold dictGet dictDel
  rw [find?_filter_del, if_neg h]

theorem sortByScoreDesc_perm (l : List (String × ℚ)) :
    (sortByScoreDesc l).Perm l :=
  List.perm_insertionSort _ l

theorem sortByScoreDesc_sorted (l : List (String × ℚ)) :
    (sortByScoreDesc l).Pairwise (fun a b => b.2 ≤ a.2) := by
  have := @List.sorted_insertionSort (String × ℚ) (fun a b => b.2 ≤ a.2)
    (fun a b => inferInstance) ⟨fun a b => le_total b.2 a.2⟩
    ⟨fun a b c hab hbc => le_trans hbc hab⟩ l
  exact this

theorem kdSortBest_perm (l : List (ℚ × String)) :
    (kdSortBest l).Perm l :=
  List.perm_insertionSort _ l

theorem kdSortBest_sorted (l : List (ℚ × String)) :
    (kdSortBest l).Pairwise (fun a b => a.1 ≤ b.1) := by
  have := @List.sorted_insertionSort (ℚ × String) (fun a b => a.1 ≤ b.1)
    (fun a b => inferInstance) ⟨fun a b => le_total a.1 b.1⟩
    ⟨fun a b c hab hbc => le_trans hab hbc⟩ l
  exact this

theorem kdSortByAxis_perm (axis : ℕ) (l : List (List ℚ × String)) :
    (kdSortByAxis axis l).Perm l :=
  List.perm_insertionSort _ l

theorem kdSortByAxis_sorted (axis : ℕ) (l : List (List ℚ × String)) :
    (kdSortByAxis axis l).Pairwise
      (fun a b => a.1.getD axis 0 ≤ b.1.getD axis 0) := by
  have := @List.sorted_insertionSort (List ℚ × String)
    (fun a b => a.1.getD axis 0 ≤ b.1.getD axis 0)
    (fun a b => inferInstance) ⟨fun a b => le_total _ _⟩
    ⟨fun a b c hab hbc => le_trans hab hbc⟩ l
  exact this

/-! ## Claim C9 -/

theorem rwlock_inv_step {s s' : RWState} {l : RWLabel} (hs : RWStep s l s')
    (h1 : s.writersHolding ≤ 1)
    (h2 : s.writer_active = true ↔ s.writersHolding = 1)
    (h3 : s.writer_active = true → s.readers = 0) :
    s'.writersHolding ≤ 1 ∧ (s'.writer_active = true ↔ s'.writersHolding = 1) ∧
    (s'.writer_active = true → s'.readers = 0) := by
  cases hs with
  | acquire_read hact hwait =>
    exact ⟨h1, by simpa using h2, by simp [hact]⟩
  | release_read hpos =>
    refine ⟨h1, by simpa using h2, ?_⟩
    intro hact
    have := h3 hact
    simp at hact ⊢
    omega
  | begin_acquire_write =>
    exact ⟨h1, by simpa using h2, by simpa using h3⟩
  | complete_acquire_write hwait hact hread =>
    have hh : s.writersHolding = 0 := by
      by_contra hcon
      have h1' : s.writersHolding = 1 := by omega
      have := h2.mpr h1'
      rw [hact] at this
      exact absurd this (by simp)
    exact ⟨by simp [hh], by simp [hh], by simp [hread]⟩
  | release_write hpos =>
    have hh : s.writersHolding = 1 := by omega
    exact ⟨by simp [hh], by simp [hh], by simp⟩

theorem rwlock_inv {s : RWState} (h : RWReachable s) :
    s.writersHolding ≤ 1 ∧ (s.writer_active = true ↔ s.writersHolding = 1) ∧
    (s.writer_active = true → s.readers = 0) := by
  induction h with
  | init => simp
  | step _ hs ih => exact rwlock_inv_step hs ih.1 ih.2.1 ih.2.2

/-- Claim C9: in every reachable state of the reader-writer lock's protocol,
no two writers hold the lock at once, no writer holds it together with any
reader, and an `acquire_read` step is admitted only when no writer is
waiting and none is active. -/
theorem C9_rwlock_safety :
    ∀ s : RWState, RWReachable s →
      s.writersHolding ≤ 1 ∧
      (1 ≤ s.writersHolding → s.readers = 0) ∧
      (∀ s', RWStep s .acquire_read s' →
        s.writers_waiting = 0 ∧ s.writer_active = false) := by
  intro s h
  obtain ⟨h1, h2, h3⟩ := rwlock_inv h
  refine ⟨h1, ?_, ?_⟩
  · intro hpos
    exact h3 (h2.mpr (by omega))
  · intro s' hstep
    cases hstep with
    | acquire_read hact hwait => exact ⟨hwait, hact⟩

theorem C9_witness :
    (RWState.mk 0 0 false 0).writersHolding ≤ 1 ∧
    (1 ≤ (RWState.mk 0 0 false 0).writersHolding →
      (RWState.mk 0 0 false 0).readers = 0) ∧
    (∀ s', RWStep (RWState.mk 0 0 false 0) .acquire_read s' →
      (RWState.mk 0 0 false 0).writers_waiting = 0 ∧
      (RWState.mk 0 0 false 0).writer_active = false) :=
  C9_rwlock_safety _ RWReachable.init

/-! ## Claim C10 -/

theorem foldl_dictSet_get {κ α : Type} [DecidableEq κ]
    (l : List (α × κ)) (m : List (κ × α)) (k : κ) :
    dictGet (l.foldl (fun m p => dictSet m p.2 p.1) m) k
      = ((l.reverse.find? (fun p => p.2 = k)).map (fun p => p.1)).or
          (dictGet m k) := by
  induction l generalizing m with
  | nil => simp
  | cons p l ih =>
    rw [List.foldl_cons, ih, List.reverse_cons, List.find?_append]
    cases hf : l.reverse.find? (fun p => p.2 = k) with
    | some x => simp
    | none =>
      simp only [hf, Option.map_none', Option.none_or]
      by_cases hk : p.2 = k
      · rw [← hk, dictGet_dictSet_self]
        simp [List.find?, hk]
      · rw [dictGet_dictSet_ne m p.2 k p.1 (fun hc => hk hc.symm)]
        simp [List.find?, hk]

theorem posOfIds_get (ids : List String) (hnd : ids.Nodup) (id : String)
    (i : ℕ) :
    dictGet (posOfIds ids) id = some i ↔
      i < ids.length ∧ ids.getD i "" = id := by
  unfold posOfIds
  rw [foldl_dictSet_get]
  simp only [dictGet_nil, Option.or_none]
  constructor
  · intro h
    obtain ⟨p, hp⟩ : ∃ p, ids.enum.reverse.find? (fun p => p.2 = id) = some p := by
      cases hf : ids.enum.reverse.find? (fun p => p.2 = id) with
      | none => rw [hf] at h; simp at h
      | some p => exact ⟨p, rfl⟩
    rw [hp] at h
    simp only [Option.map_some', Option.some.injEq] at h
    have hpred := List.find?_some hp
    have hmem : p ∈ ids.enum.reverse := List.mem_of_find?_eq_some hp
    rw [List.mem_reverse, List.mem_enum_iff_getElem?] at hmem
    simp only [decide_eq_true_eq] at hpred
    obtain ⟨hlt, heq⟩ := List.getElem?_eq_some.mp hmem
    subst h
    refine ⟨hlt, ?_⟩
    rw [List.getD_eq_getElem?_getD, List.getElem?_eq_getElem hlt]
    simp [heq, hpred]
  · rintro ⟨hi, hgd⟩
    have hq : ids[i]? = some id := by
      rw [List.getElem?_eq_getElem hi]
      rw [List.getD_eq_getElem?_getD, List.getElem?_eq_getElem hi] at hgd
      simpa using hgd
    have hmem : ((i, id) : ℕ × String) ∈ ids.enum.reverse := by
      rw [List.mem_reverse, List.mem_enum_iff_getElem?]
      exact hq
    have hsome : (ids.enum.reverse.find? (fun p => p.2 = id)).isSome = true := by
      rw [List.find?_isSome]
      exact ⟨(i, id), hmem, by simp⟩
    obtain ⟨p, hp⟩ := Option.isSome_iff_exists.mp hsome
    have hpred := List.find?_some hp
    have hpmem : p ∈ ids.enum.reverse := List.mem_of_find?_eq_some hp
    rw [List.mem_reverse, List.mem_enum_iff_getElem?] at hpmem
    simp only [decide_eq_true_eq] at hpred
    have hpi : p.1 = i := by
      obtain ⟨h1, e1⟩ := List.getElem?_eq_some.mp hpmem
      obtain ⟨h2, e2⟩ := List.getElem?_eq_some.mp hq
      exact (hnd.getElem_inj_iff).mp (by rw [e1, e2, hpred])
    rw [hp]
    simp [hpi]

theorem build_consistent (s : BruteForceIndex) (vectors : List (List ℚ))
    (ids : List String) (hnd : ids.Nodup)
    (hlen : ids.length = vectors.length) :
    (s.build vectors ids).Consistent := by
  unfold BruteForceIndex.build BruteForceIndex.Consistent
    BruteForceIndex.size
  refine ⟨?_, hnd, ?_, rfl⟩
  · by_cases hp : s.pre_normalize <;> simp [hp, hlen]
  · intro id i
    exact posOfIds_get ids hnd id i

theorem consistent_not_mem {s : BruteForceIndex} (hs : s.Consistent)
    {id : String} (hnone : dictGet s.pos id = none) : id ∉ s.ids := by
  intro hmem
  obtain ⟨i, hi, hgd⟩ := List.mem_iff_getElem.mp hmem
  have : dictGet s.pos id = some i := (hs.2.2.1 id i).mpr
    ⟨hi, by rw [List.getD_eq_getElem?_getD, List.getElem?_eq_getElem hi]; simpa using hgd⟩
  rw [hnone] at this
  exact Option.noConfusion this

theorem add_consistent (s : BruteForceIndex) (v : List ℚ) (id : String)
    (s' : BruteForceIndex) (hs : s.Consistent) (h : s.add v id = .ok s') :
    s'.Consistent := by
  unfold BruteForceIndex.add at h
  by_cases hdup : (dictGet s.pos id).isSome = true
  · rw [if_pos hdup] at h
    exact Except.noConfusion h
  · rw [if_neg hdup] at h
    have hnone : dictGet s.pos id = none := by
      cases hg : dictGet s.pos id with
      | none => rfl
      | some x => rw [hg] at hdup; simp at hdup
    obtain ⟨h1, h2, h3, h4⟩ := hs
    injection h with h
    subst h
    refine ⟨?_, ?_, ?_, ?_⟩
    · simp [h1]
    · simp only [List.nodup_append]
      exact ⟨h2, List.nodup_singleton id, by
        intro a ha hb
        simp at hb
        subst hb
        exact consistent_not_mem ⟨h1, h2, h3, h4⟩ hnone ha⟩
    · intro id' i
      by_cases hid : id' = id
      · subst hid
        rw [dictGet_dictSet_self]
        constructor
        · intro hsome
          injection hsome with hsome
          subst hsome
          refine ⟨by simp, ?_⟩
          rw [List.getD_eq_getElem?_getD, List.getElem?_append]
          simp
        · rintro ⟨hi, hgd⟩
          by_cases hcase : i < s.ids.length
          · exfalso
            rw [List.getD_eq_getElem?_getD, List.getElem?_append,
              if_pos hcase] at hgd
            have : dictGet s.pos id' = some i := (h3 id' i).mpr
              ⟨hcase, by rw [List.getD_eq_getElem?_getD]; exact hgd⟩
            rw [hnone] at this
            exact Option.noConfusion this
          · have : i = s.ids.length := by
              simp at hi
              omega
            simp [this]
      · rw [dictGet_dictSet_ne _ _ _ _ hid]
        rw [h3 id' i]
        constructor
        · rintro ⟨hi, hgd⟩
          refine ⟨by simp; omega, ?_⟩
          rw [List.getD_eq_getElem?_getD, List.getElem?_append, if_pos hi]
          rw [List.getD_eq_getElem?_getD] at hgd
          exact hgd
        · rintro ⟨hi, hgd⟩
          by_cases hcase : i < s.ids.length
          · refine ⟨hcase, ?_⟩
            rw [List.getD_eq_getElem?_getD, List.getElem?_append,
              if_pos hcase] at hgd
            rw [List.getD_eq_getElem?_getD]
            exact hgd
          · exfalso
            have hieq : i = s.ids.length := by
              simp at hi
              omega
            subst hieq
            rw [List.getD_eq_getElem?_getD, List.getElem?_append] at hgd
            simp at hgd
            exact hid hgd.symm
    · simp [BruteForceIndex.size, h4]

theorem nodup_of_inverse (l : List String) (m : List (String × ℕ))
    (h : ∀ id i, dictGet m id = some i ↔ i < l.length ∧ l.getD i "" = id) :
    l.Nodup := by
  rw [List.nodup_iff_injective_get]
  rintro ⟨i, hi⟩ ⟨j, hj⟩ hij
  simp only [List.get_eq_getElem] at hij
  have h1 : dictGet m l[i] = some i := (h l[i] i).mpr
    ⟨hi, by rw [List.getD_eq_getElem?_getD, List.getElem?_eq_getElem hi]; rfl⟩
  have h2 : dictGet m l[i] = some j := (h l[i] j).mpr
    ⟨hj, by rw [List.getD_eq_getElem?_getD, List.getElem?_eq_getElem hj]; simp [hij]⟩
  rw [h1] at h2
  injection h2 with h2
  exact Fin.ext h2

theorem remove_ok (s : BruteForceIndex) (id : String) (s' : BruteForceIndex)
    (hs : s.Consistent) (h : s.remove id = .ok s') :
    s'.Consistent ∧
    ∀ id', ¬ id' = id → (dictGet s.pos id').isSome = true →
      s'.vecOf id' = s.vecOf id' := by
  obtain ⟨h1, h2, h3, h4⟩ := hs
  unfold BruteForceIndex.remove at h
  cases hg : dictGet s.pos id with
  | none => rw [hg] at h; exact Except.noConfusion h
  | some idx =>
    rw [hg] at h
    obtain ⟨hidx_lt, hidx_id⟩ := (h3 id idx).mp hg
    dsimp only [] at h
    by_cases hswap : idx ≠ s.ids.length - 1
    · -- swap-with-last branch
      rw [if_pos hswap] at h
      injection h with h
      subst h
      rw [hidx_id]
      have hlast_lt : s.ids.length - 1 < s.ids.length := by omega
      have hidx_last : idx < s.ids.length - 1 := by omega
      set len := s.ids.length with hlen
      set last := len - 1 with hlastdef
      set b := s.ids.getD last "" with hb
      have hb_pos : dictGet s.pos b = some last := (h3 b last).mpr ⟨hlast_lt, rfl⟩
      have hb_ne : ¬ b = id := by
        intro hc
        rw [hc, hg] at hb_pos
        injection hb_pos with hb_pos
        omega
      have hvlen : s.vectors.length = len := h1.symm
      have hlen1 : ((s.ids.set idx b).set last id).length = len := by simp
      have hids1 : ∀ i, i < len → i ≠ last →
          ((s.ids.set idx b).set last id)[i]?
            = some (if i = idx then b else s.ids.getD i "") := by
        intro i hi hi_last
        rw [List.getElem?_set_ne (fun hc => hi_last hc.symm)]
        by_cases hi_idx : i = idx
        · subst hi_idx
          rw [List.getElem?_set_self hidx_lt, if_pos rfl]
        · rw [List.getElem?_set_ne (fun hc => hi_idx hc.symm), if_neg hi_idx,
            List.getElem?_eq_getElem hi]
          congr 1
          rw [List.getD_eq_getElem?_getD, List.getElem?_eq_getElem hi]
          rfl
      have hkey : ((s.ids.set idx b).set last id).getD idx "" = b := by
        rw [List.getD_eq_getElem?_getD,
          hids1 idx (by omega) (by omega), if_pos rfl]
        rfl
      rw [hkey]
      have hdrop : ∀ i, i < len - 1 →
          ((s.ids.set idx b).set last id).dropLast.getD i ""
            = if i = idx then b else s.ids.getD i "" := by
        intro i hi
        rw [List.getD_eq_getElem?_getD, List.getElem?_dropLast, hlen1,
          if_pos hi, hids1 i (by omega) (by omega)]
        rfl
      have hdlen : ((s.ids.set idx b).set last id).dropLast.length = len - 1 := by
        simp
      have hvecs1 : ∀ i, i < len → i ≠ last →
          ((s.vectors.set idx (s.vectors.getD last [])).set last
            (s.vectors.getD idx []))[i]?
            = some (if i = idx then s.vectors.getD last []
                    else s.vectors.getD i []) := by
        intro i hi hi_last
        rw [List.getElem?_set_ne (fun hc => hi_last hc.symm)]
        by_cases hi_idx : i = idx
        · subst hi_idx
          rw [List.getElem?_set_self (by omega), if_pos rfl]
        · rw [List.getElem?_set_ne (fun hc => hi_idx hc.symm), if_neg hi_idx,
            List.getElem?_eq_getElem (by omega)]
          congr 1
          rw [List.getD_eq_getElem?_getD, List.getElem?_eq_getElem (by omega)]
          rfl
      have hdropv : ∀ i, i < len - 1 →
          ((s.vectors.set idx (s.vectors.getD last [])).set last
            (s.vectors.getD idx [])).dropLast.getD i []
            = if i = idx then s.vectors.getD last []
              else s.vectors.getD i [] := by
        intro i hi
        rw [List.getD_eq_getElem?_getD, List.getElem?_dropLast]
        simp only [List.length_set, hvlen]
        rw [if_pos hi, hvecs1 i (by omega) (by omega)]
        rfl
      have hchar : ∀ id' i,
          dictGet (dictDel (dictSet s.pos b idx) id) id' = some i ↔
          i < ((s.ids.set idx b).set last id).dropLast.length ∧
          ((s.ids.set idx b).set last id).dropLast.getD i "" = id' := by
        intro id' i
        rw [hdlen]
        by_cases hid' : id' = id
        · rw [hid', dictGet_dictDel_self]
          constructor
          · intro hc
            exact Option.noConfusion hc
          · rintro ⟨hi, hgd⟩
            exfalso
            rw [hdrop i hi] at hgd
            by_cases hi_idx : i = idx
            · rw [if_pos hi_idx] at hgd
              exact hb_ne hgd
            · rw [if_neg hi_idx] at hgd
              have hcontra := (h3 id i).mpr ⟨by omega, hgd⟩
              rw [hg] at hcontra
              injection hcontra with hcontra
              exact hi_idx hcontra.symm
        · rw [dictGet_dictDel_ne _ _ _ hid']
          by_cases hid'b : id' = b
          · subst hid'b
            rw [dictGet_dictSet_self]
            constructor
            · intro hsome
              injection hsome with hsome
              subst hsome
              exact ⟨hidx_last, by rw [hdrop _ hidx_last, if_pos rfl]⟩
            · rintro ⟨hi, hgd⟩
              rw [hdrop i hi] at hgd
              by_cases hi_idx : i = idx
              · rw [hi_idx]
              · exfalso
                rw [if_neg hi_idx] at hgd
                have hcontra := (h3 b i).mpr ⟨by omega, hgd⟩
                rw [hb_pos] at hcontra
                injection hcontra with hcontra
                omega
          · rw [dictGet_dictSet_ne _ _ _ _ hid'b, h3 id' i]
            constructor
            · rintro ⟨hi, hgd⟩
              have hi_ne_idx : ¬ i = idx := by
                intro hc
                rw [hc, hidx_id] at hgd
                exact hid' hgd.symm
              have hi_ne_last : ¬ i = last := by
                intro hc
                rw [hc, ← hb] at hgd
                exact hid'b hgd.symm
              refine ⟨by omega, ?_⟩
              rw [hdrop i (by omega), if_neg hi_ne_idx]
              exact hgd
            · rintro ⟨hi, hgd⟩
              rw [hdrop i hi] at hgd
              by_cases hi_idx : i = idx
              · rw [if_pos hi_idx] at hgd
                exact absurd hgd.symm hid'b
              · rw [if_neg hi_idx] at hgd
                exact ⟨by omega, hgd⟩
      refine ⟨⟨by simp [hvlen, hlen], nodup_of_inverse _ _ hchar, hchar, rfl⟩, ?_⟩
      intro id' hne hpres
      obtain ⟨i, hgi⟩ := Option.isSome_iff_exists.mp hpres
      obtain ⟨hi, hgd⟩ := (h3 id' i).mp hgi
      unfold BruteForceIndex.vecOf
      dsimp only []
      by_cases hid'b : id' = b
      · subst hid'b
        rw [dictGet_dictDel_ne _ _ _ hne, dictGet_dictSet_self, hb_pos]
        simp only [Option.map_some']
        rw [hdropv idx hidx_last, if_pos rfl]
      · rw [dictGet_dictDel_ne _ _ _ hne, dictGet_dictSet_ne _ _ _ _ hid'b, hgi]
        simp only [Option.map_some']
        have hi_ne_idx : ¬ i = idx := by
          intro hc
          rw [hc, hidx_id] at hgd
          exact hne hgd.symm
        have hi_ne_last : ¬ i = last := by
          intro hc
          rw [hc, ← hb] at hgd
          exact hid'b hgd.symm
        rw [hdropv i (by omega), if_neg hi_ne_idx]
    · -- the removed id already sits in the last slot
      rw [if_neg hswap] at h
      injection h with h
      subst h
      have hidx_eq : idx = s.ids.length - 1 := by
        by_contra hc
        exact hswap hc
      set len := s.ids.length with hlen
      have hvlen : s.vectors.length = len := h1.symm
      have hdrop0 : ∀ i, i < len - 1 →
          s.ids.dropLast.getD i "" = s.ids.getD i "" := by
        intro i hi
        rw [List.getD_eq_getElem?_getD, List.getElem?_dropLast, if_pos hi,
          List.getD_eq_getElem?_getD]
      have hdropv0 : ∀ i, i < len - 1 →
          s.vectors.dropLast.getD i [] = s.vectors.getD i [] := by
        intro i hi
        rw [List.getD_eq_getElem?_getD, List.getElem?_dropLast, hvlen,
          if_pos hi, List.getD_eq_getElem?_getD]
      have hdlen0 : s.ids.dropLast.length = len - 1 := by simp
      have hchar : ∀ id' i, dictGet (dictDel s.pos id) id' = some i ↔
          i < s.ids.dropLast.length ∧ s.ids.dropLast.getD i "" = id' := by
        intro id' i
        rw [hdlen0]
        by_cases hid' : id' = id
        · rw [hid', dictGet_dictDel_self]
          constructor
          · intro hc
            exact Option.noConfusion hc
          · rintro ⟨hi, hgd⟩
            exfalso
            rw [hdrop0 i hi] at hgd
            have hcontra := (h3 id i).mpr ⟨by omega, hgd⟩
            rw [hg] at hcontra
            injection hcontra with hcontra
            omega
        · rw [dictGet_dictDel_ne _ _ _ hid', h3 id' i]
          constructor
          · rintro ⟨hi, hgd⟩
            have hi_ne_idx : ¬ i = idx := by
              intro hc
              rw [hc, hidx_id] at hgd
              exact hid' hgd.symm
            refine ⟨by omega, ?_⟩
            rw [hdrop0 i (by omega)]
            exact hgd
          · rintro ⟨hi, hgd⟩
            rw [hdrop0 i hi] at hgd
            exact ⟨by omega, hgd⟩
      refine ⟨⟨by simp [hvlen, hlen], nodup_of_inverse _ _ hchar, hchar, rfl⟩, ?_⟩
      intro id' hne hpres
      obtain ⟨i, hgi⟩ := Option.isSome_iff_exists.mp hpres
      obtain ⟨hi, hgd⟩ := (h3 id' i).mp hgi
      unfold BruteForceIndex.vecOf
      dsimp only []
      rw [dictGet_dictDel_ne _ _ _ hne, hgi]
      simp only [Option.map_some']
      have hi_ne_idx : ¬ i = idx := by
        intro hc
        rw [hc, hidx_id] at hgd
        exact hne hgd.symm
      rw [hdropv0 i (by omega)]

theorem update_consistent (s : BruteForceIndex) (id : String) (v : List ℚ)
    (s' : BruteForceIndex) (hs : s.Consistent) (h : s.update id v = .ok s') :
    s'.Consistent := by
  unfold BruteForceIndex.update at h
  cases hg : dictGet s.pos id with
  | none => rw [hg] at h; exact Except.noConfusion h
  | some idx =>
    rw [hg] at h
    injection h with h
    subst h
    obtain ⟨h1, h2, h3, h4⟩ := hs
    exact ⟨by simpa using h1, h2, h3, h4⟩

/-- Claim C10 (corrected): after any sequence of index operations in which
every `build` receives as many ids as vectors and pairwise-distinct ids,
the brute-force state is consistent — arrays of equal length, `_pos` the
exact inverse of the ids array, `size()` the number of stored ids — and a
successful `remove` leaves every remaining id bound to its original
vector. -/
theorem C10_brute_force_invariants :
    (∀ s : BruteForceIndex, BFReach s → s.Consistent) ∧
    (∀ (s : BruteForceIndex) (id : String) (s' : BruteForceIndex),
      s.Consistent → s.remove id = .ok s' →
      ∀ id', ¬ id' = id → (dictGet s.pos id').isSome = true →
        s'.vecOf id' = s.vecOf id') := by
  constructor
  · intro s h
    induction h with
    | empty =>
      refine ⟨rfl, List.nodup_nil, ?_, rfl⟩
      intro id i
      simp [BruteForceIndex.empty, dictGet]
    | buildStep hr hnd hlen ih => exact build_consistent _ _ _ hnd hlen
    | addStep hr hok ih => exact add_consistent _ _ _ _ ih hok
    | removeStep hr hok ih => exact (remove_ok _ _ _ ih hok).1
    | updateStep hr hok ih => exact update_consistent _ _ _ _ ih hok
  · intro s id s' hc hok
    exact (remove_ok _ _ _ hc hok).2

/-- Concrete refutation of C10 as stated: a single `build` with a
duplicated id already breaks the claimed consistency (the position dict
cannot give the duplicated id two positions). -/
theorem C10_counterexample :
    ¬ ((BruteForceIndex.empty true).build [[1], [2]] ["a", "a"]).Consistent := by
  rintro ⟨-, h2, -, -⟩
  simp [BruteForceIndex.build, BruteForceIndex.empty] at h2

theorem C10_witness :
    ((BruteForceIndex.empty true).build [[1], [0]] ["a", "b"]).Consistent ∧
    (BruteForceIndex.mk [normalize [1]] ["a"]
        (dictDel (posOfIds ["a", "b"]) "b") true).vecOf "a"
      = ((BruteForceIndex.empty true).build [[1], [0]] ["a", "b"]).vecOf "a" :=
  have h1 : ((BruteForceIndex.empty true).build [[1], [0]] ["a", "b"]).Consistent :=
    C10_brute_force_invariants.1 _
      (BFReach.buildStep BFReach.empty (by decide) (by decide))
  ⟨h1, C10_brute_force_invariants.2 _ "b" _ h1 rfl "a" (by decide) (by decide)⟩

/-! ## Claim C8 -/

theorem hydrate_ids (r : ChunkRepository) (l : List String)
    (h : ∀ cid ∈ l, ∃ c, dictGet r.items cid = some c ∧ c.id = cid) :
    ((l.filterMap (fun i => dictGet r.items i)).map (fun c => c.id)) = l := by
  induction l with
  | nil => rfl
  | cons a t ih =>
    obtain ⟨c, hc, hcid⟩ := h a (List.mem_cons_self a t)
    rw [List.filterMap_cons, hc]
    simp only [List.map_cons, hcid]
    rw [ih (fun cid hm => h cid (List.mem_cons_of_mem a hm))]

theorem delChunkIds_spec (l : List String) : ∀ (r : ChunkRepository) (d0 : String),
    (∀ cid ∈ l, (dictGet r.items cid).isSome = true) → l.Nodup →
    (∀ cid ∈ l, ∀ c, dictGet r.items cid = some c → c.document_id = d0) →
    (deleteChunkIds r l).1 = .ok () ∧
    (∀ cid ∈ l, dictGet (deleteChunkIds r l).2.items cid = none) ∧
    (∀ cid, cid ∉ l →
      dictGet (deleteChunkIds r l).2.items cid = dictGet r.items cid) ∧
    (∀ did, ¬ did = d0 →
      dictGet (deleteChunkIds r l).2.by_document did
        = dictGet r.by_document did) := by
  induction l with
  | nil =>
    intro r d0 _ _ _
    exact ⟨rfl, by intro cid hc; exact absurd hc (List.not_mem_nil cid),
      fun cid _ => rfl, fun did _ => rfl⟩
  | cons a t ih =>
    intro r d0 hpres hnd hdoc
    obtain ⟨c0, hc0⟩ : ∃ c, dictGet r.items a = some c := by
      have := hpres a (List.mem_cons_self a t)
      exact Option.isSome_iff_exists.mp this
    have ha_nt : a ∉ t := (List.nodup_cons.mp hnd).1
    have hd0 : c0.document_id = d0 := hdoc a (List.mem_cons_self a t) c0 hc0
    set r1 : ChunkRepository :=
      { items := dictDel r.items a,
        by_library := dictSet r.by_library c0.library_id
          (setDiscard ((dictGet r.by_library c0.library_id).getD []) a),
        by_document := dictSet r.by_document c0.document_id
          (setDiscard ((dictGet r.by_document c0.document_id).getD []) a) }
      with hr1
    have hstep : ChunkRepository.delete r a = .ok r1 := by
      unfold ChunkRepository.delete
      rw [hc0]
    have hrun : deleteChunkIds r (a :: t) = deleteChunkIds r1 t := by
      show (match ChunkRepository.delete r a with
            | .error e => ((.error e : Except Err Unit), r)
            | .ok r' => deleteChunkIds r' t) = deleteChunkIds r1 t
      rw [hstep]
    have hitems1 : ∀ cid, ¬ cid = a → dictGet r1.items cid = dictGet r.items cid := by
      intro cid hne
      rw [hr1]
      exact dictGet_dictDel_ne _ _ _ hne
    obtain ⟨ih1, ih2, ih3, ih4⟩ := ih r1 d0
      (by
        intro cid hm
        rw [hitems1 cid (fun hc => ha_nt (hc ▸ hm))]
        exact hpres cid (List.mem_cons_of_mem a hm))
      (List.nodup_cons.mp hnd).2
      (by
        intro cid hm c hc
        rw [hitems1 cid (fun hc2 => ha_nt (hc2 ▸ hm))] at hc
        exact hdoc cid (List.mem_cons_of_mem a hm) c hc)
    rw [hrun]
    refine ⟨ih1, ?_, ?_, ?_⟩
    · intro cid hm
      rcases List.mem_cons.mp hm with hm | hm
      · subst hm
        rw [ih3 cid ha_nt, hr1]
        exact dictGet_dictDel_self _ _
      · exact ih2 cid hm
    · intro cid hm
      have hma : ¬ cid = a := fun hc => hm (hc ▸ List.mem_cons_self a t)
      have hmt : cid ∉ t := fun hc => hm (List.mem_cons_of_mem a hc)
      rw [ih3 cid hmt, hitems1 cid hma]
    · intro did hne
      rw [ih4 did hne, hr1]
      show dictGet (dictSet r.by_document c0.document_id _) did = _
      exact dictGet_dictSet_ne _ _ _ _ (by rw [hd0]; exact hne)

theorem cascade_docs (ds : List Document) : ∀ (s : AppState),
    (∀ d ∈ ds, dictGet s.docs.items d.id = some d) →
    (ds.map (fun d => d.id)).Nodup →
    (∀ d ∈ ds, ∀ cid ∈ (dictGet s.chunks.by_document d.id).getD [],
      ∃ c, dictGet s.chunks.items cid = some c ∧ c.document_id = d.id ∧ c.id = cid) →
    (∀ d ∈ ds, ((dictGet s.chunks.by_document d.id).getD []).Nodup) →
    (∀ d ∈ ds, ∀ cid c, dictGet s.chunks.items cid = some c →
      c.document_id = d.id → cid ∈ (dictGet s.chunks.by_document d.id).getD []) →
    (deleteDocsCascade s ds).1 = .ok () ∧
    (∀ d ∈ ds, dictGet (deleteDocsCascade s ds).2.docs.items d.id = none) ∧
    (∀ did, did ∉ ds.map (fun d => d.id) →
      dictGet (deleteDocsCascade s ds).2.docs.items did
        = dictGet s.docs.items did) ∧
    (∀ cid c, dictGet s.chunks.items cid = some c →
      c.document_id ∈ ds.map (fun d => d.id) →
      dictGet (deleteDocsCascade s ds).2.chunks.items cid = none) ∧
    (∀ cid, (∀ c, dictGet s.chunks.items cid = some c →
        c.document_id ∉ ds.map (fun d => d.id)) →
      dictGet (deleteDocsCascade s ds).2.chunks.items cid
        = dictGet s.chunks.items cid) ∧
    (deleteDocsCascade s ds).2.libs = s.libs := by
  induction ds with
  | nil =>
    intro s _ _ _ _ _
    refine ⟨rfl, ?_, fun did _ => rfl, ?_, fun cid _ => rfl, rfl⟩
    · intro d hd
      exact absurd hd (List.not_mem_nil d)
    · intro cid c _ hmem
      exact absurd hmem (List.not_mem_nil _)
  | cons d0 rest ih =>
    intro s hpres hnd h3 h4 h5
    have hd0pres := hpres d0 (List.mem_cons_self d0 rest)
    -- the listed chunk ids of d0 are exactly its secondary-index entry
    have hl : (ChunkRepository.list_by_document s.chunks d0.id).map (fun c => c.id)
        = (dictGet s.chunks.by_document d0.id).getD [] := by
      unfold ChunkRepository.list_by_document
      exact hydrate_ids _ _ (fun cid hm => by
        obtain ⟨c, hc, _, hcid⟩ := h3 d0 (List.mem_cons_self d0 rest) cid hm
        exact ⟨c, hc, hcid⟩)
    obtain ⟨dc1, dc2, dc3, dc4⟩ := delChunkIds_spec
      ((ChunkRepository.list_by_document s.chunks d0.id).map (fun c => c.id))
      s.chunks d0.id
      (by
        rw [hl]
        intro cid hm
        obtain ⟨c, hc, -, -⟩ := h3 d0 (List.mem_cons_self d0 rest) cid hm
        rw [hc]
        rfl)
      (by rw [hl]; exact h4 d0 (List.mem_cons_self d0 rest))
      (by
        rw [hl]
        intro cid hm c hc
        obtain ⟨c', hc', hcdoc, -⟩ := h3 d0 (List.mem_cons_self d0 rest) cid hm
        rw [hc'] at hc
        injection hc with hc
        rw [← hc]
        exact hcdoc)
    set ids0 : List String :=
      (ChunkRepository.list_by_document s.chunks d0.id).map (fun c => c.id)
      with hids0
    set chunks1 : ChunkRepository := (deleteChunkIds s.chunks ids0).2 with hchunks1
    set docs1 : DocumentRepository :=
      { items := dictDel s.docs.items d0.id,
        by_library := dictSet s.docs.by_library d0.library_id
          (setDiscard ((dictGet s.docs.by_library d0.library_id).getD [])
            d0.id) } with hdocs1
    have hdstep : DocumentRepository.delete s.docs d0.id = .ok docs1 := by
      unfold DocumentRepository.delete
      rw [hd0pres]
    have hsplit : deleteChunkIds s.chunks ids0 = (.ok (), chunks1) := by
      rw [hchunks1, ← dc1]
    have hrun : deleteDocsCascade s (d0 :: rest)
        = deleteDocsCascade { s with chunks := chunks1, docs := docs1 } rest := by
      conv_lhs => rw [deleteDocsCascade]
      rw [hsplit]
      dsimp only []
      rw [hdstep]
    -- a chunk id listed for d0 hydrates to a chunk owned by d0
    have hin_ids0 : ∀ cid ∈ ids0, ∀ c, dictGet s.chunks.items cid = some c →
        c.document_id = d0.id := by
      rw [hl]
      intro cid hm c hc
      obtain ⟨c', hc', hcdoc, -⟩ := h3 d0 (List.mem_cons_self d0 rest) cid hm
      rw [hc'] at hc
      injection hc with hc
      rw [← hc]
      exact hcdoc
    have hd0_not_rest : d0.id ∉ rest.map (fun d => d.id) :=
      (List.nodup_cons.mp hnd).1
    have hne_rest : ∀ d ∈ rest, ¬ d.id = d0.id := by
      intro d hd hc
      exact hd0_not_rest (hc ▸ List.mem_map_of_mem (fun d => d.id) hd)
    obtain ⟨ih1, ih2, ih3, ih4, ih5, ih6⟩ := ih
      { s with chunks := chunks1, docs := docs1 }
      (by
        intro d hd
        show dictGet docs1.items d.id = some d
        rw [hdocs1]
        show dictGet (dictDel s.docs.items d0.id) d.id = some d
        rw [dictGet_dictDel_ne _ _ _ (hne_rest d hd)]
        exact hpres d (List.mem_cons_of_mem d0 hd))
      (List.nodup_cons.mp hnd).2
      (by
        intro d hd cid hcid
        rw [show ({ s with chunks := chunks1, docs := docs1 } : AppState).chunks
            = chunks1 from rfl, dc4 d.id (hne_rest d hd)] at hcid
        obtain ⟨c, hc, hcdoc, hcid_eq⟩ :=
          h3 d (List.mem_cons_of_mem d0 hd) cid hcid
        have hnot0 : cid ∉ ids0 := by
          intro hmem
          have := hin_ids0 cid hmem c hc
          rw [hcdoc] at this
          exact hne_rest d hd this
        refine ⟨c, ?_, hcdoc, hcid_eq⟩
        show dictGet chunks1.items cid = some c
        rw [hchunks1, dc3 cid hnot0]
        exact hc)
      (by
        intro d hd
        rw [show ({ s with chunks := chunks1, docs := docs1 } : AppState).chunks
            = chunks1 from rfl, hchunks1, dc4 d.id (hne_rest d hd)]
        exact h4 d (List.mem_cons_of_mem d0 hd))
      (by
        intro d hd cid c hc hcdoc
        rw [show ({ s with chunks := chunks1, docs := docs1 } : AppState).chunks
            = chunks1 from rfl] at hc ⊢
        have hnot0 : cid ∉ ids0 := by
          intro hmem
          rw [hchunks1, dc2 cid hmem] at hc
          exact Option.noConfusion hc
        rw [hchunks1, dc3 cid hnot0] at hc
        rw [hchunks1, dc4 d.id (hne_rest d hd)]
        exact h5 d (List.mem_cons_of_mem d0 hd) cid c hc hcdoc)
    rw [hrun]
    refine ⟨ih1, ?_, ?_, ?_, ?_, ih6⟩
    · intro d hd
      rcases List.mem_cons.mp hd with hd | hd
      · subst hd
        rw [ih3 d.id hd0_not_rest]
        show dictGet docs1.items d.id = none
        rw [hdocs1]
        exact dictGet_dictDel_self _ _
      · exact ih2 d hd
    · intro did hdid
      have hd0ne : ¬ did = d0.id := by
        intro hc
        exact hdid (hc ▸ List.mem_map.mpr ⟨d0, List.mem_cons_self d0 rest, rfl⟩)
      have hrest : did ∉ rest.map (fun d => d.id) := by
        intro hc
        exact hdid (List.mem_map.mp hc |>.elim
          (fun d hd => List.mem_map.mpr ⟨d, List.mem_cons_of_mem d0 hd.1, hd.2⟩))
      rw [ih3 did hrest]
      show dictGet docs1.items did = dictGet s.docs.items did
      rw [hdocs1]
      exact dictGet_dictDel_ne _ _ _ hd0ne
    · intro cid c hc hcdoc
      rcases List.mem_cons.mp hcdoc with hcd | hcd
      · -- the chunk belongs to d0: it is deleted by the inner loop
        have hmem : cid ∈ ids0 := by
          rw [hl]
          exact h5 d0 (List.mem_cons_self d0 rest) cid c hc hcd
        have hgone : dictGet chunks1.items cid = none := by
          rw [hchunks1]
          exact dc2 cid hmem
        rw [ih5 cid (by
          intro c' hc'
          rw [show ({ s with chunks := chunks1, docs := docs1 } : AppState).chunks
              = chunks1 from rfl, hgone] at hc'
          exact Option.noConfusion hc')]
        exact hgone
      · -- the chunk belongs to a later document
        have hnot0 : cid ∉ ids0 := by
          intro hmem
          have := hin_ids0 cid hmem c hc
          rw [this] at hcd
          exact hd0_not_rest hcd
        refine ih4 cid c ?_ hcd
        show dictGet chunks1.items cid = some c
        rw [hchunks1, dc3 cid hnot0]
        exact hc
    · intro cid hprem
      have hnot0 : cid ∉ ids0 := by
        intro hmem
        rw [hl] at hmem
        obtain ⟨c, hc, hcdoc, -⟩ := h3 d0 (List.mem_cons_self d0 rest) cid hmem
        have := hprem c hc
        rw [hcdoc] at this
        exact this (List.mem_map.mpr ⟨d0, List.mem_cons_self d0 rest, rfl⟩)
      have hunch : dictGet chunks1.items cid = dictGet s.chunks.items cid := by
        rw [hchunks1]
        exact dc3 cid hnot0
      rw [ih5 cid (by
        intro c' hc'
        rw [show ({ s with chunks := chunks1, docs := docs1 } : AppState).chunks
            = chunks1 from rfl, hunch] at hc'
        intro hmem
        exact hprem c' hc' (List.mem_map.mp hmem |>.elim
          (fun d hd => List.mem_map.mpr ⟨d, List.mem_cons_of_mem d0 hd.1, hd.2⟩)))]
      exact hunch


theorem hydrate_doc_ids (r : DocumentRepository) (l : List String)
    (h : ∀ did ∈ l, ∃ d, dictGet r.items did = some d ∧ d.id = did) :
    ((l.filterMap (fun i => dictGet r.items i)).map (fun d => d.id)) = l := by
  induction l with
  | nil => rfl
  | cons a t ih =>
    obtain ⟨d, hd, hdid⟩ := h a (List.mem_cons_self a t)
    rw [List.filterMap_cons, hd]
    simp only [List.map_cons, hdid]
    rw [ih (fun did hm => h did (List.mem_cons_of_mem a hm))]

/-- Claim C8: deleting a present library with cascade succeeds; afterwards
`get` on the library, on any of its documents and on any of its chunks
fails `NotFound`, and the document and chunk repositories retain no entity
of that library.  The hypotheses are the secondary-index well-formedness of
the two repositories and the spec's referential-integrity invariant for the
library's chunks. -/
theorem C8_cascade_delete (s : AppState) (L : String) (lib : Library)
    (hlib : dictGet s.libs.items L = some lib)
    (hdwf : s.docs.WF) (hcwf : s.chunks.WF)
    (hres : ChunksResolve s L) :
    (LibraryService.delete s L true).1 = .ok () ∧
    LibraryRepository.get (LibraryService.delete s L true).2.libs L
      = .error .NotFound ∧
    (∀ did d, dictGet s.docs.items did = some d → d.library_id = L →
      DocumentRepository.get (LibraryService.delete s L true).2.docs did
        = .error .NotFound) ∧
    (∀ cid c, dictGet s.chunks.items cid = some c → c.library_id = L →
      ChunkRepository.get (LibraryService.delete s L true).2.chunks cid
        = .error .NotFound) ∧
    (∀ did d,
      dictGet (LibraryService.delete s L true).2.docs.items did = some d →
      ¬ d.library_id = L) ∧
    (∀ cid c,
      dictGet (LibraryService.delete s L true).2.chunks.items cid = some c →
      ¬ c.library_id = L) := by
  set ds : List Document := DocumentRepository.list_by_library s.docs L with hds
  have hmap : ds.map (fun d => d.id) = (dictGet s.docs.by_library L).getD [] := by
    rw [hds]
    unfold DocumentRepository.list_by_library
    cases hby : dictGet s.docs.by_library L with
    | none => rfl
    | some ids =>
      obtain ⟨-, hsound⟩ := hdwf.2.1 L ids hby
      show ((ids.filterMap (fun i => dictGet s.docs.items i)).map
        (fun d => d.id)) = ids
      exact hydrate_doc_ids _ _ (fun did hm => by
        obtain ⟨d, hd, -⟩ := hsound did hm
        exact ⟨d, hd, hdwf.1 did d hd⟩)
  have hp1 : ∀ d ∈ ds, dictGet s.docs.items d.id = some d := by
    intro d hd
    rw [hds] at hd
    unfold DocumentRepository.list_by_library at hd
    obtain ⟨did, -, hget⟩ := List.mem_filterMap.mp hd
    rw [hdwf.1 did d hget]
    exact hget
  have hp2 : (ds.map (fun d => d.id)).Nodup := by
    rw [hmap]
    cases hby : dictGet s.docs.by_library L with
    | none => exact List.nodup_nil
    | some ids => exact (hdwf.2.1 L ids hby).1
  have hp3 : ∀ d ∈ ds, ∀ cid ∈ (dictGet s.chunks.by_document d.id).getD [],
      ∃ c, dictGet s.chunks.items cid = some c ∧ c.document_id = d.id ∧
        c.id = cid := by
    intro d _ cid hcid
    cases hby : dictGet s.chunks.by_document d.id with
    | none =>
      rw [hby] at hcid
      exact absurd hcid (List.not_mem_nil cid)
    | some ids =>
      rw [hby] at hcid
      obtain ⟨c, hc, hcdoc⟩ := (hcwf.2.2.1 d.id ids hby).2 cid hcid
      exact ⟨c, hc, hcdoc, hcwf.1 cid c hc⟩
  have hp4 : ∀ d ∈ ds, ((dictGet s.chunks.by_document d.id).getD []).Nodup := by
    intro d _
    cases hby : dictGet s.chunks.by_document d.id with
    | none => exact List.nodup_nil
    | some ids => exact (hcwf.2.2.1 d.id ids hby).1
  have hp5 : ∀ d ∈ ds, ∀ cid c, dictGet s.chunks.items cid = some c →
      c.document_id = d.id → cid ∈ (dictGet s.chunks.by_document d.id).getD [] := by
    intro d _ cid c hc hcd
    have h := (hcwf.2.2.2 cid c hc).2
    rw [hcd] at h
    exact h
  obtain ⟨cc1, cc2, cc3, cc4, cc5, cc6⟩ := cascade_docs ds s hp1 hp2 hp3 hp4 hp5
  set s1 : AppState := (deleteDocsCascade s ds).2 with hs1
  have hget : LibraryRepository.get s.libs L = .ok lib := by
    unfold LibraryRepository.get
    rw [hlib]
  have hsome : (dictGet s1.libs.items L).isSome = true := by
    rw [cc6, hlib]
    rfl
  have hldel : LibraryRepository.delete s1.libs L
      = .ok { items := dictDel s1.libs.items L } := by
    unfold LibraryRepository.delete
    rw [if_pos hsome]
  have hsplit : deleteDocsCascade s ds = (.ok (), s1) := by
    rw [hs1, ← cc1]
  have hrun : LibraryService.delete s L true
      = (.ok (), { s1 with libs := { items := dictDel s1.libs.items L } }) := by
    unfold LibraryService.delete
    rw [hget]
    dsimp only []
    rw [if_pos rfl, hsplit]
    dsimp only []
    rw [hldel]
  rw [hrun]
  refine ⟨rfl, ?_, ?_, ?_, ?_, ?_⟩
  · show LibraryRepository.get { items := dictDel s1.libs.items L } L
      = .error .NotFound
    unfold LibraryRepository.get
    rw [dictGet_dictDel_self]
  · intro did d hd hdl
    have hin := hdwf.2.2 did d hd
    rw [hdl, ← hmap] at hin
    obtain ⟨d2, hd2, hid2⟩ := List.mem_map.mp hin
    have hnone := cc2 d2 hd2
    rw [hid2] at hnone
    show DocumentRepository.get s1.docs did = .error .NotFound
    unfold DocumentRepository.get
    rw [hnone]
  · intro cid c hc hcl
    obtain ⟨d, hdget, hdlib⟩ := hres cid c hc hcl
    have hin := hdwf.2.2 c.document_id d hdget
    rw [hdlib, ← hmap] at hin
    have hnone := cc4 cid c hc hin
    show ChunkRepository.get s1.chunks cid = .error .NotFound
    unfold ChunkRepository.get
    rw [hnone]
  · intro did d hd hdl
    have hd1 : dictGet s1.docs.items did = some d := hd
    by_cases hmem : did ∈ ds.map (fun d => d.id)
    · obtain ⟨d2, hd2, hid2⟩ := List.mem_map.mp hmem
      have hnone := cc2 d2 hd2
      rw [hid2] at hnone
      rw [hnone] at hd1
      exact Option.noConfusion hd1
    · rw [cc3 did hmem] at hd1
      have hin := hdwf.2.2 did d hd1
      rw [hdl, ← hmap] at hin
      exact hmem hin
  · intro cid c hc hcl
    have hc1 : dictGet s1.chunks.items cid = some c := hc
    cases hc0 : dictGet s.chunks.items cid with
    | none =>
      have hunch := cc5 cid (by
        intro c2 hc2
        rw [hc0] at hc2
        exact Option.noConfusion hc2)
      rw [hunch, hc0] at hc1
      exact Option.noConfusion hc1
    | some c0 =>
      by_cases hdoc : c0.document_id ∈ ds.map (fun d => d.id)
      · have hnone := cc4 cid c0 hc0 hdoc
        rw [hnone] at hc1
        exact Option.noConfusion hc1
      · have hunch := cc5 cid (by
          intro c2 hc2
          rw [hc0] at hc2
          injection hc2 with h
          rw [← h]
          exact hdoc)
        rw [hunch, hc0] at hc1
        injection hc1 with h
        rw [← h] at hcl
        obtain ⟨d, hdget, hdlib⟩ := hres cid c0 hc0 hcl
        have hin := hdwf.2.2 c0.document_id d hdget
        rw [hdlib, ← hmap] at hin
        exact hdoc hin

theorem C8_witness :
    (LibraryService.delete
      (AppState.mk
        (LibraryRepository.mk [("L", Library.mk "L" ['l'] 1 IndexType.brute_force)])
        (DocumentRepository.mk [] []) (ChunkRepository.mk [] [] []) [] [] [] [])
      "L" true).1 = .ok () ∧
    LibraryRepository.get (LibraryService.delete
      (AppState.mk
        (LibraryRepository.mk [("L", Library.mk "L" ['l'] 1 IndexType.brute_force)])
        (DocumentRepository.mk [] []) (ChunkRepository.mk [] [] []) [] [] [] [])
      "L" true).2.libs "L" = .error .NotFound := by
  have h := C8_cascade_delete
    (AppState.mk
      (LibraryRepository.mk [("L", Library.mk "L" ['l'] 1 IndexType.brute_force)])
      (DocumentRepository.mk [] []) (ChunkRepository.mk [] [] []) [] [] [] [])
    "L" (Library.mk "L" ['l'] 1 IndexType.brute_force) rfl
    ⟨fun did d hd => Option.noConfusion hd,
     fun lid ids hby => Option.noConfusion hby,
     fun did d hd => Option.noConfusion hd⟩
    ⟨fun cid c hc => Option.noConfusion hc,
     fun lid ids hby => Option.noConfusion hby,
     fun did ids hby => Option.noConfusion hby,
     fun cid c hc => Option.noConfusion hc⟩
    (fun cid c hc => Option.noConfusion hc)
  exact ⟨h.1, h.2.1⟩

/-! ## Claim C3 -/

/-- Claim C3 (corrected): the brute-force and LSH variants fail with
`Duplicate` whenever the id is already present; the KD-tree variant
performs no duplicate check and instead silently rebuilds with the new
element appended, never failing. -/
theorem C3_add_duplicate_amended :
    (∀ (b : BruteForceIndex) (v : List ℚ) (id : String),
      (dictGet b.pos id).isSome = true → b.add v id = .error .Duplicate) ∧
    (∀ (gauss : ℕ → ℕ → ℕ → ℚ) (l : LSHIndex) (v : List ℚ) (id : String),
      (dictGet l.id_to_vec id).isSome = true →
        LSHIndex.add gauss l v id = .error .Duplicate) ∧
    (∀ (t : KDTreeIndex) (v : List ℚ) (id : String),
      (dictGet t.id_to_point id).isSome = true →
        t.add v id = .ok (t.build (dictValues t.id_to_point ++ [normalize v])
          (dictKeys t.id_to_point ++ [id]))) := by
  refine ⟨?_, ?_, ?_⟩
  · intro b v id h
    simp [BruteForceIndex.add, h]
  · intro gauss l v id h
    simp [LSHIndex.add, h]
  · intro t v id _
    rfl

/-- Concrete refutation of C3 as stated: a KD-tree index holding id `a`
accepts `add` for the same id without any error. -/
theorem C3_counterexample :
    (dictGet (KDTreeIndex.empty.build [[1, 0]] ["a"]).id_to_point "a").isSome = true ∧
    exceptOk ((KDTreeIndex.empty.build [[1, 0]] ["a"]).add [0, 1] "a") = true := by
  constructor
  · decide
  · rfl

theorem C3_witness :
    (BruteForceIndex.mk [[1]] ["a"] [("a", 0)] true).add [1] "a"
        = .error .Duplicate ∧
    LSHIndex.add (fun _ _ _ => 0)
        (LSHIndex.mk 4 42 [] [([], ["a"])] [("a", [1])]) [1] "a"
        = .error .Duplicate ∧
    (KDTreeIndex.mk KDNode.nil 1 1 [("a", [1])]).add [1] "a"
        = .ok ((KDTreeIndex.mk KDNode.nil 1 1 [("a", [1])]).build
            (dictValues [("a", [1])] ++ [normalize [1]])
            (dictKeys [("a", [1])] ++ ["a"])) :=
  ⟨C3_add_duplicate_amended.1 _ _ _ (by decide),
   C3_add_duplicate_amended.2.1 _ _ _ _ (by decide),
   C3_add_duplicate_amended.2.2 _ _ _ (by decide)⟩

/-! ## Claim C5 -/

/-- Claim C5: on an LSH index holding at least one vector, `search` with
`k ≥ 1` returns at least one pair; the result is ranked by descending
score, and whenever the query's bucket is empty (or no planes exist) the
candidates are exactly all stored ids scored by cosine similarity. -/
theorem C5_lsh_fallback_nonempty (s : LSHIndex) (q : List ℚ) (k : ℤ)
    (hne : ¬ s.id_to_vec = []) (hk : 1 ≤ k) :
    ¬ s.search q k = [] ∧
    (s.search q k).Pairwise (fun a b => b.2 ≤ a.2) ∧
    ((s.planes = [] ∨
        (dictGet s.buckets (lshHash s.planes (normalize q))).getD [] = []) →
      s.search q k =
        (sortByScoreDesc ((dictKeys s.id_to_vec).map
          (fun cid => (cid, cosine_similarity (normalize q)
            ((dictGet s.id_to_vec cid).getD []))))).take k.toNat) := by
  have hk0 : ¬ k ≤ 0 := by omega
  have htoNat : ¬ k.toNat = 0 := by omega
  simp only [LSHIndex.search, if_neg hk0, if_neg hne]
  set cands0 : List String :=
    (if ¬ s.planes = [] then (dictGet s.buckets (lshHash s.planes (normalize q))).getD []
     else []) with hcands0
  set cands : List String := (if cands0 = [] then dictKeys s.id_to_vec else cands0)
    with hcands
  set pairs := cands.map
    (fun cid => (cid, cosine_similarity (normalize q) ((dictGet s.id_to_vec cid).getD [])))
    with hpairs
  have hcne : ¬ cands = [] := by
    rw [hcands]
    by_cases hc : cands0 = []
    · rw [if_pos hc]
      intro hkeys
      exact hne (by simpa [dictKeys] using hkeys)
    · rw [if_neg hc]
      exact hc
  refine ⟨?_, ?_, ?_⟩
  · intro hEmpty
    rcases List.take_eq_nil_iff.mp hEmpty with h0 | h0
    · exact htoNat h0
    · have hlen : pairs.length = 0 := by
        rw [← (sortByScoreDesc_perm pairs).length_eq, h0]
        rfl
      rw [hpairs, List.length_map] at hlen
      exact hcne (List.length_eq_zero.mp hlen)
  · exact List.Pairwise.sublist (List.take_sublist _ _) (sortByScoreDesc_sorted _)
  · intro hfall
    have h0 : cands0 = [] := by
      rw [hcands0]
      rcases hfall with h | h
      · simp [h]
      · by_cases hp : s.planes = []
        · simp [hp]
        · simp [hp, h]
    rw [hpairs, hcands, if_pos h0]

theorem C5_witness :
    ¬ (LSHIndex.mk 4 42 [] [] [("a", [1])]).search [1] 1 = [] ∧
    ((LSHIndex.mk 4 42 [] [] [("a", [1])]).search [1] 1).Pairwise
      (fun a b => b.2 ≤ a.2) ∧
    (((LSHIndex.mk 4 42 [] [] [("a", [1])]).planes = [] ∨
        (dictGet (LSHIndex.mk 4 42 [] [] [("a", [1])]).buckets
          (lshHash (LSHIndex.mk 4 42 [] [] [("a", [1])]).planes (normalize [1]))).getD [] = []) →
      (LSHIndex.mk 4 42 [] [] [("a", [1])]).search [1] 1 =
        (sortByScoreDesc ((dictKeys (LSHIndex.mk 4 42 [] [] [("a", [1])]).id_to_vec).map
          (fun cid => (cid, cosine_similarity (normalize [1])
            ((dictGet (LSHIndex.mk 4 42 [] [] [("a", [1])]).id_to_vec cid).getD []))))).take
          (1 : ℤ).toNat) :=
  C5_lsh_fallback_nonempty _ _ _ (by decide) (by decide)

/-! ## Claim C2 -/

theorem VersionManager.get_fst (m : VersionMap) (L : String) :
    (VersionManager.get m L).1 = viewVersion m L := by
  unfold VersionManager.get viewVersion
  cases h : dictGet m L <;> simp [h]

theorem viewVersion_get_snd (m : VersionMap) (L L' : String) :
    viewVersion (VersionManager.get m L).2 L' = viewVersion m L' := by
  unfold VersionManager.get
  cases h : dictGet m L with
  | some vi => simp
  | none =>
    by_cases hL : L' = L
    · subst hL
      simp [viewVersion, dictGet_dictSet_self, h]
    · simp [viewVersion, dictGet_dictSet_ne _ _ _ _ hL]

theorem viewVersion_bump (m : VersionMap) (L L' : String) :
    viewVersion (VersionManager.bump_data m L).2 L'
      = if L' = L then
          { viewVersion m L with
            data_version := (viewVersion m L).data_version + 1 }
        else viewVersion m L' := by
  show viewVersion (dictSet (VersionManager.get m L).2 L _) L' = _
  by_cases hL : L' = L
  · subst hL
    rw [if_pos rfl]
    simp [viewVersion, dictGet_dictSet_self, VersionManager.get_fst]
  · rw [if_neg hL]
    unfold viewVersion
    rw [dictGet_dictSet_ne _ _ _ _ hL]
    exact viewVersion_get_snd m L L'

theorem viewVersion_set_index_version (m : VersionMap) (L : String) (v : ℤ)
    (L' : String) :
    viewVersion (VersionManager.set_index_version m L v).2 L'
      = if L' = L then { viewVersion m L with index_version := v }
        else viewVersion m L' := by
  show viewVersion (dictSet (VersionManager.get m L).2 L _) L' = _
  by_cases hL : L' = L
  · subst hL
    rw [if_pos rfl]
    simp [viewVersion, dictGet_dictSet_self, VersionManager.get_fst]
  · rw [if_neg hL]
    unfold viewVersion
    rw [dictGet_dictSet_ne _ _ _ _ hL]
    exact viewVersion_get_snd m L L'

theorem is_stale_fst (m : VersionMap) (L : String) :
    (VersionManager.is_index_stale m L).1
      = decide (¬ (viewVersion m L).index_version
          = (viewVersion m L).data_version) := by
  show decide (¬ (VersionManager.get m L).1.index_version
      = (VersionManager.get m L).1.data_version) = _
  rw [VersionManager.get_fst]

/-- After a successful point insert with a live index,
`index_version = data_version` (at the untouched `data_version`). -/
theorem add_chunk_sync (gauss : ℕ → ℕ → ℕ → ℚ) (s : AppState) (L : String)
    (c : Chunk) (hidx : (dictGet s.indexes L).isSome = true)
    (hok : exceptOk (IndexService.add_chunk gauss s L c).1 = true) :
    viewVersion (IndexService.add_chunk gauss s L c).2.versions L
      = { data_version := (viewVersion s.versions L).data_version,
          index_version := (viewVersion s.versions L).data_version } := by
  unfold IndexService.add_chunk at hok ⊢
  cases h : dictGet s.indexes L with
  | none => rw [h] at hidx; simp at hidx
  | some idx =>
    rw [h] at hok
    dsimp only [] at hok ⊢
    cases ha : Idx.add gauss idx c.embedding c.id with
    | error e => rw [ha] at hok; simp [exceptOk] at hok
    | ok idx' =>
      dsimp only []
      rw [viewVersion_set_index_version, if_pos rfl, viewVersion_get_snd,
        VersionManager.get_fst]

theorem remove_chunk_sync (s : AppState) (L : String) (cid : String)
    (hidx : (dictGet s.indexes L).isSome = true)
    (hok : exceptOk (IndexService.remove_chunk s L cid).1 = true) :
    viewVersion (IndexService.remove_chunk s L cid).2.versions L
      = { data_version := (viewVersion s.versions L).data_version,
          index_version := (viewVersion s.versions L).data_version } := by
  unfold IndexService.remove_chunk at hok ⊢
  cases h : dictGet s.indexes L with
  | none => rw [h] at hidx; simp at hidx
  | some idx =>
    rw [h] at hok
    dsimp only [] at hok ⊢
    cases ha : Idx.remove idx cid with
    | error e => rw [ha] at hok; simp [exceptOk] at hok
    | ok idx' =>
      dsimp only []
      rw [viewVersion_set_index_version, if_pos rfl, viewVersion_get_snd,
        VersionManager.get_fst]

theorem update_chunk_sync (gauss : ℕ → ℕ → ℕ → ℚ) (s : AppState) (L : String)
    (c : Chunk) (hidx : (dictGet s.indexes L).isSome = true)
    (hok : exceptOk (IndexService.update_chunk gauss s L c).1 = true) :
    viewVersion (IndexService.update_chunk gauss s L c).2.versions L
      = { data_version := (viewVersion s.versions L).data_version,
          index_version := (viewVersion s.versions L).data_version } := by
  unfold IndexService.update_chunk at hok ⊢
  cases h : dictGet s.indexes L with
  | none => rw [h] at hidx; simp at hidx
  | some idx =>
    rw [h] at hok
    dsimp only [] at hok ⊢
    cases ha : Idx.update gauss idx c.id c.embedding with
    | error e => rw [ha] at hok; simp [exceptOk] at hok
    | ok idx' =>
      dsimp only []
      rw [viewVersion_set_index_version, if_pos rfl, viewVersion_get_snd,
        VersionManager.get_fst]

/-- Version effect of a point update, any library, any outcome: either the
entry is untouched or the sync `index_version := data_version` fired. -/
theorem add_chunk_versions (gauss : ℕ → ℕ → ℕ → ℚ) (s : AppState) (L : String)
    (c : Chunk) (L' : String) :
    viewVersion (IndexService.add_chunk gauss s L c).2.versions L'
        = viewVersion s.versions L' ∨
    (L' = L ∧
      viewVersion (IndexService.add_chunk gauss s L c).2.versions L'
        = { data_version := (viewVersion s.versions L').data_version,
             index_version := (viewVersion s.versions L').data_version }) := by
  unfold IndexService.add_chunk
  cases h : dictGet s.indexes L with
  | none => exact .inl rfl
  | some idx =>
    dsimp only []
    cases ha : Idx.add gauss idx c.embedding c.id with
    | error e => exact .inl rfl
    | ok idx' =>
      dsimp only []
      rw [viewVersion_set_index_version]
      by_cases hL : L' = L
      · subst hL
        rw [if_pos rfl, viewVersion_get_snd, VersionManager.get_fst]
        exact .inr ⟨rfl, rfl⟩
      · rw [if_neg hL, viewVersion_get_snd]
        exact .inl rfl

theorem remove_chunk_versions (s : AppState) (L : String) (cid : String)
    (L' : String) :
    viewVersion (IndexService.remove_chunk s L cid).2.versions L'
        = viewVersion s.versions L' ∨
    (L' = L ∧
      viewVersion (IndexService.remove_chunk s L cid).2.versions L'
        = { data_version := (viewVersion s.versions L').data_version,
             index_version := (viewVersion s.versions L').data_version }) := by
  unfold IndexService.remove_chunk
  cases h : dictGet s.indexes L with
  | none => exact .inl rfl
  | some idx =>
    dsimp only []
    cases ha : Idx.remove idx cid with
    | error e => exact .inl rfl
    | ok idx' =>
      dsimp only []
      rw [viewVersion_set_index_version]
      by_cases hL : L' = L
      · subst hL
        rw [if_pos rfl, viewVersion_get_snd, VersionManager.get_fst]
        exact .inr ⟨rfl, rfl⟩
      · rw [if_neg hL, viewVersion_get_snd]
        exact .inl rfl

theorem update_chunk_versions (gauss : ℕ → ℕ → ℕ → ℚ) (s : AppState)
    (L : String) (c : Chunk) (L' : String) :
    viewVersion (IndexService.update_chunk gauss s L c).2.versions L'
        = viewVersion s.versions L' ∨
    (L' = L ∧
      viewVersion (IndexService.update_chunk gauss s L c).2.versions L'
        = { data_version := (viewVersion s.versions L').data_version,
             index_version := (viewVersion s.versions L').data_version }) := by
  unfold IndexService.update_chunk
  cases h : dictGet s.indexes L with
  | none => exact .inl rfl
  | some idx =>
    dsimp only []
    cases ha : Idx.update gauss idx c.id c.embedding with
    | error e => exact .inl rfl
    | ok idx' =>
      dsimp only []
      rw [viewVersion_set_index_version]
      by_cases hL : L' = L
      · subst hL
        rw [if_pos rfl, viewVersion_get_snd, VersionManager.get_fst]
        exact .inr ⟨rfl, rfl⟩
      · rw [if_neg hL, viewVersion_get_snd]
        exact .inl rfl

theorem exceptOk_map {α β : Type} (f : α → β) (x : Except Err α) :
    exceptOk (x.map f) = exceptOk x := by
  cases x <;> rfl

theorem bump_then_add (gauss : ℕ → ℕ → ℕ → ℚ) (s2 : AppState) (m : VersionMap)
    (L : String) (c : Chunk) (L' : String)
    (hv : s2.versions = (VersionManager.bump_data m L).2) :
    viewVersion (IndexService.add_chunk gauss s2 L c).2.versions L'
        = viewVersion m L' ∨
    (L' = L ∧
      (viewVersion (IndexService.add_chunk gauss s2 L c).2.versions L'
          = { data_version := (viewVersion m L').data_version + 1,
              index_version := (viewVersion m L').index_version } ∨
       viewVersion (IndexService.add_chunk gauss s2 L c).2.versions L'
          = { data_version := (viewVersion m L').data_version + 1,
              index_version := (viewVersion m L').data_version + 1 })) := by
  rcases add_chunk_versions gauss s2 L c L' with h | ⟨hL, h⟩
  · rw [h, hv, viewVersion_bump]
    by_cases hL : L' = L
    · subst hL
      rw [if_pos rfl]
      exact .inr ⟨rfl, .inl rfl⟩
    · rw [if_neg hL]
      exact .inl rfl
  · subst hL
    rw [h, hv, viewVersion_bump, if_pos rfl]
    exact .inr ⟨rfl, .inr rfl⟩

theorem bump_then_remove (s2 : AppState) (m : VersionMap)
    (L : String) (cid : String) (L' : String)
    (hv : s2.versions = (VersionManager.bump_data m L).2) :
    viewVersion (IndexService.remove_chunk s2 L cid).2.versions L'
        = viewVersion m L' ∨
    (L' = L ∧
      (viewVersion (IndexService.remove_chunk s2 L cid).2.versions L'
          = { data_version := (viewVersion m L').data_version + 1,
              index_version := (viewVersion m L').index_version } ∨
       viewVersion (IndexService.remove_chunk s2 L cid).2.versions L'
          = { data_version := (viewVersion m L').data_version + 1,
              index_version := (viewVersion m L').data_version + 1 })) := by
  rcases remove_chunk_versions s2 L cid L' with h | ⟨hL, h⟩
  · rw [h, hv, viewVersion_bump]
    by_cases hL : L' = L
    · subst hL
      rw [if_pos rfl]
      exact .inr ⟨rfl, .inl rfl⟩
    · rw [if_neg hL]
      exact .inl rfl
  · subst hL
    rw [h, hv, viewVersion_bump, if_pos rfl]
    exact .inr ⟨rfl, .inr rfl⟩

theorem bump_then_update (gauss : ℕ → ℕ → ℕ → ℚ) (s2 : AppState)
    (m : VersionMap) (L : String) (c : Chunk) (L' : String)
    (hv : s2.versions = (VersionManager.bump_data m L).2) :
    viewVersion (IndexService.update_chunk gauss s2 L c).2.versions L'
        = viewVersion m L' ∨
    (L' = L ∧
      (viewVersion (IndexService.update_chunk gauss s2 L c).2.versions L'
          = { data_version := (viewVersion m L').data_version + 1,
              index_version := (viewVersion m L').index_version } ∨
       viewVersion (IndexService.update_chunk gauss s2 L c).2.versions L'
          = { data_version := (viewVersion m L').data_version + 1,
              index_version := (viewVersion m L').data_version + 1 })) := by
  rcases update_chunk_versions gauss s2 L c L' with h | ⟨hL, h⟩
  · rw [h, hv, viewVersion_bump]
    by_cases hL : L' = L
    · subst hL
      rw [if_pos rfl]
      exact .inr ⟨rfl, .inl rfl⟩
    · rw [if_neg hL]
      exact .inl rfl
  · subst hL
    rw [h, hv, viewVersion_bump, if_pos rfl]
    exact .inr ⟨rfl, .inr rfl⟩

theorem bump_then_update_flat (gauss : ℕ → ℕ → ℕ → ℚ) (s2 : AppState)
    (m : VersionMap) (L : String) (c : Chunk) (L' : String)
    (hv : s2.versions = (VersionManager.bump_data m L).2) :
    viewVersion (IndexService.update_chunk gauss s2 L c).2.versions L'
        = viewVersion m L' ∨
    viewVersion (IndexService.update_chunk gauss s2 L c).2.versions L'
        = { data_version := (viewVersion m L').data_version + 1,
            index_version := (viewVersion m L').index_version } ∨
    viewVersion (IndexService.update_chunk gauss s2 L c).2.versions L'
        = { data_version := (viewVersion m L').data_version + 1,
            index_version := (viewVersion m L').data_version + 1 } := by
  rcases bump_then_update gauss s2 m L c L' hv with h | ⟨hL, h | h⟩
  · exact .inl h
  · exact .inr (.inl h)
  · exact .inr (.inr h)

theorem bump_then_remove_flat (s2 : AppState)
    (m : VersionMap) (L : String) (cid : String) (L' : String)
    (hv : s2.versions = (VersionManager.bump_data m L).2) :
    viewVersion (IndexService.remove_chunk s2 L cid).2.versions L'
        = viewVersion m L' ∨
    viewVersion (IndexService.remove_chunk s2 L cid).2.versions L'
        = { data_version := (viewVersion m L').data_version + 1,
            index_version := (viewVersion m L').index_version } ∨
    viewVersion (IndexService.remove_chunk s2 L cid).2.versions L'
        = { data_version := (viewVersion m L').data_version + 1,
            index_version := (viewVersion m L').data_version + 1 } := by
  rcases bump_then_remove s2 m L cid L' hv with h | ⟨hL, h | h⟩
  · exact .inl h
  · exact .inr (.inl h)
  · exact .inr (.inr h)

theorem bump_then_add_sync (gauss : ℕ → ℕ → ℕ → ℚ) (s2 : AppState)
    (m : VersionMap) (L : String) (c : Chunk)
    (hv : s2.versions = (VersionManager.bump_data m L).2)
    (hidx : (dictGet s2.indexes L).isSome = true)
    (hok : exceptOk (IndexService.add_chunk gauss s2 L c).1 = true) :
    viewVersion (IndexService.add_chunk gauss s2 L c).2.versions L
      = { data_version := (viewVersion m L).data_version + 1,
          index_version := (viewVersion m L).data_version + 1 } := by
  rw [add_chunk_sync gauss s2 L c hidx hok, hv, viewVersion_bump, if_pos rfl]

theorem bump_then_remove_sync (s2 : AppState)
    (m : VersionMap) (L : String) (cid : String)
    (hv : s2.versions = (VersionManager.bump_data m L).2)
    (hidx : (dictGet s2.indexes L).isSome = true)
    (hok : exceptOk (IndexService.remove_chunk s2 L cid).1 = true) :
    viewVersion (IndexService.remove_chunk s2 L cid).2.versions L
      = { data_version := (viewVersion m L).data_version + 1,
          index_version := (viewVersion m L).data_version + 1 } := by
  rw [remove_chunk_sync s2 L cid hidx hok, hv, viewVersion_bump, if_pos rfl]

theorem bump_then_update_sync (gauss : ℕ → ℕ → ℕ → ℚ) (s2 : AppState)
    (m : VersionMap) (L : String) (c : Chunk)
    (hv : s2.versions = (VersionManager.bump_data m L).2)
    (hidx : (dictGet s2.indexes L).isSome = true)
    (hok : exceptOk (IndexService.update_chunk gauss s2 L c).1 = true) :
    viewVersion (IndexService.update_chunk gauss s2 L c).2.versions L
      = { data_version := (viewVersion m L).data_version + 1,
          index_version := (viewVersion m L).data_version + 1 } := by
  rw [update_chunk_sync gauss s2 L c hidx hok, hv, viewVersion_bump, if_pos rfl]

theorem create_versions (gauss : ℕ → ℕ → ℕ → ℚ) (s : AppState)
    (lid did : String) (text : List Char) (emb : List ℚ) (cid : String)
    (at_ : ℤ) (L' : String) :
    viewVersion (ChunkService.create gauss s lid did text emb cid at_).2.versions L'
        = viewVersion s.versions L' ∨
    (L' = lid ∧
      (viewVersion (ChunkService.create gauss s lid did text emb cid at_).2.versions L'
          = { data_version := (viewVersion s.versions L').data_version + 1,
              index_version := (viewVersion s.versions L').index_version } ∨
       viewVersion (ChunkService.create gauss s lid did text emb cid at_).2.versions L'
          = { data_version := (viewVersion s.versions L').data_version + 1,
              index_version := (viewVersion s.versions L').data_version + 1 })) := by
  unfold ChunkService.create
  cases hlib : LibraryRepository.get s.libs lid with
  | error e => exact .inl rfl
  | ok lib =>
    dsimp only []
    cases hdoc : DocumentRepository.get s.docs did with
    | error e => exact .inl rfl
    | ok d =>
      dsimp only []
      by_cases hdim : emb.length = lib.embedding_dimension
      · rw [if_neg (not_not_intro hdim)]
        cases hmk : Chunk.make cid lid did text emb at_ with
        | error e => exact .inl rfl
        | ok chunk =>
          dsimp only []
          cases hcr : ChunkRepository.create s.chunks chunk with
          | error e => exact .inl rfl
          | ok chunks' =>
            dsimp only []
            exact bump_then_add gauss _ s.versions lid chunk L' rfl
      · rw [if_pos hdim]
        exact .inl rfl

theorem update_versions_op (gauss : ℕ → ℕ → ℕ → ℚ) (s : AppState)
    (cid : String) (text : Option (List Char)) (emb : Option (List ℚ))
    (L' : String) :
    viewVersion (ChunkService.update gauss s cid text emb).2.versions L'
        = viewVersion s.versions L' ∨
    viewVersion (ChunkService.update gauss s cid text emb).2.versions L'
        = { data_version := (viewVersion s.versions L').data_version + 1,
            index_version := (viewVersion s.versions L').index_version } ∨
    viewVersion (ChunkService.update gauss s cid text emb).2.versions L'
        = { data_version := (viewVersion s.versions L').data_version + 1,
            index_version := (viewVersion s.versions L').data_version + 1 } := by
  unfold ChunkService.update
  cases hch : ChunkRepository.get s.chunks cid with
  | error e => exact .inl rfl
  | ok ch =>
    dsimp only []
    cases emb with
    | none =>
      dsimp only []
      cases hup : ChunkRepository.update s.chunks cid text none with
      | error e => exact .inl rfl
      | ok rc =>
        dsimp only []
        by_cases hL : L' = ch.library_id
        · subst hL
          rw [viewVersion_bump, if_pos rfl]
          exact .inr (.inl rfl)
        · rw [viewVersion_bump, if_neg hL]
          exact .inl rfl
    | some e0 =>
      dsimp only []
      cases hlib : LibraryRepository.get s.libs ch.library_id with
      | error err => exact .inl rfl
      | ok lib =>
        dsimp only []
        by_cases hdim : e0.length = lib.embedding_dimension
        · rw [if_neg (not_not_intro hdim)]
          dsimp only []
          cases hup : ChunkRepository.update s.chunks cid text (some e0) with
          | error e => exact .inl rfl
          | ok rc =>
            dsimp only []
            exact bump_then_update_flat gauss _ s.versions ch.library_id rc.1 L' rfl
        · rw [if_pos hdim]
          exact .inl rfl

theorem delete_versions_op (s : AppState) (cid : String) (L' : String) :
    viewVersion (ChunkService.delete s cid).2.versions L'
        = viewVersion s.versions L' ∨
    viewVersion (ChunkService.delete s cid).2.versions L'
        = { data_version := (viewVersion s.versions L').data_version + 1,
            index_version := (viewVersion s.versions L').index_version } ∨
    viewVersion (ChunkService.delete s cid).2.versions L'
        = { data_version := (viewVersion s.versions L').data_version + 1,
            index_version := (viewVersion s.versions L').data_version + 1 } := by
  unfold ChunkService.delete
  cases hch : ChunkRepository.get s.chunks cid with
  | error e => exact .inl rfl
  | ok ch =>
    dsimp only []
    cases hdel : ChunkRepository.delete s.chunks cid with
    | error e => exact .inl rfl
    | ok chunks' =>
      dsimp only []
      exact bump_then_remove_flat _ s.versions ch.library_id cid L' rfl

theorem create_sync (gauss : ℕ → ℕ → ℕ → ℚ) (s : AppState)
    (lid did : String) (text : List Char) (emb : List ℚ) (cid : String)
    (at_ : ℤ) (hidx : (dictGet s.indexes lid).isSome = true)
    (hok : exceptOk (ChunkService.create gauss s lid did text emb cid at_).1 = true) :
    viewVersion (ChunkService.create gauss s lid did text emb cid at_).2.versions lid
      = { data_version := (viewVersion s.versions lid).data_version + 1,
          index_version := (viewVersion s.versions lid).data_version + 1 } := by
  unfold ChunkService.create at hok ⊢
  cases hlib : LibraryRepository.get s.libs lid with
  | error e => rw [hlib] at hok; simp [exceptOk] at hok
  | ok lib =>
    rw [hlib] at hok
    dsimp only [] at hok ⊢
    cases hdoc : DocumentRepository.get s.docs did with
    | error e => rw [hdoc] at hok; simp [exceptOk] at hok
    | ok d =>
      rw [hdoc] at hok
      dsimp only [] at hok ⊢
      by_cases hdim : emb.length = lib.embedding_dimension
      · rw [if_neg (not_not_intro hdim)] at hok ⊢
        cases hmk : Chunk.make cid lid did text emb at_ with
        | error e => rw [hmk] at hok; simp [exceptOk] at hok
        | ok chunk =>
          rw [hmk] at hok
          dsimp only [] at hok ⊢
          cases hcr : ChunkRepository.create s.chunks chunk with
          | error e => rw [hcr] at hok; simp [exceptOk] at hok
          | ok chunks' =>
            rw [hcr] at hok
            dsimp only [] at hok ⊢
            rw [exceptOk_map] at hok
            exact bump_then_add_sync gauss _ s.versions lid chunk rfl hidx hok
      · rw [if_pos hdim] at hok
        simp [exceptOk] at hok

theorem update_sync (gauss : ℕ → ℕ → ℕ → ℚ) (s : AppState) (cid : String)
    (text : Option (List Char)) (e0 : List ℚ) (ch : Chunk)
    (hch : dictGet s.chunks.items cid = some ch)
    (hidx : (dictGet s.indexes ch.library_id).isSome = true)
    (hok : exceptOk (ChunkService.update gauss s cid text (some e0)).1 = true) :
    viewVersion (ChunkService.update gauss s cid text (some e0)).2.versions ch.library_id
      = { data_version := (viewVersion s.versions ch.library_id).data_version + 1,
          index_version := (viewVersion s.versions ch.library_id).data_version + 1 } := by
  unfold ChunkService.update ChunkRepository.get at hok ⊢
  rw [hch] at hok ⊢
  dsimp only [] at hok ⊢
  cases hlib : LibraryRepository.get s.libs ch.library_id with
  | error err => rw [hlib] at hok; simp [exceptOk] at hok
  | ok lib =>
    rw [hlib] at hok
    dsimp only [] at hok ⊢
    by_cases hdim : e0.length = lib.embedding_dimension
    · rw [if_neg (not_not_intro hdim)] at hok ⊢
      dsimp only [] at hok ⊢
      cases hup : ChunkRepository.update s.chunks cid text (some e0) with
      | error e => rw [hup] at hok; simp [exceptOk] at hok
      | ok rc =>
        rw [hup] at hok
        dsimp only [] at hok ⊢
        rw [exceptOk_map] at hok
        exact bump_then_update_sync gauss _ s.versions ch.library_id rc.1 rfl hidx hok
    · rw [if_pos hdim] at hok
      simp [exceptOk] at hok

theorem delete_sync (s : AppState) (cid : String) (ch : Chunk)
    (hch : dictGet s.chunks.items cid = some ch)
    (hidx : (dictGet s.indexes ch.library_id).isSome = true)
    (hok : exceptOk (ChunkService.delete s cid).1 = true) :
    viewVersion (ChunkService.delete s cid).2.versions ch.library_id
      = { data_version := (viewVersion s.versions ch.library_id).data_version + 1,
          index_version := (viewVersion s.versions ch.library_id).data_version + 1 } := by
  unfold ChunkService.delete ChunkRepository.get at hok ⊢
  rw [hch] at hok ⊢
  dsimp only [] at hok ⊢
  cases hdel : ChunkRepository.delete s.chunks cid with
  | error e => rw [hdel] at hok; simp [exceptOk] at hok
  | ok chunks' =>
    rw [hdel] at hok
    dsimp only [] at hok ⊢
    exact bump_then_remove_sync _ s.versions ch.library_id cid rfl hidx hok

theorem applyChunkOp_versions (gauss : ℕ → ℕ → ℕ → ℚ) (s : AppState)
    (op : ChunkOp) (L' : String) :
    viewVersion (applyChunkOp gauss s op).2.versions L'
        = viewVersion s.versions L' ∨
    viewVersion (applyChunkOp gauss s op).2.versions L'
        = { data_version := (viewVersion s.versions L').data_version + 1,
            index_version := (viewVersion s.versions L').index_version } ∨
    viewVersion (applyChunkOp gauss s op).2.versions L'
        = { data_version := (viewVersion s.versions L').data_version + 1,
            index_version := (viewVersion s.versions L').data_version + 1 } := by
  cases op with
  | createOp lid did text emb cid at_ =>
    rcases create_versions gauss s lid did text emb cid at_ L' with h | ⟨hL, h | h⟩
    · exact .inl h
    · exact .inr (.inl h)
    · exact .inr (.inr h)
  | updateOp cid text emb => exact update_versions_op gauss s cid text emb L'
  | deleteOp cid => exact delete_versions_op s cid L'

theorem applyChunkOp_sync (gauss : ℕ → ℕ → ℕ → ℚ) (s : AppState)
    (op : ChunkOp) (L : String) (hm : op.maintains s L)
    (hok : exceptOk (applyChunkOp gauss s op).1 = true) :
    viewVersion (applyChunkOp gauss s op).2.versions L
      = { data_version := (viewVersion s.versions L).data_version + 1,
          index_version := (viewVersion s.versions L).data_version + 1 } := by
  cases op with
  | createOp lid did text emb cid at_ =>
    obtain ⟨hLib, hidx, -⟩ := hm
    have hL : lid = L := by simpa [ChunkOp.library] using hLib
    subst hL
    have hok' : exceptOk (ChunkService.create gauss s lid did text emb cid at_).1 = true := by
      simpa [applyChunkOp, exceptOk_map] using hok
    exact create_sync gauss s lid did text emb cid at_ hidx hok'
  | updateOp cid text emb =>
    obtain ⟨hLib, hidx, hemb⟩ := hm
    cases emb with
    | none => simp at hemb
    | some e0 =>
      cases hch : dictGet s.chunks.items cid with
      | none => rw [ChunkOp.library, hch] at hLib; simp at hLib
      | some ch =>
        rw [ChunkOp.library, hch] at hLib
        simp at hLib
        subst hLib
        have hok' : exceptOk (ChunkService.update gauss s cid text (some e0)).1 = true := by
          simpa [applyChunkOp, exceptOk_map] using hok
        exact update_sync gauss s cid text e0 ch hch hidx hok'
  | deleteOp cid =>
    obtain ⟨hLib, hidx, -⟩ := hm
    cases hch : dictGet s.chunks.items cid with
    | none => rw [ChunkOp.library, hch] at hLib; simp at hLib
    | some ch =>
      rw [ChunkOp.library, hch] at hLib
      simp at hLib
      subst hLib
      exact delete_sync s cid ch hch hidx hok

theorem applyChunkOp_mono (gauss : ℕ → ℕ → ℕ → ℚ) (s : AppState)
    (op : ChunkOp) (L : String)
    (h : (viewVersion s.versions L).index_version
        ≤ (viewVersion s.versions L).data_version) :
    (viewVersion s.versions L).index_version
        ≤ (viewVersion (applyChunkOp gauss s op).2.versions L).index_version ∧
    (viewVersion (applyChunkOp gauss s op).2.versions L).index_version
        ≤ (viewVersion (applyChunkOp gauss s op).2.versions L).data_version := by
  rcases applyChunkOp_versions gauss s op L with h1 | h1 | h1 <;> rw [h1] <;>
    refine ⟨?_, ?_⟩ <;> (try dsimp only []) <;> omega

theorem applyChunkOps_mono (gauss : ℕ → ℕ → ℕ → ℚ) (ops : List ChunkOp) :
    ∀ (s : AppState) (L : String),
      (viewVersion s.versions L).index_version
          ≤ (viewVersion s.versions L).data_version →
      (viewVersion s.versions L).index_version
          ≤ (viewVersion (applyChunkOps gauss s ops).versions L).index_version ∧
      (viewVersion (applyChunkOps gauss s ops).versions L).index_version
          ≤ (viewVersion (applyChunkOps gauss s ops).versions L).data_version := by
  induction ops with
  | nil => exact fun s L h => ⟨le_refl _, h⟩
  | cons op rest ih =>
    intro s L h
    obtain ⟨m1, m2⟩ := applyChunkOp_mono gauss s op L h
    obtain ⟨m3, m4⟩ := ih (applyChunkOp gauss s op).2 L m2
    exact ⟨le_trans m1 m3, m4⟩

/-- Claim C2: for any chunk create/update/delete on a library with a live
index, immediately after the operation's incremental maintenance call the
library's `index_version` equals its `data_version` and `is_stale` is
false; and for any single operation or sequence of operations, starting
from any state with `index_version ≤ data_version`, the `index_version`
never decreases (and the bound is preserved). -/
theorem C2_incremental_version_sync (gauss : ℕ → ℕ → ℕ → ℚ) :
    (∀ (s : AppState) (op : ChunkOp) (L : String),
      op.maintains s L → exceptOk (applyChunkOp gauss s op).1 = true →
        (viewVersion (applyChunkOp gauss s op).2.versions L).index_version
          = (viewVersion (applyChunkOp gauss s op).2.versions L).data_version ∧
        (VersionManager.is_index_stale (applyChunkOp gauss s op).2.versions L).1
          = false) ∧
    (∀ (s : AppState) (op : ChunkOp) (L : String),
      (viewVersion s.versions L).index_version
          ≤ (viewVersion s.versions L).data_version →
        (viewVersion s.versions L).index_version
            ≤ (viewVersion (applyChunkOp gauss s op).2.versions L).index_version ∧
        (viewVersion (applyChunkOp gauss s op).2.versions L).index_version
            ≤ (viewVersion (applyChunkOp gauss s op).2.versions L).data_version) ∧
    (∀ (s : AppState) (ops : List ChunkOp) (L : String),
      (viewVersion s.versions L).index_version
          ≤ (viewVersion s.versions L).data_version →
        (viewVersion s.versions L).index_version
            ≤ (viewVersion (applyChunkOps gauss s ops).versions L).index_version ∧
        (viewVersion (applyChunkOps gauss s ops).versions L).index_version
            ≤ (viewVersion (applyChunkOps gauss s ops).versions L).data_version) := by
  refine ⟨?_, fun s op L h => applyChunkOp_mono gauss s op L h,
    fun s ops L h => applyChunkOps_mono gauss ops s L h⟩
  intro s op L hm hok
  have h := applyChunkOp_sync gauss s op L hm hok
  constructor
  · rw [h]
  · rw [is_stale_fst, h]
    simp

theorem C2_witness :
    (viewVersion (applyChunkOp (fun _ _ _ => 0)
        (AppState.mk
          (LibraryRepository.mk [("L", Library.mk "L" ['l'] 1 IndexType.brute_force)])
          (DocumentRepository.mk [("D", Document.mk "D" "L" ['t'])] [("L", ["D"])])
          (ChunkRepository.mk [] [] [])
          [("L", VersionInfo.mk 0 0)]
          [("L", Idx.bf (BruteForceIndex.mk [] [] [] true))] [] [])
        (ChunkOp.createOp "L" "D" ['x'] [1] "c1" 0)).2.versions "L").index_version
      = (viewVersion (applyChunkOp (fun _ _ _ => 0)
        (AppState.mk
          (LibraryRepository.mk [("L", Library.mk "L" ['l'] 1 IndexType.brute_force)])
          (DocumentRepository.mk [("D", Document.mk "D" "L" ['t'])] [("L", ["D"])])
          (ChunkRepository.mk [] [] [])
          [("L", VersionInfo.mk 0 0)]
          [("L", Idx.bf (BruteForceIndex.mk [] [] [] true))] [] [])
        (ChunkOp.createOp "L" "D" ['x'] [1] "c1" 0)).2.versions "L").data_version ∧
    (VersionManager.is_index_stale (applyChunkOp (fun _ _ _ => 0)
        (AppState.mk
          (LibraryRepository.mk [("L", Library.mk "L" ['l'] 1 IndexType.brute_force)])
          (DocumentRepository.mk [("D", Document.mk "D" "L" ['t'])] [("L", ["D"])])
          (ChunkRepository.mk [] [] [])
          [("L", VersionInfo.mk 0 0)]
          [("L", Idx.bf (BruteForceIndex.mk [] [] [] true))] [] [])
        (ChunkOp.createOp "L" "D" ['x'] [1] "c1" 0)).2.versions "L").1 = false :=
  (C2_incremental_version_sync (fun _ _ _ => 0)).1 _ _ "L"
    ⟨rfl, rfl, trivial⟩ (by rfl)

/-! ## Claim C6 -/

theorem pyIn_iff (needle : List Char) (hay : List Char) :
    pyIn needle hay = true ↔ ∃ l1 l2, hay = l1 ++ needle ++ l2 := by
  induction hay with
  | nil =>
    unfold pyIn
    rw [List.isEmpty_iff]
    constructor
    · intro h
      exact ⟨[], [], by rw [h]; rfl⟩
    · rintro ⟨l1, l2, h⟩
      rcases List.append_eq_nil.mp h.symm with ⟨h1, h2⟩
      exact (List.append_eq_nil.mp h1).2
  | cons c t ih =>
    unfold pyIn
    rw [Bool.or_eq_true, List.isPrefixOf_iff_prefix, ih]
    constructor
    · rintro (⟨r, hr⟩ | ⟨l1, l2, h⟩)
      · exact ⟨[], r, by rw [← hr]; rfl⟩
      · exact ⟨c :: l1, l2, by rw [h]; rfl⟩
    · rintro ⟨l1, l2, h⟩
      cases l1 with
      | nil =>
        exact Or.inl ⟨l2, by rw [h]; rfl⟩
      | cons a l1t =>
        injection h with h1 h2
        exact Or.inr ⟨l1t, l2, h2⟩

theorem clause_text (c : Chunk) (tco : Option (List Char)) :
    (¬ (¬ pyLower (pyStrip (tco.getD [])) = [] ∧
        pyIn (pyLower (pyStrip (tco.getD []))) (pyLower c.text) = false)) ↔
    (match tco with
     | some tc => pyStrip tc = [] ∨
         ∃ l1 l2, pyLower c.text = l1 ++ pyLower (pyStrip tc) ++ l2
     | none => True) := by
  cases tco with
  | none => simp [pyStrip, pyLower, pyIn]
  | some tc =>
    rw [not_and]
    constructor
    · intro h
      by_cases he : pyLower (pyStrip tc) = []
      · exact Or.inl ((List.map_eq_nil_iff).mp he)
      · have h2 := h (by exact he)
        rw [Bool.not_eq_false] at h2
        exact Or.inr ((pyIn_iff _ _).mp h2)
    · intro h hne
      rw [Bool.not_eq_false]
      rcases h with h | h
      · exact absurd (by rw [h]; rfl : pyLower (pyStrip tc) = []) hne
      · exact (pyIn_iff _ _).mpr h

theorem clause_from (c : Chunk) (b : Option TSBound) :
    (¬ (match b with
        | some (.valid t) => decide (c.created_at < t)
        | _ => false) = true) ↔
    (match b with
     | some (.valid t) => t ≤ c.created_at
     | _ => True) := by
  cases b with
  | none => simp
  | some v =>
    cases v with
    | malformed => simp
    | valid t => simp [not_lt]

theorem clause_to (c : Chunk) (b : Option TSBound) :
    (¬ (match b with
        | some (.valid t) => decide (t < c.created_at)
        | _ => false) = true) ↔
    (match b with
     | some (.valid t) => c.created_at ≤ t
     | _ => True) := by
  cases b with
  | none => simp
  | some v =>
    cases v with
    | malformed => simp
    | valid t => simp [not_lt]

theorem clause_any (tags : List String) (lo : Option (List String)) :
    (¬ (¬ lo.getD [] = [] ∧
        ¬ (lo.getD []).any (fun t => t ∈ tags) = true)) ↔
    (match lo with
     | some l => l = [] ∨ ∃ t ∈ l, t ∈ tags
     | none => True) := by
  cases lo with
  | none => simp
  | some l => simp [List.any_eq_true, or_iff_not_imp_left]

theorem clause_all (tags : List String) (lo : Option (List String)) :
    (¬ (¬ lo.getD [] = [] ∧
        ¬ (lo.getD []).all (fun t => t ∈ tags) = true)) ↔
    (match lo with
     | some l => ∀ t ∈ l, t ∈ tags
     | none => True) := by
  cases lo with
  | none => simp
  | some l =>
    simp only [Option.getD_some, not_and, not_not, List.all_eq_true,
      decide_eq_true_iff]
    constructor
    · intro h
      by_cases he : l = []
      · subst he
        intro t ht
        exact absurd ht (List.not_mem_nil t)
      · exact h he
    · intro h _
      exact h

theorem clause_author (author : Option String) (lo : Option (List String)) :
    (¬ (¬ lo.getD [] = [] ∧
        ¬ ((match author with
            | some a => decide (a ∈ lo.getD [])
            | none => false) = true))) ↔
    (match lo with
     | some l => l = [] ∨ ∃ a, author = some a ∧ a ∈ l
     | none => True) := by
  cases lo with
  | none => simp
  | some l =>
    rw [not_and, not_not]
    cases author with
    | none =>
      simp only [Option.getD_some]
      constructor
      · intro h
        by_cases he : l = []
        · exact Or.inl he
        · exact absurd (h he) (by simp)
      · intro h hne
        rcases h with h | ⟨a, ha, -⟩
        · exact absurd h hne
        · exact Option.noConfusion ha
    | some a =>
      simp only [Option.getD_some, decide_eq_true_iff]
      constructor
      · intro h
        by_cases he : l = []
        · exact Or.inl he
        · exact Or.inr ⟨a, rfl, h he⟩
      · intro h hne
        rcases h with h | ⟨a2, ha2, hm⟩
        · exact absurd h hne
        · injection ha2 with ha2
          rw [ha2]
          exact hm

theorem matches_filter_eq (c : Chunk) (f : ChunkFilterDict) :
    matches_filter c f =
    (if ¬ pyLower (pyStrip ((f.text_contains).getD [])) = [] ∧
        pyIn (pyLower (pyStrip ((f.text_contains).getD []))) (pyLower c.text) = false
     then false
     else if (match f.created_at_from with
              | some (.valid t) => decide (c.created_at < t)
              | _ => false) then false
     else if (match f.created_at_to with
              | some (.valid t) => decide (t < c.created_at)
              | _ => false) then false
     else if ¬ (f.tags_any).getD [] = [] ∧
             ¬ ((f.tags_any).getD []).any (fun t => t ∈ c.metadata.tags) then false
     else if ¬ (f.tags_all).getD [] = [] ∧
             ¬ ((f.tags_all).getD []).all (fun t => t ∈ c.metadata.tags) then false
     else if ¬ (f.author_in).getD [] = [] ∧
             ¬ ((match c.metadata.author with
                 | some a => decide (a ∈ (f.author_in).getD [])
                 | none => false) = true) then false
     else true) := rfl

theorem matches_filter_iff (c : Chunk) (f : ChunkFilterDict) :
    matches_filter c f = true ↔ matchesSpec c f := by
  rw [matches_filter_eq]
  unfold matchesSpec
  by_cases h1 : ¬ pyLower (pyStrip ((f.text_contains).getD [])) = [] ∧
      pyIn (pyLower (pyStrip ((f.text_contains).getD []))) (pyLower c.text) = false
  · rw [if_pos h1]
    simp only [Bool.false_eq_true, false_iff]
    intro hs
    exact (clause_text c f.text_contains).mpr hs.1 h1
  · rw [if_neg h1]
    by_cases h2 : (match f.created_at_from with
        | some (.valid t) => decide (c.created_at < t)
        | _ => false) = true
    · rw [if_pos h2]
      simp only [Bool.false_eq_true, false_iff]
      intro hs
      exact (clause_from c f.created_at_from).mpr hs.2.1 h2
    · rw [if_neg h2]
      by_cases h3 : (match f.created_at_to with
          | some (.valid t) => decide (t < c.created_at)
          | _ => false) = true
      · rw [if_pos h3]
        simp only [Bool.false_eq_true, false_iff]
        intro hs
        exact (clause_to c f.created_at_to).mpr hs.2.2.1 h3
      · rw [if_neg h3]
        by_cases h4 : ¬ (f.tags_any).getD [] = [] ∧
            ¬ ((f.tags_any).getD []).any (fun t => t ∈ c.metadata.tags) = true
        · rw [if_pos h4]
          simp only [Bool.false_eq_true, false_iff]
          intro hs
          exact (clause_any c.metadata.tags f.tags_any).mpr hs.2.2.2.1 h4
        · rw [if_neg h4]
          by_cases h5 : ¬ (f.tags_all).getD [] = [] ∧
              ¬ ((f.tags_all).getD []).all (fun t => t ∈ c.metadata.tags) = true
          · rw [if_pos h5]
            simp only [Bool.false_eq_true, false_iff]
            intro hs
            exact (clause_all c.metadata.tags f.tags_all).mpr hs.2.2.2.2.1 h5
          · rw [if_neg h5]
            by_cases h6 : ¬ (f.author_in).getD [] = [] ∧
                ¬ ((match c.metadata.author with
                    | some a => decide (a ∈ (f.author_in).getD [])
                    | none => false) = true)
            · rw [if_pos h6]
              simp only [Bool.false_eq_true, false_iff]
              intro hs
              exact (clause_author c.metadata.author f.author_in).mpr hs.2.2.2.2.2 h6
            · rw [if_neg h6]
              simp only [true_iff]
              exact ⟨(clause_text c f.text_contains).mp h1,
                (clause_from c f.created_at_from).mp h2,
                (clause_to c f.created_at_to).mp h3,
                (clause_any c.metadata.tags f.tags_any).mp (by exact h4),
                (clause_all c.metadata.tags f.tags_all).mp (by exact h5),
                (clause_author c.metadata.author f.author_in).mp h6⟩

theorem normalize_unit (a : List ℚ) (h : l2_norm a = 1) : normalize a = a := by
  unfold normalize
  rw [h, if_neg one_ne_zero]
  simp

theorem cosine_similarity_unit (a b : List ℚ) (ha : l2_norm a = 1)
    (hb : l2_norm b = 1) : cosine_similarity a b = dot a b := by
  unfold cosine_similarity
  rw [ha, hb]
  simp

theorem ratSqrt_one : ratSqrt 1 = 1 := by
  unfold ratSqrt
  have h1 : (1 : ℚ).num.toNat = 1 := rfl
  have h2 : (1 : ℚ).den = 1 := rfl
  rw [h1, h2]
  have h3 : Nat.sqrt 1 = 1 := rfl
  rw [h3]
  norm_num

theorem l2_norm_single_one : l2_norm [1] = 1 := by
  unfold l2_norm
  have h : normSq [1] = 1 := by
    unfold normSq normSq
    norm_num
  rw [h, ratSqrt_one]

/-- Claim C6 (corrected): with a filter present, `knn` returns the top-k
pairs, by descending score, over exactly the chunks of the library matching
the code's predicate `matchesSpec`, which differs from the claim's literal
predicate in that the `text_contains` pattern is stripped of surrounding
whitespace before the substring test (an empty or all-whitespace pattern is
ignored) and empty `tags_any` / `author_in` lists are ignored; for unit-norm
embeddings and query, every returned score is the cosine similarity
`dot q v`. -/
theorem C6_filtered_knn_amended (allow : Bool) (s : AppState)
    (library_id : String) (q : List ℚ) (k : ℤ) (f : ChunkFilterDict)
    (hq : l2_norm q = 1)
    (hunit : ∀ c ∈ ChunkRepository.list_by_library s.chunks library_id,
      l2_norm c.embedding = 1) :
    (∀ c, matches_filter c f = true ↔ matchesSpec c f) ∧
    ∃ l : List (String × ℚ),
      l.Perm (((ChunkRepository.list_by_library s.chunks library_id).filter
        (fun c => matches_filter c f)).map (fun c => (c.id, dot q c.embedding))) ∧
      l.Pairwise (fun a b => b.2 ≤ a.2) ∧
      (QueryService.knn allow s library_id q k (some f)).1
        = l.take (max 0 k).toNat := by
  have hsearch : (QueryService.knn allow s library_id q k (some f)).1
      = (sortByScoreDesc ((List.zip
          (((ChunkRepository.list_by_library s.chunks library_id).filter
            (fun c => matches_filter c f)).map (fun c => c.id))
          ((((ChunkRepository.list_by_library s.chunks library_id).filter
            (fun c => matches_filter c f)).map (fun c => c.embedding)).map normalize)).map
          (fun p => (p.1, cosine_similarity (normalize q) p.2)))).take
          (max 0 k).toNat := rfl
  have hzip : List.zip
      (((ChunkRepository.list_by_library s.chunks library_id).filter
        (fun c => matches_filter c f)).map (fun c => c.id))
      ((((ChunkRepository.list_by_library s.chunks library_id).filter
        (fun c => matches_filter c f)).map (fun c => c.embedding)).map normalize)
      = ((ChunkRepository.list_by_library s.chunks library_id).filter
        (fun c => matches_filter c f)).map (fun c => (c.id, normalize c.embedding)) := by
    rw [List.map_map]
    exact List.zip_map' _ _ _
  have hpairs : (((ChunkRepository.list_by_library s.chunks library_id).filter
      (fun c => matches_filter c f)).map (fun c => (c.id, normalize c.embedding))).map
      (fun p => (p.1, cosine_similarity (normalize q) p.2))
      = ((ChunkRepository.list_by_library s.chunks library_id).filter
        (fun c => matches_filter c f)).map (fun c => (c.id, dot q c.embedding)) := by
    rw [List.map_map]
    refine List.map_congr_left (fun c hc => ?_)
    have hc1 : l2_norm c.embedding = 1 := hunit c (List.mem_filter.mp hc).1
    show (c.id, cosine_similarity (normalize q) (normalize c.embedding))
      = (c.id, dot q c.embedding)
    rw [normalize_unit q hq, normalize_unit c.embedding hc1,
      cosine_similarity_unit q c.embedding hq hc1]
  refine ⟨fun c => matches_filter_iff c f,
    ⟨sortByScoreDesc (((ChunkRepository.list_by_library s.chunks library_id).filter
      (fun c => matches_filter c f)).map (fun c => (c.id, dot q c.embedding))),
     sortByScoreDesc_perm _, sortByScoreDesc_sorted _, ?_⟩⟩
  rw [hsearch, hzip, hpairs]

/-- Concrete refutation of C6 as stated: the pattern `" A "` is not a
case-insensitive substring of the text `"xay"`, yet the code's predicate
accepts the chunk (the pattern is stripped to `"a"` first), so the filtered
search path is built over this chunk. -/
theorem C6_counterexample :
    matches_filter
      (Chunk.mk "c" "L" "D" ['x', 'a', 'y'] [1] (ChunkMetadata.mk none [] none none) 0)
      (ChunkFilterDict.mk (some [' ', 'A', ' ']) none none none none none) = true ∧
    ¬ matchesLiteral
      (Chunk.mk "c" "L" "D" ['x', 'a', 'y'] [1] (ChunkMetadata.mk none [] none none) 0)
      (ChunkFilterDict.mk (some [' ', 'A', ' ']) none none none none none) := by
  constructor
  · decide
  · intro h
    obtain ⟨⟨l1, l2, heq⟩, -⟩ := h
    have hp : pyIn (pyLower [' ', 'A', ' '])
        (pyLower ['x', 'a', 'y']) = true := (pyIn_iff _ _).mpr ⟨l1, l2, heq⟩
    exact absurd hp (by decide)

theorem C6_witness :
    (∀ c, matches_filter c (ChunkFilterDict.mk (some ['a']) none none none none none) = true ↔
      matchesSpec c (ChunkFilterDict.mk (some ['a']) none none none none none)) ∧
    ∃ l : List (String × ℚ),
      l.Perm (((ChunkRepository.list_by_library (ChunkRepository.mk [] [] []) "L").filter
        (fun c => matches_filter c
          (ChunkFilterDict.mk (some ['a']) none none none none none))).map
        (fun c => (c.id, dot [1] c.embedding))) ∧
      l.Pairwise (fun a b => b.2 ≤ a.2) ∧
      (QueryService.knn true
        (AppState.mk (LibraryRepository.mk []) (DocumentRepository.mk [] [])
          (ChunkRepository.mk [] [] []) [] [] [] [])
        "L" [1] 1
        (some (ChunkFilterDict.mk (some ['a']) none none none none none))).1
        = l.take (max 0 (1 : ℤ)).toNat :=
  C6_filtered_knn_amended true
    (AppState.mk (LibraryRepository.mk []) (DocumentRepository.mk [] [])
      (ChunkRepository.mk [] [] []) [] [] [] [])
    "L" [1] 1 (ChunkFilterDict.mk (some ['a']) none none none none none)
    l2_norm_single_one
    (by
      intro c hc
      exact absurd hc (List.not_mem_nil c))

/-! ## Claim C7 -/

/-- Claim C7: creating a chunk whose embedding length differs from the
owning library's `embedding_dimension` fails with `Validation`, and the
state — in particular the chunk repository and the library's
`data_version` — is returned unchanged. -/
theorem C7_dimension_mismatch_no_effect (gauss : ℕ → ℕ → ℕ → ℚ)
    (s : AppState) (library_id document_id : String) (text : List Char)
    (embedding : List ℚ) (chunk_id : String) (created_at : ℤ)
    (lib : Library) (d : Document)
    (hlib : LibraryRepository.get s.libs library_id = .ok lib)
    (hdoc : DocumentRepository.get s.docs document_id = .ok d)
    (hdim : ¬ embedding.length = lib.embedding_dimension) :
    ChunkService.create gauss s library_id document_id text embedding
      chunk_id created_at = (.error .Validation, s) := by
  unfold ChunkService.create
  rw [hlib, hdoc]
  simp [hdim]

theorem C7_witness :
    ChunkService.create (fun _ _ _ => 0)
      (AppState.mk
        (LibraryRepository.mk [("L", Library.mk "L" ['l'] 4 IndexType.brute_force)])
        (DocumentRepository.mk [("D", Document.mk "D" "L" ['t'])] [("L", ["D"])])
        (ChunkRepository.mk [] [] [])
        [] [] [] [])
      "L" "D" ['x'] [1, 2, 3] "c1" 0
    = (.error .Validation,
       AppState.mk
        (LibraryRepository.mk [("L", Library.mk "L" ['l'] 4 IndexType.brute_force)])
        (DocumentRepository.mk [("D", Document.mk "D" "L" ['t'])] [("L", ["D"])])
        (ChunkRepository.mk [] [] [])
        [] [] [] []) :=
  C7_dimension_mismatch_no_effect _ _ _ _ _ _ _ _
    (Library.mk "L" ['l'] 4 IndexType.brute_force)
    (Document.mk "D" "L" ['t'])
    (by rfl) (by rfl) (by decide)

/-! ## Claim C4 -/

/-- Claim C4 (actual code behaviour at the failing input): when the index
construction raises inside `build_index`, the error surfaces to the caller
and the whole service state is returned unchanged — the previously
published index is intact, but the building flag (set by
`build_index_async`) is *not* cleared, so a subsequent `build_index_async`
for that library is a no-op.  The source lacks the `try/finally` the
specification describes. -/
theorem C4_build_failure_leaves_flag_set (s : AppState) (library_id : String)
    (index_type : IndexType) (e : Err)
    (hbusy : (dictGet s.building library_id).getD false = true) :
    IndexService.build_index_with s library_id index_type (.error e)
        = (.error e, s) ∧
    IndexService.build_index_async_flag s library_id = (false, s) := by
  constructor
  · rfl
  · simp [IndexService.build_index_async_flag, hbusy]

theorem C4_witness :
    IndexService.build_index_with
      (AppState.mk (LibraryRepository.mk []) (DocumentRepository.mk [] [])
        (ChunkRepository.mk [] [] []) [] [] [] [("L", true)])
      "L" IndexType.kd_tree (.error .Validation)
      = (.error .Validation,
         AppState.mk (LibraryRepository.mk []) (DocumentRepository.mk [] [])
          (ChunkRepository.mk [] [] []) [] [] [] [("L", true)]) ∧
    IndexService.build_index_async_flag
      (AppState.mk (LibraryRepository.mk []) (DocumentRepository.mk [] [])
        (ChunkRepository.mk [] [] []) [] [] [] [("L", true)]) "L"
      = (false,
         AppState.mk (LibraryRepository.mk []) (DocumentRepository.mk [] [])
          (ChunkRepository.mk [] [] []) [] [] [] [("L", true)]) :=
  C4_build_failure_leaves_flag_set _ _ _ _ (by decide)


/-! ## Claim C1 -/

theorem distance_sq_nonneg (a b : List ℚ) : 0 ≤ distance_sq a b := by
  induction a generalizing b with
  | nil => cases b <;> simp [distance_sq]
  | cons x a ih =>
    cases b with
    | nil => simp [distance_sq]
    | cons y b =>
      unfold distance_sq
      have h1 : 0 ≤ (x - y) * (x - y) := mul_self_nonneg _
      have h2 := ih b
      linarith

theorem distance_sq_eq (a b : List ℚ) (h : a.length = b.length) :
    distance_sq a b = normSq a + normSq b - 2 * dot a b := by
  induction a generalizing b with
  | nil =>
    cases b with
    | nil => simp [distance_sq, normSq, dot]
    | cons y b => simp at h
  | cons x a ih =>
    cases b with
    | nil => simp at h
    | cons y b =>
      simp only [List.length_cons, Nat.add_right_cancel_iff] at h
      unfold distance_sq normSq dot
      rw [ih b h]
      ring

theorem axis_bound (a b : List ℚ) (ax : ℕ) (hax : ax < a.length)
    (hlen : a.length = b.length) :
    (a.getD ax 0 - b.getD ax 0) * (a.getD ax 0 - b.getD ax 0)
      ≤ distance_sq a b := by
  induction a generalizing b ax with
  | nil => simp at hax
  | cons x a ih =>
    cases b with
    | nil => simp at hlen
    | cons y b =>
      simp only [List.length_cons, Nat.add_right_cancel_iff] at hlen
      cases ax with
      | zero =>
        unfold distance_sq
        simp only [List.getD_cons_zero]
        have := distance_sq_nonneg a b
        linarith
      | succ n =>
        simp only [List.getD_cons_succ]
        unfold distance_sq
        have h1 : (x - y) * (x - y) ≥ 0 := mul_self_nonneg _
        have h2 := ih b n (by simpa using hax) hlen
        linarith

theorem KDNode.entries_wf (dim : ℕ) : ∀ t : KDNode, t.WF dim →
    ∀ e ∈ t.entries, e.1.length = dim := by
  intro t
  induction t with
  | nil =>
    intro _ e he
    exact absurd he (List.not_mem_nil e)
  | node p id ax l r ihl ihr =>
    intro hwf e he
    obtain ⟨hp, -, -, -, hl, hr⟩ := hwf
    rcases List.mem_append.mp he with he | he
    · exact ihl hl e he
    · rcases List.mem_cons.mp he with he | he
      · rw [he]
        exact hp
      · exact ihr hr e he

theorem sorted_split (l : List (List ℚ × String)) (h0 : ¬ l = []) :
    l.take (l.length / 2) ++ l.getD (l.length / 2) ([], "") :: l.drop (l.length / 2 + 1) = l := by
  have hlt : l.length / 2 < l.length := by
    have : 0 < l.length := List.length_pos.mpr h0
    omega
  rw [List.getD_eq_getElem?_getD, List.getElem?_eq_getElem hlt]
  simp only [Option.getD_some]
  conv_rhs => rw [← List.take_append_drop (l.length / 2) l]
  rw [List.drop_eq_getElem_cons hlt]

theorem buildRec_nil (depth : ℕ) : buildRec [] depth = .nil := by
  unfold buildRec
  rfl

theorem buildRec_cons (it0 : List ℚ × String) (rest : List (List ℚ × String))
    (depth : ℕ) :
    buildRec (it0 :: rest) depth =
      (let axis := depth % it0.1.length
       let sorted := kdSortByAxis axis (it0 :: rest)
       let mid := sorted.length / 2
       let pp := sorted.getD mid ([], "")
       .node pp.1 pp.2 axis (buildRec (sorted.take mid) (depth + 1))
         (buildRec (sorted.drop (mid + 1)) (depth + 1))) := by
  conv_lhs => rw [buildRec]

theorem buildRec_entries_perm : ∀ (items : List (List ℚ × String)) (depth : ℕ),
    (buildRec items depth).entries.Perm items := by
  intro items depth
  induction items, depth using buildRec.induct with
  | case1 d =>
    rw [buildRec_nil]
    exact List.Perm.refl _
  | case2 it0 rest depth axis sorted mid ih1 ih2 =>
    have hb : buildRec (it0 :: rest) depth
        = .node (sorted.getD mid ([], "")).1 (sorted.getD mid ([], "")).2 axis
          (buildRec (sorted.take mid) (depth + 1))
          (buildRec (sorted.drop (mid + 1)) (depth + 1)) := by
      conv_lhs => rw [buildRec]
    rw [hb]
    show ((buildRec (sorted.take mid) (depth + 1)).entries ++
      ((sorted.getD mid ([], "")).1, (sorted.getD mid ([], "")).2) ::
        (buildRec (sorted.drop (mid + 1)) (depth + 1)).entries).Perm (it0 :: rest)
    have hslen : sorted.length = (it0 :: rest).length :=
      (List.perm_insertionSort _ _).length_eq
    have hsne : ¬ sorted = [] := by
      intro hc
      rw [hc] at hslen
      simp at hslen
    have hperm1 : ((buildRec (sorted.take mid) (depth + 1)).entries ++
        ((sorted.getD mid ([], "")).1, (sorted.getD mid ([], "")).2) ::
          (buildRec (sorted.drop (mid + 1)) (depth + 1)).entries).Perm
        (sorted.take mid ++ sorted.getD mid ([], "") :: sorted.drop (mid + 1)) := by
      refine List.Perm.append ih1 (List.Perm.cons _ ih2)
    have hsp : sorted.take mid ++ sorted.getD mid ([], "") :: sorted.drop (mid + 1) = sorted :=
      sorted_split sorted hsne
    rw [hsp] at hperm1
    exact hperm1.trans (List.perm_insertionSort _ (it0 :: rest))

theorem buildRec_wf (dim : ℕ) (hdim : 0 < dim) :
    ∀ (items : List (List ℚ × String)) (depth : ℕ),
    (∀ e ∈ items, e.1.length = dim) → (buildRec items depth).WF dim := by
  intro items depth
  induction items, depth using buildRec.induct with
  | case1 d =>
    intro _
    rw [buildRec_nil]
    exact trivial
  | case2 it0 rest depth axis sorted mid ih1 ih2 =>
    intro hlen
    have hb : buildRec (it0 :: rest) depth
        = .node (sorted.getD mid ([], "")).1 (sorted.getD mid ([], "")).2 axis
          (buildRec (sorted.take mid) (depth + 1))
          (buildRec (sorted.drop (mid + 1)) (depth + 1)) := by
      conv_lhs => rw [buildRec]
    rw [hb]
    have hsperm : sorted.Perm (it0 :: rest) := kdSortByAxis_perm axis (it0 :: rest)
    have hslen : sorted.length = (it0 :: rest).length := hsperm.length_eq
    have hmlt : mid < sorted.length := by
      have : 0 < sorted.length := by
        rw [hslen]
        simp
      show sorted.length / 2 < sorted.length
      omega
    have hsmem : ∀ e ∈ sorted, e.1.length = dim := by
      intro e he
      exact hlen e (hsperm.mem_iff.mp he)
    have hgm : sorted.getD mid ([], "") = sorted[mid] := by
      rw [List.getD_eq_getElem?_getD, List.getElem?_eq_getElem hmlt]
      rfl
    have hmm : sorted.getD mid ([], "") ∈ sorted := by
      rw [hgm]
      exact List.getElem_mem hmlt
    have haxlt : axis < dim := by
      show depth % it0.1.length < dim
      rw [hlen it0 (List.mem_cons_self it0 rest)]
      exact Nat.mod_lt depth hdim
    have hsort := kdSortByAxis_sorted axis (it0 :: rest)
    have hpg := (List.pairwise_iff_getElem).mp hsort
    refine ⟨hsmem _ hmm, haxlt, ?_, ?_, ?_, ?_⟩
    · intro e he
      have he2 := (buildRec_entries_perm (sorted.take mid) (depth + 1)).mem_iff.mp he
      obtain ⟨i, hi, hie⟩ := List.mem_iff_getElem.mp he2
      have hilt : i < mid := by
        have h2 := hi
        rw [List.length_take] at h2
        omega
      have hilt2 : i < sorted.length := lt_trans hilt hmlt
      have hgt : (sorted.take mid)[i] = sorted[i] := List.getElem_take sorted
      rw [← hie, hgt, hgm]
      have := hpg i mid hilt2 hmlt hilt
      simpa using this
    · intro e he
      have he2 := (buildRec_entries_perm (sorted.drop (mid + 1)) (depth + 1)).mem_iff.mp he
      obtain ⟨i, hi, hie⟩ := List.mem_iff_getElem.mp he2
      have hlt2 : mid + 1 + i < sorted.length := by
        have h2 := hi
        rw [List.length_drop] at h2
        omega
      have hgt : (sorted.drop (mid + 1))[i] = sorted[mid + 1 + i] := List.getElem_drop sorted
      rw [← hie, hgt, hgm]
      have := hpg mid (mid + 1 + i) hmlt hlt2 (by omega)
      simpa using this
    · exact ih1 (fun e he => hsmem e (List.mem_of_mem_take he))
    · exact ih2 (fun e he => hsmem e (List.mem_of_mem_drop he))

theorem kd_trim (best : List (ℚ × String)) (x : ℚ × String)
    (hb : best.length ≤ 1) :
    ∃ m, (if ((kdSortBest (best ++ [x])).length : ℤ) > 1
        then (kdSortBest (best ++ [x])).dropLast
        else kdSortBest (best ++ [x])) = [m] ∧
      (m ∈ best ∨ m = x) ∧ (∀ y ∈ best, m.1 ≤ y.1) ∧ m.1 ≤ x.1 := by
  have hperm := kdSortBest_perm (best ++ [x])
  have hsorted := kdSortBest_sorted (best ++ [x])
  cases best with
  | nil =>
    have h1 : kdSortBest ([] ++ [x]) = [x] := rfl
    refine ⟨x, ?_, Or.inr rfl, ?_, le_refl _⟩
    · rw [h1]
      norm_num
    · intro y hy
      exact absurd hy (List.not_mem_nil y)
  | cons b tb =>
    have htb : tb = [] := by
      cases tb with
      | nil => rfl
      | cons c tc => simp at hb
    subst htb
    have hlen2 : (kdSortBest ([b] ++ [x])).length = 2 := by
      rw [hperm.length_eq]
      rfl
    obtain ⟨a1, a2, h12⟩ := List.length_eq_two.mp hlen2
    have hgt : ((kdSortBest ([b] ++ [x])).length : ℤ) > 1 := by
      rw [hlen2]
      norm_num
    have hdl : (kdSortBest ([b] ++ [x])).dropLast = [a1] := by
      rw [h12]
      rfl
    have hle : a1.1 ≤ a2.1 := by
      have := hsorted
      rw [h12] at this
      rcases List.pairwise_cons.mp this with ⟨h, -⟩
      exact h a2 (List.mem_cons_self a2 [])
    have hmem_iff : ∀ y, y ∈ ([b] ++ [x]) ↔ y ∈ [a1, a2] := by
      intro y
      rw [← h12]
      exact hperm.mem_iff.symm
    have hmin : ∀ y ∈ ([b] ++ [x]), a1.1 ≤ y.1 := by
      intro y hy
      rcases List.mem_cons.mp ((hmem_iff y).mp hy) with hy2 | hy2
      · rw [hy2]
      · rw [List.mem_singleton.mp hy2]
        exact hle
    have ha1mem : a1 ∈ ([b] ++ [x]) := by
      rw [hmem_iff]
      exact List.mem_cons_self a1 [a2]
    refine ⟨a1, ?_, ?_, ?_, ?_⟩
    · rw [if_pos hgt, hdl]
    · rcases List.mem_append.mp ha1mem with h | h
      · exact Or.inl h
      · exact Or.inr (List.mem_singleton.mp h)
    · intro y hy
      exact hmin y (List.mem_append.mpr (Or.inl hy))
    · exact hmin x (List.mem_append.mpr (Or.inr (List.mem_singleton.mpr rfl)))

theorem searchNode_node (p : List ℚ) (id : String) (ax : ℕ) (l r : KDNode)
    (q : List ℚ) (k : ℤ) (best : List (ℚ × String)) :
    searchNode (.node p id ax l r) q k best =
      (let dist_sq := distance_sq q p
       let best1 := kdSortBest (best ++ [(dist_sq, id)])
       let best2 := if (best1.length : ℤ) > k then best1.dropLast else best1
       let delta := q.getD ax 0 - p.getD ax 0
       let best3 := searchNode (if delta < 0 then l else r) q k best2
       if (best3.length : ℤ) < k ∨ delta * delta < (best3.getLastD (0, "")).1 then
         searchNode (if delta < 0 then r else l) q k best3
       else best3) := by
  conv_lhs => rw [searchNode]

theorem searchNode_nil (q : List ℚ) (k : ℤ) (best : List (ℚ × String)) :
    searchNode .nil q k best = best := by
  unfold searchNode
  rfl

theorem delta_sq_le (qa pa xa : ℚ)
    (h : (qa - pa < 0 ∧ pa ≤ xa) ∨ (¬ qa - pa < 0 ∧ xa ≤ pa)) :
    (qa - pa) * (qa - pa) ≤ (qa - xa) * (qa - xa) := by
  rcases h with ⟨h1, h2⟩ | ⟨h1, h2⟩ <;> nlinarith

theorem node_run (dim : ℕ) (q : List ℚ) (hq : q.length = dim)
    (pa : ℚ) (ax : ℕ) (hax : ax < dim)
    (near far : KDNode) (hfwf : far.WF dim)
    (hfar : ∀ pi ∈ far.entries,
      (q.getD ax 0 - pa) * (q.getD ax 0 - pa)
        ≤ (q.getD ax 0 - pi.1.getD ax 0) * (q.getD ax 0 - pi.1.getD ax 0))
    (IHnear : ∀ b2 : List (ℚ × String), b2.length ≤ 1 →
      (searchNode near q 1 b2).length = min 1 (b2.length + near.count) ∧
      (∀ e ∈ searchNode near q 1 b2, e ∈ b2 ∨
        ∃ pi ∈ near.entries, e = (distance_sq q pi.1, pi.2)) ∧
      (∀ pi ∈ near.entries, ∀ e ∈ searchNode near q 1 b2,
        e.1 ≤ distance_sq q pi.1) ∧
      (∀ eb ∈ b2, ∀ e ∈ searchNode near q 1 b2, e.1 ≤ eb.1))
    (IHfar : ∀ b2 : List (ℚ × String), b2.length ≤ 1 →
      (searchNode far q 1 b2).length = min 1 (b2.length + far.count) ∧
      (∀ e ∈ searchNode far q 1 b2, e ∈ b2 ∨
        ∃ pi ∈ far.entries, e = (distance_sq q pi.1, pi.2)) ∧
      (∀ pi ∈ far.entries, ∀ e ∈ searchNode far q 1 b2,
        e.1 ≤ distance_sq q pi.1) ∧
      (∀ eb ∈ b2, ∀ e ∈ searchNode far q 1 b2, e.1 ≤ eb.1))
    (m : ℚ × String) :
    (if ((searchNode near q 1 [m]).length : ℤ) < 1 ∨
        (q.getD ax 0 - pa) * (q.getD ax 0 - pa)
          < ((searchNode near q 1 [m]).getLastD (0, "")).1 then
      searchNode far q 1 (searchNode near q 1 [m])
     else searchNode near q 1 [m]).length = 1 ∧
    (∀ e ∈ (if ((searchNode near q 1 [m]).length : ℤ) < 1 ∨
        (q.getD ax 0 - pa) * (q.getD ax 0 - pa)
          < ((searchNode near q 1 [m]).getLastD (0, "")).1 then
      searchNode far q 1 (searchNode near q 1 [m])
     else searchNode near q 1 [m]),
      e = m ∨ (∃ pi ∈ near.entries, e = (distance_sq q pi.1, pi.2)) ∨
        ∃ pi ∈ far.entries, e = (distance_sq q pi.1, pi.2)) ∧
    (∀ pi, (pi ∈ near.entries ∨ pi ∈ far.entries) →
      ∀ e ∈ (if ((searchNode near q 1 [m]).length : ℤ) < 1 ∨
        (q.getD ax 0 - pa) * (q.getD ax 0 - pa)
          < ((searchNode near q 1 [m]).getLastD (0, "")).1 then
      searchNode far q 1 (searchNode near q 1 [m])
     else searchNode near q 1 [m]), e.1 ≤ distance_sq q pi.1) ∧
    (∀ e ∈ (if ((searchNode near q 1 [m]).length : ℤ) < 1 ∨
        (q.getD ax 0 - pa) * (q.getD ax 0 - pa)
          < ((searchNode near q 1 [m]).getLastD (0, "")).1 then
      searchNode far q 1 (searchNode near q 1 [m])
     else searchNode near q 1 [m]), e.1 ≤ m.1) := by
  obtain ⟨len3, gen3, opt3, le3⟩ := IHnear [m] (by norm_num)
  have hlen3 : (searchNode near q 1 [m]).length = 1 := by
    rw [len3]
    simp only [List.length_singleton]
    omega
  obtain ⟨e3, he3⟩ := List.length_eq_one.mp hlen3
  have he3mem : e3 ∈ searchNode near q 1 [m] := by
    rw [he3]
    exact List.mem_singleton_self e3
  have he3m : e3.1 ≤ m.1 := le3 m (List.mem_singleton_self m) e3 he3mem
  have hcond : (((searchNode near q 1 [m]).length : ℤ) < 1 ∨
      (q.getD ax 0 - pa) * (q.getD ax 0 - pa)
        < ((searchNode near q 1 [m]).getLastD (0, "")).1) ↔
      (q.getD ax 0 - pa) * (q.getD ax 0 - pa) < e3.1 := by
    rw [he3]
    simp
  have hgen3 : e3 = m ∨ ∃ pi ∈ near.entries, e3 = (distance_sq q pi.1, pi.2) := by
    rcases gen3 e3 he3mem with h | h
    · exact Or.inl (List.mem_singleton.mp h)
    · exact Or.inr h
  by_cases hv : (q.getD ax 0 - pa) * (q.getD ax 0 - pa) < e3.1
  · rw [if_pos (hcond.mpr hv), he3]
    obtain ⟨len4, gen4, opt4, le4⟩ := IHfar [e3] (by norm_num)
    have he4 : ∀ e ∈ searchNode far q 1 [e3], e.1 ≤ e3.1 :=
      fun e he => le4 e3 (List.mem_singleton_self e3) e he
    refine ⟨?_, ?_, ?_, ?_⟩
    · rw [len4]
      simp only [List.length_singleton]
      omega
    · intro e he
      rcases gen4 e he with h | h
      · rcases hgen3 with h2 | h2
        · rw [List.mem_singleton.mp h, h2]
          exact Or.inl rfl
        · rw [List.mem_singleton.mp h]
          exact Or.inr (Or.inl h2)
      · exact Or.inr (Or.inr h)
    · intro pi hpi e he
      rcases hpi with hpi | hpi
      · exact le_trans (he4 e he) (opt3 pi hpi e3 he3mem)
      · exact opt4 pi hpi e he
    · intro e he
      exact le_trans (he4 e he) he3m
  · rw [if_neg (fun hc => hv (hcond.mp hc)), he3]
    have hnv : e3.1 ≤ (q.getD ax 0 - pa) * (q.getD ax 0 - pa) := not_lt.mp hv
    refine ⟨rfl, ?_, ?_, ?_⟩
    · intro e he
      rw [List.mem_singleton.mp he]
      rcases hgen3 with h | h
      · exact Or.inl h
      · exact Or.inr (Or.inl h)
    · intro pi hpi e he
      rw [List.mem_singleton.mp he]
      rcases hpi with hpi | hpi
      · exact opt3 pi hpi e3 he3mem
      · have hb1 := hfar pi hpi
        have hb2 : (q.getD ax 0 - pi.1.getD ax 0) * (q.getD ax 0 - pi.1.getD ax 0)
            ≤ distance_sq q pi.1 := by
          refine axis_bound q pi.1 ax ?_ ?_
          · rw [hq]
            exact hax
          · rw [hq, KDNode.entries_wf dim far hfwf pi hpi]
        exact le_trans hnv (le_trans hb1 hb2)
    · intro e he
      rw [List.mem_singleton.mp he]
      exact he3m

theorem searchNode_props (dim : ℕ) (q : List ℚ) (hq : q.length = dim) :
    ∀ t : KDNode, t.WF dim → ∀ best : List (ℚ × String), best.length ≤ 1 →
    (searchNode t q 1 best).length = min 1 (best.length + t.count) ∧
    (∀ e ∈ searchNode t q 1 best, e ∈ best ∨
      ∃ pi ∈ t.entries, e = (distance_sq q pi.1, pi.2)) ∧
    (∀ pi ∈ t.entries, ∀ e ∈ searchNode t q 1 best, e.1 ≤ distance_sq q pi.1) ∧
    (∀ eb ∈ best, ∀ e ∈ searchNode t q 1 best, e.1 ≤ eb.1) := by
  intro t
  induction t with
  | nil =>
    intro _ best hblen
    rw [searchNode_nil]
    have hc : KDNode.count .nil = 0 := rfl
    refine ⟨?_, fun e he => Or.inl he, ?_, ?_⟩
    · rw [hc]
      omega
    · intro pi hpi
      exact absurd hpi (List.not_mem_nil pi)
    · intro eb heb e he
      cases best with
      | nil => exact absurd heb (List.not_mem_nil eb)
      | cons b tb =>
        have htb : tb = [] := by
          cases tb with
          | nil => rfl
          | cons c tc => simp at hblen
        subst htb
        rw [List.mem_singleton.mp heb, List.mem_singleton.mp he]
  | node p id ax l r ihl ihr =>
    intro hwf best hblen
    obtain ⟨hp, hax, hbl, hbr, hwl, hwr⟩ := hwf
    obtain ⟨m, hm_eq, hm_mem, hm_leb, hm_lex⟩ :=
      kd_trim best (distance_sq q p, id) hblen
    have hcount : (KDNode.node p id ax l r).count = l.count + r.count + 1 := rfl
    have hent : (KDNode.node p id ax l r).entries
        = l.entries ++ (p, id) :: r.entries := rfl
    by_cases hdel : q.getD ax 0 - p.getD ax 0 < 0
    · have hrun : searchNode (.node p id ax l r) q 1 best =
          (if ((searchNode l q 1 [m]).length : ℤ) < 1 ∨
              (q.getD ax 0 - p.getD ax 0) * (q.getD ax 0 - p.getD ax 0)
                < ((searchNode l q 1 [m]).getLastD (0, "")).1 then
            searchNode r q 1 (searchNode l q 1 [m])
          else searchNode l q 1 [m]) := by
        rw [searchNode_node]
        dsimp only []
        rw [hm_eq]
        simp only [if_pos hdel]
      have hfar : ∀ pi ∈ r.entries,
          (q.getD ax 0 - p.getD ax 0) * (q.getD ax 0 - p.getD ax 0)
            ≤ (q.getD ax 0 - pi.1.getD ax 0) * (q.getD ax 0 - pi.1.getD ax 0) :=
        fun pi hpi => delta_sq_le _ _ _ (Or.inl ⟨hdel, hbr pi hpi⟩)
      obtain ⟨P1, P2, P3, P4⟩ := node_run dim q hq (p.getD ax 0) ax hax
        l r hwr hfar (ihl hwl) (ihr hwr) m
      rw [hrun, hcount]
      refine ⟨?_, ?_, ?_, ?_⟩
      · rw [P1]
        omega
      · intro e he
        rcases P2 e he with h | ⟨pi, hpi, hpe⟩ | ⟨pi, hpi, hpe⟩
        · rcases hm_mem with h2 | h2
          · exact Or.inl (h ▸ h2)
          · refine Or.inr ⟨(p, id), ?_, by rw [h, h2]⟩
            rw [hent]
            exact List.mem_append_right _ (List.mem_cons_self _ _)
        · refine Or.inr ⟨pi, ?_, hpe⟩
          rw [hent]
          exact List.mem_append_left _ hpi
        · refine Or.inr ⟨pi, ?_, hpe⟩
          rw [hent]
          exact List.mem_append_right _ (List.mem_cons_of_mem _ hpi)
      · intro pi hpi e he
        rw [hent] at hpi
        rcases List.mem_append.mp hpi with hpi | hpi
        · exact P3 pi (Or.inl hpi) e he
        · rcases List.mem_cons.mp hpi with hpi | hpi
          · rw [hpi]
            exact le_trans (P4 e he) hm_lex
          · exact P3 pi (Or.inr hpi) e he
      · intro eb heb e he
        exact le_trans (P4 e he) (hm_leb eb heb)
    · have hrun : searchNode (.node p id ax l r) q 1 best =
          (if ((searchNode r q 1 [m]).length : ℤ) < 1 ∨
              (q.getD ax 0 - p.getD ax 0) * (q.getD ax 0 - p.getD ax 0)
                < ((searchNode r q 1 [m]).getLastD (0, "")).1 then
            searchNode l q 1 (searchNode r q 1 [m])
          else searchNode r q 1 [m]) := by
        rw [searchNode_node]
        dsimp only []
        rw [hm_eq]
        simp only [if_neg hdel]
      have hfar : ∀ pi ∈ l.entries,
          (q.getD ax 0 - p.getD ax 0) * (q.getD ax 0 - p.getD ax 0)
            ≤ (q.getD ax 0 - pi.1.getD ax 0) * (q.getD ax 0 - pi.1.getD ax 0) :=
        fun pi hpi => delta_sq_le _ _ _ (Or.inr ⟨hdel, hbl pi hpi⟩)
      obtain ⟨P1, P2, P3, P4⟩ := node_run dim q hq (p.getD ax 0) ax hax
        r l hwl hfar (ihr hwr) (ihl hwl) m
      rw [hrun, hcount]
      refine ⟨?_, ?_, ?_, ?_⟩
      · rw [P1]
        omega
      · intro e he
        rcases P2 e he with h | ⟨pi, hpi, hpe⟩ | ⟨pi, hpi, hpe⟩
        · rcases hm_mem with h2 | h2
          · exact Or.inl (h ▸ h2)
          · refine Or.inr ⟨(p, id), ?_, by rw [h, h2]⟩
            rw [hent]
            exact List.mem_append_right _ (List.mem_cons_self _ _)
        · refine Or.inr ⟨pi, ?_, hpe⟩
          rw [hent]
          exact List.mem_append_right _ (List.mem_cons_of_mem _ hpi)
        · refine Or.inr ⟨pi, ?_, hpe⟩
          rw [hent]
          exact List.mem_append_left _ hpi
      · intro pi hpi e he
        rw [hent] at hpi
        rcases List.mem_append.mp hpi with hpi | hpi
        · exact P3 pi (Or.inr hpi) e he
        · rcases List.mem_cons.mp hpi with hpi | hpi
          · rw [hpi]
            exact le_trans (P4 e he) hm_lex
          · exact P3 pi (Or.inl hpi) e he
      · intro eb heb e he
        exact le_trans (P4 e he) (hm_leb eb heb)


theorem entries_length : ∀ t : KDNode, t.entries.length = t.count := by
  intro t
  induction t with
  | nil => rfl
  | node p id ax l r ihl ihr =>
    show (l.entries ++ (p, id) :: r.entries).length = l.count + r.count + 1
    rw [List.length_append, List.length_cons, ihl, ihr]
    omega

theorem desc_top (l : List (String × ℚ)) (hne : ¬ l = []) :
    ∃ e, (sortByScoreDesc l).take 1 = [e] ∧ e ∈ l ∧ ∀ x ∈ l, x.2 ≤ e.2 := by
  have hperm := sortByScoreDesc_perm l
  have hsorted := sortByScoreDesc_sorted l
  cases hs : sortByScoreDesc l with
  | nil =>
    rw [hs] at hperm
    exact absurd (hperm.symm.eq_nil) hne
  | cons e rest =>
    rw [hs] at hperm hsorted
    refine ⟨e, rfl, hperm.mem_iff.mp (List.mem_cons_self e rest), ?_⟩
    intro x hx
    rcases List.mem_cons.mp (hperm.mem_iff.mpr hx) with h | h
    · rw [h]
    · exact (List.pairwise_cons.mp hsorted).1 x h

theorem mem_zip_of_mem_left (vectors : List (List ℚ)) (ids : List String)
    (hlen : ids.length = vectors.length) (w : List ℚ) (hw : w ∈ vectors) :
    ∃ j, (w, j) ∈ List.zip vectors ids := by
  obtain ⟨i, hi, hwi⟩ := List.mem_iff_getElem.mp hw
  have hz : i < (List.zip vectors ids).length := by
    rw [List.length_zip]
    omega
  refine ⟨ids[i], ?_⟩
  have hg : (List.zip vectors ids)[i] = (vectors[i], ids[i]) := List.getElem_zip
  rw [← hwi, ← hg]
  exact List.getElem_mem hz

theorem mem_zip_swap (vectors : List (List ℚ)) (ids : List String)
    (pr : String × List ℚ) (h : pr ∈ List.zip ids vectors) :
    (pr.2, pr.1) ∈ List.zip vectors ids := by
  have := List.mem_map_of_mem Prod.swap h
  rw [List.zip_swap] at this
  exact this

theorem normSq_one_norm (a : List ℚ) (h : normSq a = 1) : l2_norm a = 1 := by
  unfold l2_norm
  rw [h, ratSqrt_one]

/-- Claim C1: for unit vectors of a common positive dimension, the top-1
result of the KD-tree `search(q, 1)` is a stored `(id, score)` pair whose
score is `1 - d²/2` for `d²` the squared L2 distance from the query to its
vector, equals that vector's cosine similarity `dot q v`, and is maximal
among all stored vectors; the pruned traversal loses no candidate, and the
brute-force `search(q, 1)` returns a pair with the same (maximal) score, up
to ties in which id attains it. -/
theorem C1_kd_top1 (vectors : List (List ℚ)) (ids : List String)
    (q : List ℚ) (dim : ℕ) (hdim : 0 < dim)
    (hqlen : q.length = dim) (hq1 : normSq q = 1)
    (hvl : ∀ v ∈ vectors, v.length = dim) (hv1 : ∀ v ∈ vectors, normSq v = 1)
    (hne : ¬ vectors = []) (hlen : ids.length = vectors.length) :
    ∃ id v, (v, id) ∈ List.zip vectors ids ∧
      (KDTreeIndex.empty.build vectors ids).search q 1
        = [(id, 1 - distance_sq q v / 2)] ∧
      1 - distance_sq q v / 2 = dot q v ∧
      (∀ w ∈ vectors, dot q w ≤ dot q v) ∧
      ∃ id2 v2, (v2, id2) ∈ List.zip vectors ids ∧
        ((BruteForceIndex.empty true).build vectors ids).search q 1
          = [(id2, dot q v2)] ∧
        dot q v2 = dot q v := by
  have hnorm : vectors.map normalize = vectors := by
    have h1 : vectors.map normalize = vectors.map (fun v => v) :=
      List.map_congr_left (fun v hv => normalize_unit v (normSq_one_norm v (hv1 v hv)))
    rw [h1, List.map_id']
  have hql : l2_norm q = 1 := normSq_one_norm q hq1
  have hq' : normalize q = q := normalize_unit q hql
  have hroot : (KDTreeIndex.empty.build vectors ids).root
      = buildRec (List.zip vectors ids) 0 := by
    unfold KDTreeIndex.build
    rw [if_neg hne]
    dsimp only []
    rw [hnorm]
  have hvp : 0 < vectors.length := List.length_pos.mpr hne
  have hil : (List.zip vectors ids).length = vectors.length := by
    rw [List.length_zip, hlen, min_self]
  have hine : ¬ (List.zip vectors ids) = [] := by
    intro hc
    rw [hc] at hil
    simp at hil
    omega
  have hmemlen : ∀ e ∈ List.zip vectors ids, e.1.length = dim := by
    intro e he
    exact hvl e.1 (List.of_mem_zip (show (e.1, e.2) ∈ _ from he)).1
  have hwf := buildRec_wf dim hdim (List.zip vectors ids) 0 hmemlen
  have hperm := buildRec_entries_perm (List.zip vectors ids) 0
  have hrne : ¬ (buildRec (List.zip vectors ids) 0) = KDNode.nil := by
    intro hc
    rw [hc] at hperm
    have h2 : ([] : List (List ℚ × String)).Perm (List.zip vectors ids) := hperm
    exact hine (h2.symm.eq_nil)
  obtain ⟨P1, P2, P3, P4⟩ := searchNode_props dim q hqlen
    (buildRec (List.zip vectors ids) 0) hwf [] (by norm_num)
  have hlen1 : (searchNode (buildRec (List.zip vectors ids) 0) q 1 []).length = 1 := by
    rw [P1]
    have hc := entries_length (buildRec (List.zip vectors ids) 0)
    have hel : (buildRec (List.zip vectors ids) 0).entries.length
        = (List.zip vectors ids).length := hperm.length_eq
    simp only [List.length_nil]
    omega
  obtain ⟨e, he⟩ := List.length_eq_one.mp hlen1
  have hemem : e ∈ searchNode (buildRec (List.zip vectors ids) 0) q 1 [] := by
    rw [he]
    exact List.mem_singleton_self e
  rcases P2 e hemem with h | ⟨pi, hpi, hpe⟩
  · exact absurd h (List.not_mem_nil e)
  have hpiz : pi ∈ List.zip vectors ids := hperm.mem_iff.mp hpi
  have hvmem : pi.1 ∈ vectors := (List.of_mem_zip (show (pi.1, pi.2) ∈ _ from hpiz)).1
  have hdist : ∀ w ∈ vectors, distance_sq q w = 2 - 2 * dot q w := by
    intro w hw
    rw [distance_sq_eq q w (by rw [hqlen, hvl w hw]), hq1, hv1 w hw]
    ring
  have hsearch : (KDTreeIndex.empty.build vectors ids).search q 1
      = [(e.2, 1 - e.1 / 2)] := by
    unfold KDTreeIndex.search
    rw [hroot, if_neg (by push_neg; exact ⟨hrne, by norm_num⟩)]
    dsimp only []
    rw [hq', he]
    rfl
  refine ⟨pi.2, pi.1, hpiz, ?_, ?_, ?_, ?_⟩
  · rw [hsearch, hpe]
  · rw [hdist pi.1 hvmem]
    ring
  · intro w hw
    obtain ⟨j2, hj2⟩ := mem_zip_of_mem_left vectors ids hlen w hw
    have hopt := P3 (w, j2) (hperm.mem_iff.mpr hj2) e hemem
    rw [hpe] at hopt
    dsimp only [] at hopt
    rw [hdist w hw, hdist pi.1 hvmem] at hopt
    linarith
  · -- brute force part
    have hbf0 : ((BruteForceIndex.empty true).build vectors ids).search q 1
        = (sortByScoreDesc ((List.zip ids (vectors.map normalize)).map
            (fun pr => (pr.1, cosine_similarity (normalize q) pr.2)))).take
            (max 0 (1 : ℤ)).toNat := rfl
    have hcos : (List.zip ids vectors).map
        (fun pr => (pr.1, cosine_similarity q pr.2))
        = (List.zip ids vectors).map (fun pr => (pr.1, dot q pr.2)) := by
      refine List.map_congr_left (fun pr hpr => ?_)
      have hw : pr.2 ∈ vectors :=
        (List.of_mem_zip (show (pr.1, pr.2) ∈ _ from hpr)).2
      rw [cosine_similarity_unit q pr.2 hql (normSq_one_norm pr.2 (hv1 pr.2 hw))]
    have hbf : ((BruteForceIndex.empty true).build vectors ids).search q 1
        = (sortByScoreDesc ((List.zip ids vectors).map
            (fun pr => (pr.1, dot q pr.2)))).take 1 := by
      rw [hbf0, hnorm, hq', hcos]
      rfl
    have hpne : ¬ ((List.zip ids vectors).map
        (fun pr => (pr.1, dot q pr.2))) = [] := by
      intro hc
      rw [List.map_eq_nil_iff] at hc
      have h2 : (List.zip ids vectors).length = 0 := by
        rw [hc]
        rfl
      rw [List.length_zip, hlen, min_self] at h2
      omega
    obtain ⟨e2, he2take, he2mem, he2max⟩ := desc_top _ hpne
    obtain ⟨pr2, hpr2, he2eq⟩ := List.mem_map.mp he2mem
    have hw2 : (pr2.2, pr2.1) ∈ List.zip vectors ids := mem_zip_swap vectors ids pr2 hpr2
    have hw2v : pr2.2 ∈ vectors :=
      (List.of_mem_zip (show (pr2.2, pr2.1) ∈ _ from hw2)).1
    refine ⟨pr2.1, pr2.2, hw2, ?_, ?_⟩
    · rw [hbf, he2take, ← he2eq]
    · -- scores coincide
      have hle1 : dot q pr2.2 ≤ dot q pi.1 := by
        -- kd optimality applied to pr2
        have hopt := P3 (pr2.2, pr2.1) (hperm.mem_iff.mpr hw2) e hemem
        rw [hpe] at hopt
        dsimp only [] at hopt
        rw [hdist pr2.2 hw2v, hdist pi.1 hvmem] at hopt
        linarith
      have hle2 : dot q pi.1 ≤ dot q pr2.2 := by
        -- bf maximality applied to the kd winner
        have hmm : (pi.2, dot q pi.1) ∈ (List.zip ids vectors).map
            (fun pr => (pr.1, dot q pr.2)) := by
          refine List.mem_map.mpr ⟨(pi.2, pi.1), ?_, rfl⟩
          have h3 := List.mem_map_of_mem Prod.swap hpiz
          rw [List.zip_swap] at h3
          exact h3
        have := he2max (pi.2, dot q pi.1) hmm
        rw [← he2eq] at this
        dsimp only [] at this
        exact this
      exact le_antisymm hle1 hle2

theorem C1_witness :
    ∃ id v, (v, id) ∈ List.zip [[1, 0], [0, 1]] (["a", "b"] : List String) ∧
      (KDTreeIndex.empty.build [[1, 0], [0, 1]] ["a", "b"]).search [1, 0] 1
        = [(id, 1 - distance_sq [1, 0] v / 2)] ∧
      1 - distance_sq [1, 0] v / 2 = dot [1, 0] v ∧
      (∀ w ∈ [[1, 0], [0, 1]], dot [1, 0] w ≤ dot [1, 0] v) ∧
      ∃ id2 v2, (v2, id2) ∈ List.zip [[1, 0], [0, 1]] (["a", "b"] : List String) ∧
        ((BruteForceIndex.empty true).build [[1, 0], [0, 1]] ["a", "b"]).search [1, 0] 1
          = [(id2, dot [1, 0] v2)] ∧
        dot [1, 0] v2 = dot [1, 0] v :=
  C1_kd_top1 [[1, 0], [0, 1]] ["a", "b"] [1, 0] 2 (by decide)
    rfl
    (by norm_num [normSq])
    (by decide)
    (by
      intro v hv
      rcases List.mem_cons.mp hv with h | h
      · rw [h]
        norm_num [normSq]
      · rw [List.mem_singleton.mp h]
        norm_num [normSq])
    (by decide)
    rfl

end VDB
